import Mathlib

/-!
# Verification of the dense-matrix graph-algorithms repository

Shallow embedding of the Python sources (adjacency/incidence conversion,
reachability closure, Prim MST, iterative DFS/BFS, Dijkstra, Floyd–Warshall,
Edmonds–Karp max-flow, exact graph coloring) together with proofs of the
specification claims C1–C10.

Conventions used throughout:
* A matrix of Python ints is embedded as a function `w : ℕ → ℕ → ℤ`
  together with its size `n : ℕ`; entry `w i j` corresponds to `w[i][j]`
  for `i, j < n` (a Python list of lists indexed inside its bounds).
* Python `math.inf` sentinels in distance arrays become `⊤` of `WithTop ℤ`;
  the arithmetic (`inf + x = inf`, comparisons against `inf`) agrees with
  the `WithTop` operations on the integer-valued entries the programs use.
* `while` loops whose termination is a property of the input (not of the
  program syntax) are embedded with an explicit fuel parameter; sufficiency
  of the fuel used is proved where a claim needs the loop's final state.
* Mutable arrays that are written pointwise become functional updates.
-/

namespace GraphLib

/-- Entries of the `n × n` block are all non-negative. -/
def NonnegMat (w : ℕ → ℕ → ℤ) (n : ℕ) : Prop :=
  ∀ i < n, ∀ j < n, 0 ≤ w i j

/-- The diagonal of the `n × n` block is zero (no self-loops). -/
def ZeroDiag (w : ℕ → ℕ → ℤ) (n : ℕ) : Prop :=
  ∀ i < n, w i i = 0

/-- Entries of the `n × n` block are all `0` or `1`. -/
def ZeroOneMat (w : ℕ → ℕ → ℤ) (n : ℕ) : Prop :=
  ∀ i < n, ∀ j < n, w i j = 0 ∨ w i j = 1

/-- The `n × n` block is symmetric (undirected graph). -/
def SymmMat (w : ℕ → ℕ → ℤ) (n : ℕ) : Prop :=
  ∀ i < n, ∀ j < n, w i j = w j i

instance (w : ℕ → ℕ → ℤ) (n : ℕ) : Decidable (NonnegMat w n) := by
  unfold NonnegMat; infer_instance

instance (w : ℕ → ℕ → ℤ) (n : ℕ) : Decidable (ZeroDiag w n) := by
  unfold ZeroDiag; infer_instance

instance (w : ℕ → ℕ → ℤ) (n : ℕ) : Decidable (ZeroOneMat w n) := by
  unfold ZeroOneMat; infer_instance

instance (w : ℕ → ℕ → ℤ) (n : ℕ) : Decidable (SymmMat w n) := by
  unfold SymmMat; infer_instance

/-- Build a matrix function from a rectangular list of rows
(out-of-range entries read `0`); used to write concrete instances. -/
def matOf (rows : List (List ℤ)) : ℕ → ℕ → ℤ :=
  fun i j => ((rows.getD i []).getD j 0)

end GraphLib

/-!
## C9: vertex-selection validation in the `main` functions

The spec asserts that every program taking a 1-based vertex selection
aborts when the selection is outside `1..n`.  The `main` of
`dijkstra_shortest_paths.py` (lines 172–182) and of
`max_flow_ford_fulkerson.py` (lines 199–210) indeed return without running
the algorithm.  The `main` of `dfs_bfs_nonrecursive.py` (lines 150–162)
instead prints a message and *falls back to vertex 1* (`start = 0`), then
runs both traversals on that substituted vertex.

Below, the post-parse selection logic of each `main` is embedded as a pure
function.  `none` models "validation failed, the algorithm does not run";
`some start` models "the algorithm runs with 0-based start vertex `start`".
A malformed or empty token for the DFS program is modelled by `none` on the
`raw` input side (Python's `int()` failure and the empty string both take
the fallback branch).
-/

namespace GraphLib

/-- `main` of `dijkstra_shortest_paths.py`: both 1-based endpoints must lie
in `1..n`, otherwise the program returns before running Dijkstra. -/
def dijkstraMainSelection (n : ℕ) (s t : ℤ) : Option (ℕ × ℕ) :=
  if 1 ≤ s ∧ s ≤ (n : ℤ) ∧ 1 ≤ t ∧ t ≤ (n : ℤ) then
    some ((s - 1).toNat, (t - 1).toNat)
  else
    none

/-- `main` of `max_flow_ford_fulkerson.py`: both 1-based endpoints must lie
in `1..n` and differ, otherwise the program returns before running the
algorithm. -/
def maxflowMainSelection (n : ℕ) (s t : ℤ) : Option (ℕ × ℕ) :=
  if (1 ≤ s ∧ s ≤ (n : ℤ) ∧ 1 ≤ t ∧ t ≤ (n : ℤ)) ∧ s ≠ t then
    some ((s - 1).toNat, (t - 1).toNat)
  else
    none

/-- `main` of `dfs_bfs_nonrecursive.py`: an empty or malformed token
(`raw = none`) selects the default vertex 1; an out-of-range number prints
"Некорректный ввод" and *also* falls back to vertex 1; the traversal always
runs. -/
def dfsMainSelection (n : ℕ) (raw : Option ℤ) : Option ℕ :=
  match raw with
  | none => some 0
  | some s => if 1 ≤ s ∧ s ≤ (n : ℤ) then some (s - 1).toNat else some 0

/-- C9 counterexample: with `n = 2` vertices and the out-of-range 1-based
selection `5`, the DFS/BFS program does **not** fail validation: it runs
the traversal on the substituted vertex 1 (0-based index 0).  The claim
"the invocation fails validation and no algorithm runs on a substituted
vertex" is therefore false for this program. -/
theorem C9_counterexample :
    dfsMainSelection 2 (some 5) = some 0 ∧ dfsMainSelection 2 (some 5) ≠ none := by
  constructor
  · rfl
  · intro h
    simp [dfsMainSelection] at h

/-- C9 (amended): an out-of-range 1-based source or target makes the
Dijkstra and max-flow programs fail validation without running anything,
but the DFS/BFS traversal program substitutes vertex 1 (0-based index 0)
and runs the traversal on it. -/
theorem C9_amended :
    (∀ (n : ℕ) (s t : ℤ), (s < 1 ∨ (n : ℤ) < s ∨ t < 1 ∨ (n : ℤ) < t) →
      dijkstraMainSelection n s t = none ∧ maxflowMainSelection n s t = none) ∧
    (∀ (n : ℕ) (s : ℤ), (s < 1 ∨ (n : ℤ) < s) →
      dfsMainSelection n (some s) = some 0) := by
  constructor
  · intro n s t h
    constructor
    · unfold dijkstraMainSelection
      rw [if_neg]
      intro ⟨h1, h2, h3, h4⟩
      rcases h with h | h | h | h <;> omega
    · unfold maxflowMainSelection
      rw [if_neg]
      intro ⟨⟨h1, h2, h3, h4⟩, _⟩
      rcases h with h | h | h | h <;> omega
  · intro n s h
    show (if 1 ≤ s ∧ s ≤ (n : ℤ) then some (s - 1).toNat else some 0) = some 0
    rw [if_neg]
    intro ⟨h1, h2⟩
    rcases h with h | h <;> omega

/-- Witness for `C9_amended` at the concrete input `n = 2`, `s = 5`,
`t = 1`. -/
theorem C9_amended_witness :
    dijkstraMainSelection 2 5 1 = none ∧ maxflowMainSelection 2 5 1 = none ∧
      dfsMainSelection 2 (some 5) = some 0 := by
  refine ⟨(C9_amended.1 2 5 1 (by decide)).1, (C9_amended.1 2 5 1 (by decide)).2,
    C9_amended.2 2 5 (by decide)⟩

end GraphLib

/-!
## C2: adjacency → incidence → adjacency round trip

Embedding of `Graph.edges` / `Graph.incidence_matrix`
(`adj2inc_matrix.py`) and `IncidenceGraph.edges` /
`IncidenceGraph.to_adjacency_matrix` (`inc2adj_matrix.py`).
-/

namespace GraphLib

/-- Tag of an edge produced by the converters
(Python strings `'undirected'` / `'directed'`). -/
inductive EdgeKind where
  | undirected
  | directed
deriving DecidableEq, Repr

namespace Adj2Inc

/-- `Graph.edges` of `adj2inc_matrix.py`: row-major double loop; a
symmetric pair of `1`s is emitted once (as `('undirected', i, j)` with
`i < j`), a single `1` as `('directed', i, j)`. -/
def edges (adj : ℕ → ℕ → ℤ) (n : ℕ) : List (EdgeKind × ℕ × ℕ) :=
  (List.range n).flatMap (fun i =>
    (List.range n).filterMap (fun j =>
      if adj i j = 1 then
        if i = j then none
        else if adj j i = 1 then
          if i < j then some (.undirected, i, j) else none
        else some (.directed, i, j)
      else none))

/-- `Graph.incidence_matrix`: entry of the incidence matrix at row `i`,
column `k`.  The Python code fills a zero `n × m` matrix and writes each
column `k` exactly once from `edges_list[k]`, so the final matrix is the
function below. -/
def incEntry (edgesList : List (EdgeKind × ℕ × ℕ)) (i k : ℕ) : ℤ :=
  match edgesList[k]? with
  | some (.undirected, u, v) => if i = u ∨ i = v then 1 else 0
  | some (.directed, u, v) => if i = u then -1 else if i = v then 1 else 0
  | none => 0

end Adj2Inc

namespace Inc2Adj

/-- One iteration of the column loop in `IncidenceGraph.edges`
(`inc2adj_matrix.py`): collect the rows holding `+1` and `-1` and classify
the column; `none` models the `ValueError` raised on a malformed column. -/
def parseColumn (inc : ℕ → ℕ → ℤ) (n e : ℕ) : Option (EdgeKind × ℕ × ℕ) :=
  let pos := (List.range n).filter (fun i => inc i e = 1)
  let neg := (List.range n).filter (fun i => inc i e = -1)
  if pos.length = 2 ∧ neg.length = 0 then
    some (.undirected, pos.getD 0 0, pos.getD 1 0)
  else if pos.length = 1 ∧ neg.length = 1 then
    some (.directed, neg.getD 0 0, pos.getD 0 0)
  else none

/-- `IncidenceGraph.edges`: parse all `m` columns in order, failing if any
column is malformed. -/
def edgesOfInc (inc : ℕ → ℕ → ℤ) (n m : ℕ) : Option (List (EdgeKind × ℕ × ℕ)) :=
  (List.range m).mapM (parseColumn inc n)

/-- Does the edge write a `1` at cell `(i, j)` of the rebuilt adjacency
matrix (`adj[u][v] = adj[v][u] = 1` for undirected, `adj[u][v] = 1` for
directed)? -/
def writesAt : EdgeKind × ℕ × ℕ → ℕ → ℕ → Bool
  | (.undirected, u, v), i, j => (u = i ∧ v = j) ∨ (v = i ∧ u = j)
  | (.directed, u, v), i, j => u = i ∧ v = j

/-- `IncidenceGraph.to_adjacency_matrix`: the rebuilt matrix starts at zero
and every edge writes `1`s, so a cell is `1` exactly when some edge writes
it. -/
def toAdjacencyMatrix (inc : ℕ → ℕ → ℤ) (n m : ℕ) : Option (ℕ → ℕ → ℤ) :=
  (edgesOfInc inc n m).map (fun es => fun i j =>
    if es.any (fun e => writesAt e i j) then 1 else 0)

end Inc2Adj

end GraphLib

namespace GraphLib

/-- A boolean predicate that holds for exactly one `u < n` filters
`List.range n` down to `[u]`. -/
theorem filter_range_single (p : ℕ → Bool) :
    ∀ (n u : ℕ), u < n → (∀ i, i < n → (p i = true ↔ i = u)) →
      (List.range n).filter p = [u] := by
  intro n
  induction n with
  | zero => intro u hu; omega
  | succ n ih =>
    intro u hu hp
    rw [List.range_succ, List.filter_append]
    by_cases hun : u = n
    · have h1 : (List.range n).filter p = [] := by
        rw [List.filter_eq_nil_iff]
        intro a ha
        rw [List.mem_range] at ha
        intro hpa
        have := (hp a (by omega)).1 hpa
        omega
      have h2 : p n = true := (hp n (by omega)).2 (by omega)
      simp [h1, h2, hun]
    · have h1 : (List.range n).filter p = [u] := by
        refine ih u (by omega) ?_
        intro i hi
        exact hp i (by omega)
      have h2 : p n = false := by
        cases hpn : p n with
        | false => rfl
        | true => exact absurd ((hp n (by omega)).1 hpn) (by omega)
      simp [h1, h2]

/-- A boolean predicate that holds for exactly two vertices `u < v < n`
filters `List.range n` down to `[u, v]`. -/
theorem filter_range_pair (p : ℕ → Bool) :
    ∀ (n u v : ℕ), u < v → v < n → (∀ i, i < n → (p i = true ↔ (i = u ∨ i = v))) →
      (List.range n).filter p = [u, v] := by
  intro n
  induction n with
  | zero => intro u v _ hv; omega
  | succ n ih =>
    intro u v huv hv hp
    rw [List.range_succ, List.filter_append]
    by_cases hvn : v = n
    · have h1 : (List.range n).filter p = [u] := by
        refine filter_range_single p n u (by omega) ?_
        intro i hi
        rw [hp i (by omega)]
        omega
      have h2 : p n = true := (hp n (by omega)).2 (by omega)
      simp [h1, h2, hvn]
    · have h1 : (List.range n).filter p = [u, v] := by
        refine ih u v huv (by omega) ?_
        intro i hi
        exact hp i (by omega)
      have h2 : p n = false := by
        cases hpn : p n with
        | false => rfl
        | true => rcases (hp n (by omega)).1 hpn with h' | h' <;> omega
      simp [h1, h2]

/-- A boolean predicate that fails below `n` filters `List.range n` to
`[]`. -/
theorem filter_range_nil (p : ℕ → Bool) (n : ℕ)
    (h : ∀ i, i < n → p i = false) : (List.range n).filter p = [] := by
  rw [List.filter_eq_nil_iff]
  intro a ha
  rw [List.mem_range] at ha
  simp [h a ha]

/-- `mapM` over `Option` succeeds pointwise. -/
theorem mapM_option_map {α β : Type} (f : α → Option β) (g : α → β) :
    ∀ (l : List α), (∀ a ∈ l, f a = some (g a)) → l.mapM f = some (l.map g) := by
  intro l
  induction l with
  | nil => intro _; rfl
  | cons a l ih =>
    intro h
    rw [List.mapM_cons, List.map_cons, h a (List.mem_cons_self a l),
      ih (fun b hb => h b (List.mem_cons_of_mem a hb))]
    rfl

/-- Reading a list back by index over `List.range` reproduces it. -/
theorem map_getD_range {α : Type} (l : List α) (d : α) :
    (List.range l.length).map (fun k => l.getD k d) = l := by
  apply List.ext_getElem
  · simp
  · intro k h1 h2
    simp [List.getD_eq_getElem?_getD, List.getElem?_eq_getElem h2]

end GraphLib

namespace GraphLib

namespace Adj2Inc

/-- Structure of an edge emitted by `Graph.edges`: endpoints in range and
distinct, ordered for undirected edges, with the adjacency entries that
triggered the emission. -/
theorem mem_edges_elim {adj : ℕ → ℕ → ℤ} {n : ℕ} {e : EdgeKind × ℕ × ℕ}
    (he : e ∈ edges adj n) :
    e.2.1 < n ∧ e.2.2 < n ∧ e.2.1 ≠ e.2.2 ∧
      (e.1 = .undirected →
        e.2.1 < e.2.2 ∧ adj e.2.1 e.2.2 = 1 ∧ adj e.2.2 e.2.1 = 1) ∧
      (e.1 = .directed → adj e.2.1 e.2.2 = 1 ∧ adj e.2.2 e.2.1 ≠ 1) := by
  unfold edges at he
  rw [List.mem_flatMap] at he
  obtain ⟨i, hi, he⟩ := he
  rw [List.mem_range] at hi
  rw [List.mem_filterMap] at he
  obtain ⟨j, hj, he⟩ := he
  rw [List.mem_range] at hj
  split_ifs at he with h1 h2 h3 h4
  · simp only [Option.some.injEq] at he
    subst he
    refine ⟨hi, hj, show i ≠ j by omega, ?_, ?_⟩
    · intro _; exact ⟨h4, h1, h3⟩
    · intro h; cases h
  · simp only [Option.some.injEq] at he
    subst he
    refine ⟨hi, hj, h2, ?_, ?_⟩
    · intro h; cases h
    · intro _; exact ⟨h1, h3⟩

/-- Completeness: a symmetric pair of `1`s with `i < j` yields the
undirected edge `(i, j)`. -/
theorem und_mem_edges {adj : ℕ → ℕ → ℤ} {n i j : ℕ}
    (hi : i < n) (hj : j < n) (hij : i < j)
    (h1 : adj i j = 1) (h2 : adj j i = 1) :
    (EdgeKind.undirected, i, j) ∈ edges adj n := by
  unfold edges
  rw [List.mem_flatMap]
  refine ⟨i, List.mem_range.2 hi, ?_⟩
  rw [List.mem_filterMap]
  refine ⟨j, List.mem_range.2 hj, ?_⟩
  simp only [h1, h2, if_pos, if_true]
  rw [if_pos hij, if_neg (show ¬ i = j by omega)]

/-- Completeness: a one-sided `1` yields the directed edge `(i, j)`. -/
theorem dir_mem_edges {adj : ℕ → ℕ → ℤ} {n i j : ℕ}
    (hi : i < n) (hj : j < n) (hij : i ≠ j)
    (h1 : adj i j = 1) (h2 : adj j i ≠ 1) :
    (EdgeKind.directed, i, j) ∈ edges adj n := by
  unfold edges
  rw [List.mem_flatMap]
  refine ⟨i, List.mem_range.2 hi, ?_⟩
  rw [List.mem_filterMap]
  refine ⟨j, List.mem_range.2 hj, ?_⟩
  simp only [h1]
  rw [if_neg hij, if_neg h2]
  simp

end Adj2Inc

end GraphLib



namespace GraphLib

/-- The incidence entry at row `i`, column `k`, written out for a column
holding an undirected edge `(u, v)`. -/
theorem incEntry_und {es : List (EdgeKind × ℕ × ℕ)} {k u v : ℕ}
    (h : es[k]? = some (EdgeKind.undirected, u, v)) (i : ℕ) :
    Adj2Inc.incEntry es i k = if i = u ∨ i = v then 1 else 0 := by
  unfold Adj2Inc.incEntry
  rw [h]

/-- The incidence entry at row `i`, column `k`, written out for a column
holding a directed edge `(u, v)`. -/
theorem incEntry_dir {es : List (EdgeKind × ℕ × ℕ)} {k u v : ℕ}
    (h : es[k]? = some (EdgeKind.directed, u, v)) (i : ℕ) :
    Adj2Inc.incEntry es i k = if i = u then -1 else if i = v then 1 else 0 := by
  unfold Adj2Inc.incEntry
  rw [h]

/-- Parsing a column of the incidence matrix built from `Graph.edges`
recovers exactly the edge the column was built from. -/
theorem parse_built_column (adj : ℕ → ℕ → ℤ) (n k : ℕ)
    (hk : k < (Adj2Inc.edges adj n).length) :
    Inc2Adj.parseColumn (Adj2Inc.incEntry (Adj2Inc.edges adj n)) n k
      = some (Adj2Inc.edges adj n)[k] := by
  have he : (Adj2Inc.edges adj n)[k] ∈ Adj2Inc.edges adj n := List.getElem_mem hk
  have hfacts := Adj2Inc.mem_edges_elim he
  have hsome : (Adj2Inc.edges adj n)[k]? = some (Adj2Inc.edges adj n)[k] :=
    List.getElem?_eq_getElem hk
  rcases hEk : (Adj2Inc.edges adj n)[k] with ⟨t, u, v⟩
  rw [hEk] at hfacts hsome
  obtain ⟨hu, hv, huv, hund, hdir⟩ := hfacts
  simp only at hu hv huv hund hdir
  cases t with
  | undirected =>
    obtain ⟨huv', _, _⟩ := hund rfl
    have hpos : ((List.range n).filter
        fun i => decide (Adj2Inc.incEntry (Adj2Inc.edges adj n) i k = 1)) = [u, v] := by
      refine filter_range_pair _ n u v huv' hv ?_
      intro i hi
      rw [decide_eq_true_eq, incEntry_und hsome i]
      split_ifs with hc
      · simp [hc]
      · simp [hc]
    have hneg : ((List.range n).filter
        fun i => decide (Adj2Inc.incEntry (Adj2Inc.edges adj n) i k = -1)) = [] := by
      refine filter_range_nil _ n ?_
      intro i hi
      rw [decide_eq_false_iff_not, incEntry_und hsome i]
      split_ifs <;> simp
    simp only [Inc2Adj.parseColumn, hpos, hneg]
    simp
  | directed =>
    have hpos : ((List.range n).filter
        fun i => decide (Adj2Inc.incEntry (Adj2Inc.edges adj n) i k = 1)) = [v] := by
      refine filter_range_single _ n v hv ?_
      intro i hi
      rw [decide_eq_true_eq, incEntry_dir hsome i]
      split_ifs with hc1 hc2
      · constructor
        · intro h; exact absurd h (by decide)
        · intro h; omega
      · simp [hc2]
      · simp [hc2]
    have hneg : ((List.range n).filter
        fun i => decide (Adj2Inc.incEntry (Adj2Inc.edges adj n) i k = -1)) = [u] := by
      refine filter_range_single _ n u hu ?_
      intro i hi
      rw [decide_eq_true_eq, incEntry_dir hsome i]
      split_ifs with hc1 hc2
      · simp [hc1]
      · constructor
        · intro h; exact absurd h (by decide)
        · intro h; exact absurd h hc1
      · constructor
        · intro h; exact absurd h (by decide)
        · intro h; exact absurd h hc1
    simp only [Inc2Adj.parseColumn, hpos, hneg]
    simp

end GraphLib

namespace GraphLib

/-- The full column parse of the built incidence matrix returns the
original edge list. -/
theorem edgesOfInc_built (adj : ℕ → ℕ → ℤ) (n : ℕ) :
    Inc2Adj.edgesOfInc (Adj2Inc.incEntry (Adj2Inc.edges adj n)) n
      (Adj2Inc.edges adj n).length = some (Adj2Inc.edges adj n) := by
  unfold Inc2Adj.edgesOfInc
  rw [mapM_option_map _
    (fun k => (Adj2Inc.edges adj n).getD k (EdgeKind.directed, 0, 0))]
  · rw [map_getD_range]
  · intro k hk
    rw [List.mem_range] at hk
    rw [parse_built_column adj n k hk, List.getD_eq_getElem _ _ hk]

/-- C2: for every valid adjacency matrix (non-empty as required by the
validator, entries in `{0,1}`, zero diagonal), converting to an incidence
matrix with `Graph.incidence_matrix` and back with
`IncidenceGraph.to_adjacency_matrix` reproduces the original matrix
exactly. -/
theorem C2_adjacency_incidence_roundtrip (adj : ℕ → ℕ → ℤ) (n : ℕ)
    (hn : 1 ≤ n) (h01 : ZeroOneMat adj n) (hd : ZeroDiag adj n) :
    ∃ adj',
      Inc2Adj.toAdjacencyMatrix (Adj2Inc.incEntry (Adj2Inc.edges adj n)) n
          (Adj2Inc.edges adj n).length = some adj' ∧
      ∀ i < n, ∀ j < n, adj' i j = adj i j := by
  unfold Inc2Adj.toAdjacencyMatrix
  rw [edgesOfInc_built adj n]
  refine ⟨_, rfl, ?_⟩
  intro i hi j hj
  by_cases h1 : adj i j = 1
  · have hij : i ≠ j := by
      intro h
      rw [h, hd j hj] at h1
      exact absurd h1 (by decide)
    have hmem : ((Adj2Inc.edges adj n).any fun e => Inc2Adj.writesAt e i j) = true := by
      rw [List.any_eq_true]
      by_cases h2 : adj j i = 1
      · rcases Nat.lt_or_ge i j with hlt | hge
        · exact ⟨(.undirected, i, j), Adj2Inc.und_mem_edges hi hj hlt h1 h2,
            by simp [Inc2Adj.writesAt]⟩
        · have hlt : j < i := by omega
          exact ⟨(.undirected, j, i), Adj2Inc.und_mem_edges hj hi hlt h2 h1,
            by simp [Inc2Adj.writesAt]⟩
      · exact ⟨(.directed, i, j), Adj2Inc.dir_mem_edges hi hj hij h1 h2,
          by simp [Inc2Adj.writesAt]⟩
    show (if ((Adj2Inc.edges adj n).any fun e => Inc2Adj.writesAt e i j) = true
        then (1:ℤ) else 0) = adj i j
    rw [if_pos hmem, h1]
  · have h0 : adj i j = 0 := by
      rcases h01 i hi j hj with h | h
      · exact h
      · exact absurd h h1
    have hmem : ¬ ((Adj2Inc.edges adj n).any fun e => Inc2Adj.writesAt e i j) = true := by
      rw [List.any_eq_true]
      rintro ⟨e, he, hw⟩
      have hfacts := Adj2Inc.mem_edges_elim he
      rcases e with ⟨t, u, v⟩
      simp only at hfacts
      obtain ⟨hu, hv, huv, hund, hdir⟩ := hfacts
      cases t with
      | undirected =>
        obtain ⟨_, ha, hb⟩ := hund rfl
        simp only [Inc2Adj.writesAt, decide_eq_true_eq] at hw
        rcases hw with ⟨rfl, rfl⟩ | ⟨rfl, rfl⟩
        · exact h1 ha
        · exact h1 hb
      | directed =>
        obtain ⟨ha, _⟩ := hdir rfl
        simp only [Inc2Adj.writesAt, decide_eq_true_eq] at hw
        obtain ⟨rfl, rfl⟩ := hw
        exact h1 ha
    show (if ((Adj2Inc.edges adj n).any fun e => Inc2Adj.writesAt e i j) = true
        then (1:ℤ) else 0) = adj i j
    rw [if_neg hmem, h0]

/-- Witness for `C2_adjacency_incidence_roundtrip` on the concrete
3-vertex matrix with one undirected edge `1–2` and one directed edge
`1→3`. -/
theorem C2_adjacency_incidence_roundtrip_witness :
    1 ≤ 3 ∧ ZeroOneMat (matOf [[0,1,1],[1,0,0],[0,0,0]]) 3 ∧
      ZeroDiag (matOf [[0,1,1],[1,0,0],[0,0,0]]) 3 ∧
      ∃ adj',
        Inc2Adj.toAdjacencyMatrix
            (Adj2Inc.incEntry (Adj2Inc.edges (matOf [[0,1,1],[1,0,0],[0,0,0]]) 3)) 3
            (Adj2Inc.edges (matOf [[0,1,1],[1,0,0],[0,0,0]]) 3).length = some adj' ∧
        ∀ i < 3, ∀ j < 3, adj' i j = matOf [[0,1,1],[1,0,0],[0,0,0]] i j :=
  ⟨by decide, by decide, by decide,
    C2_adjacency_incidence_roundtrip (matOf [[0,1,1],[1,0,0],[0,0,0]]) 3
      (by decide) (by decide) (by decide)⟩

end GraphLib

/-!
## C8: reachability matrix (`adj2reach_matrix.py`)

`Graph.bfs_reachable` is a queue BFS marking vertices reachable from
`start`; `Graph.reachability_matrix` collects one BFS row per vertex.
The `while` loop is embedded with fuel `n + 1`, which is proved
sufficient: every iteration pops one queue entry and enqueues only
freshly marked vertices, so `unvisited-count + queue-length` drops by
exactly one per iteration and starts at most `n + 1`.
-/

namespace GraphLib

namespace Reach4

/-- `Graph.neighbors`: indices of the `1` entries of row `v`. -/
def neighbors (adj : ℕ → ℕ → ℤ) (n v : ℕ) : List ℕ :=
  (List.range n).filter (fun u => adj v u = 1)

/-- Body of `for u in self.neighbors(v)`: mark-and-enqueue unvisited `u`. -/
def visitNeighbor (r : ℕ → Bool) (q : List ℕ) (u : ℕ) : (ℕ → Bool) × List ℕ :=
  if r u then (r, q) else (fun x => if x = u then true else r x, q ++ [u])

/-- The whole `for` loop over a neighbor list. -/
def visitList : (ℕ → Bool) × List ℕ → List ℕ → (ℕ → Bool) × List ℕ
  | s, [] => s
  | (r, q), u :: l => visitList (visitNeighbor r q u) l

/-- The `while queue:` loop of `Graph.bfs_reachable`, with fuel. -/
def bfsLoop (adj : ℕ → ℕ → ℤ) (n : ℕ) : ℕ → (ℕ → Bool) × List ℕ → (ℕ → Bool) × List ℕ
  | 0, s => s
  | _ + 1, (r, []) => (r, [])
  | f + 1, (r, v :: q) => bfsLoop adj n f (visitList (r, q) (neighbors adj n v))

/-- `Graph.bfs_reachable`: reachability flags from `start`. -/
def bfsReachable (adj : ℕ → ℕ → ℤ) (n start : ℕ) : ℕ → Bool :=
  (bfsLoop adj n (n + 1) ((fun u => u == start), [start])).1

/-- `Graph.reachability_matrix`: one BFS row per vertex. -/
def reachabilityMatrix (adj : ℕ → ℕ → ℤ) (n : ℕ) : ℕ → ℕ → ℤ :=
  fun v u => if bfsReachable adj n v u then 1 else 0

/-- Number of not-yet-marked vertices below `n`. -/
def unvisited (r : ℕ → Bool) (n : ℕ) : ℕ :=
  (List.range n).countP (fun u => !(r u))

/-- Reachability along the adjacency-list edges, the specification-side
relation BFS is compared with. -/
def Reaches (adj : ℕ → ℕ → ℤ) (n : ℕ) (a b : ℕ) : Prop :=
  Relation.ReflTransGen (fun x y => y ∈ neighbors adj n x) a b

theorem mem_neighbors {adj : ℕ → ℕ → ℤ} {n v u : ℕ} :
    u ∈ neighbors adj n v ↔ u < n ∧ adj v u = 1 := by
  unfold neighbors
  rw [List.mem_filter, List.mem_range, decide_eq_true_eq]

end Reach4

end GraphLib

namespace GraphLib

namespace Reach4

theorem visitList_mono {l : List ℕ} :
    ∀ {r : ℕ → Bool} {q : List ℕ} {x : ℕ}, r x = true →
      (visitList (r, q) l).1 x = true := by
  induction l with
  | nil => intro r q x h; exact h
  | cons u l ih =>
    intro r q x h
    show (visitList (visitNeighbor r q u) l).1 x = true
    unfold visitNeighbor
    split_ifs with hu
    · exact ih h
    · refine ih ?_
      by_cases hxu : x = u <;> simp [hxu, h]

theorem visitList_marks {l : List ℕ} :
    ∀ {r : ℕ → Bool} {q : List ℕ} {x : ℕ},
      (visitList (r, q) l).1 x = true → r x = true ∨ x ∈ l := by
  induction l with
  | nil => intro r q x h; exact Or.inl h
  | cons u l ih =>
    intro r q x h
    replace h : (visitList (visitNeighbor r q u) l).1 x = true := h
    unfold visitNeighbor at h
    split_ifs at h with hu
    · rcases ih h with h' | h'
      · exact Or.inl h'
      · exact Or.inr (List.mem_cons_of_mem u h')
    · rcases ih h with h' | h'
      · by_cases hxu : x = u
        · exact Or.inr (hxu ▸ List.mem_cons_self u l)
        · rw [if_neg hxu] at h'
          exact Or.inl h'
      · exact Or.inr (List.mem_cons_of_mem u h')

theorem visitList_marks_all {l : List ℕ} :
    ∀ {r : ℕ → Bool} {q : List ℕ} {u : ℕ}, u ∈ l →
      (visitList (r, q) l).1 u = true := by
  induction l with
  | nil => intro r q u h; cases h
  | cons a l ih =>
    intro r q u h
    show (visitList (visitNeighbor r q a) l).1 u = true
    rcases List.mem_cons.1 h with rfl | h'
    · unfold visitNeighbor
      split_ifs with ha
      · exact visitList_mono ha
      · exact visitList_mono (by simp)
    · exact ih h'

theorem visitList_queue_mono {l : List ℕ} :
    ∀ {r : ℕ → Bool} {q : List ℕ} {x : ℕ}, x ∈ q →
      x ∈ (visitList (r, q) l).2 := by
  induction l with
  | nil => intro r q x h; exact h
  | cons u l ih =>
    intro r q x h
    show x ∈ (visitList (visitNeighbor r q u) l).2
    unfold visitNeighbor
    split_ifs with hu
    · exact ih h
    · exact ih (List.mem_append_left _ h)

theorem visitList_queue_sub {l : List ℕ} :
    ∀ {r : ℕ → Bool} {q : List ℕ} {x : ℕ},
      x ∈ (visitList (r, q) l).2 → x ∈ q ∨ x ∈ l := by
  induction l with
  | nil => intro r q x h; exact Or.inl h
  | cons u l ih =>
    intro r q x h
    replace h : x ∈ (visitList (visitNeighbor r q u) l).2 := h
    unfold visitNeighbor at h
    split_ifs at h with hu
    · rcases ih h with h' | h'
      · exact Or.inl h'
      · exact Or.inr (List.mem_cons_of_mem u h')
    · rcases ih h with h' | h'
      · rcases List.mem_append.1 h' with h'' | h''
        · exact Or.inl h''
        · rw [List.mem_singleton] at h''
          exact Or.inr (by rw [h'']; exact List.mem_cons_self u l)
      · exact Or.inr (List.mem_cons_of_mem u h')

theorem visitList_queue_marked {l : List ℕ} :
    ∀ {r : ℕ → Bool} {q : List ℕ}, (∀ x ∈ q, r x = true) →
      ∀ x ∈ (visitList (r, q) l).2, (visitList (r, q) l).1 x = true := by
  induction l with
  | nil => intro r q h x hx; exact h x hx
  | cons u l ih =>
    intro r q h x hx
    replace hx : x ∈ (visitList (visitNeighbor r q u) l).2 := hx
    show (visitList (visitNeighbor r q u) l).1 x = true
    unfold visitNeighbor at hx ⊢
    split_ifs at hx ⊢ with hu
    · exact ih h x hx
    · refine ih ?_ x hx
      intro y hy
      rcases List.mem_append.1 hy with hy' | hy'
      · show (if y = u then true else r y) = true
        by_cases hyu : y = u
        · rw [if_pos hyu]
        · rw [if_neg hyu]; exact h y hy'
      · rw [List.mem_singleton] at hy'
        show (if y = u then true else r y) = true
        rw [if_pos hy']

theorem visitList_fresh_in_queue {l : List ℕ} :
    ∀ {r : ℕ → Bool} {q : List ℕ} {x : ℕ}, r x = false →
      (visitList (r, q) l).1 x = true → x ∈ (visitList (r, q) l).2 := by
  induction l with
  | nil =>
    intro r q x h h'
    replace h' : r x = true := h'
    rw [h] at h'; cases h'
  | cons u l ih =>
    intro r q x h h'
    replace h' : (visitList (visitNeighbor r q u) l).1 x = true := h'
    show x ∈ (visitList (visitNeighbor r q u) l).2
    unfold visitNeighbor at h' ⊢
    split_ifs at h' ⊢ with hu
    · exact ih h h'
    · by_cases hxu : x = u
      · subst hxu
        exact visitList_queue_mono (List.mem_append_right _ (List.mem_singleton.2 rfl))
      · refine ih ?_ h'
        simp [hxu, h]

end Reach4

end GraphLib

namespace GraphLib

namespace Reach4

theorem countP_mark {u : ℕ} {r : ℕ → Bool} :
    ∀ (l : List ℕ), l.Nodup → u ∈ l → r u = false →
      l.countP (fun x => !((fun y => if y = u then true else r y) x)) + 1 =
        l.countP (fun x => !(r x)) := by
  intro l
  induction l with
  | nil => intro _ h; cases h
  | cons a l ih =>
    intro hnd ha hru
    rw [List.nodup_cons] at hnd
    rw [List.countP_cons, List.countP_cons]
    by_cases hua : u = a
    · have hnotin : u ∉ l := by rw [hua]; exact hnd.1
      have heq : l.countP (fun x => !((fun y => if y = u then true else r y) x)) =
          l.countP (fun x => !(r x)) := by
        apply List.countP_congr
        intro x hx
        have : x ≠ u := fun h => hnotin (h ▸ hx)
        simp [this]
      rw [heq]
      have h1 : (!(fun y => if y = u then true else r y) a) = false := by
        simp [hua.symm]
      have h2 : (!(r a)) = true := by rw [← hua, hru]; rfl
      rw [h1, h2]
      simp
    · have hul : u ∈ l := by
        rcases List.mem_cons.1 ha with h | h
        · exact absurd h hua
        · exact h
      have h1 : (!(fun y => if y = u then true else r y) a) = (!(r a)) := by
        simp only []
        rw [if_neg (show ¬ a = u from fun h => hua h.symm)]
      rw [h1]
      have := ih hnd.2 hul hru
      omega

theorem unvisited_le (r : ℕ → Bool) (n : ℕ) : unvisited r n ≤ n := by
  unfold unvisited
  calc (List.range n).countP (fun u => !(r u)) ≤ (List.range n).length :=
        List.countP_le_length _
    _ = n := List.length_range n

theorem unvisited_mark {u : ℕ} {r : ℕ → Bool} {n : ℕ} (hu : u < n)
    (hru : r u = false) :
    unvisited (fun y => if y = u then true else r y) n + 1 = unvisited r n :=
  countP_mark (List.range n) (List.nodup_range n) (List.mem_range.2 hu) hru

/-- Each neighbor-processing pass conserves `unvisited + queue length`. -/
theorem visitList_phi {n : ℕ} {l : List ℕ} (hl : ∀ u ∈ l, u < n) :
    ∀ (r : ℕ → Bool) (q : List ℕ),
      unvisited (visitList (r, q) l).1 n + (visitList (r, q) l).2.length =
        unvisited r n + q.length := by
  induction l with
  | nil => intro r q; rfl
  | cons u l ih =>
    intro r q
    have hu : u < n := hl u (List.mem_cons_self u l)
    have hl' : ∀ x ∈ l, x < n := fun x hx => hl x (List.mem_cons_of_mem u hx)
    show unvisited (visitList (visitNeighbor r q u) l).1 n +
        (visitList (visitNeighbor r q u) l).2.length = unvisited r n + q.length
    unfold visitNeighbor
    split_ifs with hru
    · exact ih hl' r q
    · rw [ih hl' _ (q ++ [u])]
      rw [List.length_append, List.length_singleton]
      have := unvisited_mark hu (Bool.not_eq_true _ ▸ hru)
      omega

/-- With fuel at least `unvisited + |queue|` the BFS loop drains its
queue. -/
theorem bfsLoop_drains (adj : ℕ → ℕ → ℤ) (n : ℕ) :
    ∀ (f : ℕ) (r : ℕ → Bool) (q : List ℕ),
      unvisited r n + q.length ≤ f → (bfsLoop adj n f (r, q)).2 = [] := by
  intro f
  induction f with
  | zero =>
    intro r q h
    have : q.length = 0 := by omega
    rw [List.length_eq_zero] at this
    subst this
    rfl
  | succ f ih =>
    intro r q h
    cases q with
    | nil => rfl
    | cons v q =>
      show (bfsLoop adj n f (visitList (r, q) (neighbors adj n v))).2 = []
      have hsub : ∀ u ∈ neighbors adj n v, u < n := by
        intro u hu
        exact (mem_neighbors.1 hu).1
      have hphi := visitList_phi hsub r q
      rw [List.length_cons] at h
      exact ih (visitList (r, q) (neighbors adj n v)).1
        (visitList (r, q) (neighbors adj n v)).2 (by omega)

end Reach4

end GraphLib

namespace GraphLib

namespace Reach4

theorem bfsLoop_mono (adj : ℕ → ℕ → ℤ) (n : ℕ) :
    ∀ (f : ℕ) (r : ℕ → Bool) (q : List ℕ) (x : ℕ), r x = true →
      (bfsLoop adj n f (r, q)).1 x = true := by
  intro f
  induction f with
  | zero => intro r q x h; exact h
  | succ f ih =>
    intro r q x h
    cases q with
    | nil => exact h
    | cons v q =>
      show (bfsLoop adj n f (visitList (r, q) (neighbors adj n v))).1 x = true
      exact ih (visitList (r, q) (neighbors adj n v)).1
        (visitList (r, q) (neighbors adj n v)).2 x (visitList_mono h)

/-- Soundness: every vertex the BFS loop marks is reachable, provided the
initially marked vertices are reachable and queued vertices are marked. -/
theorem bfsLoop_sound (adj : ℕ → ℕ → ℤ) (n start : ℕ) :
    ∀ (f : ℕ) (r : ℕ → Bool) (q : List ℕ),
      (∀ x, r x = true → Reaches adj n start x) →
      (∀ x ∈ q, r x = true) →
      ∀ x, (bfsLoop adj n f (r, q)).1 x = true → Reaches adj n start x := by
  intro f
  induction f with
  | zero => intro r q hs _ x hx; exact hs x hx
  | succ f ih =>
    intro r q hs hq x hx
    cases q with
    | nil => exact hs x hx
    | cons v q =>
      replace hx :
          (bfsLoop adj n f (visitList (r, q) (neighbors adj n v))).1 x = true := hx
      have hv : Reaches adj n start v := hs v (hq v (List.mem_cons_self v q))
      refine ih (visitList (r, q) (neighbors adj n v)).1
        (visitList (r, q) (neighbors adj n v)).2 ?_ ?_ x hx
      · intro y hy
        rcases visitList_marks hy with h' | h'
        · exact hs y h'
        · exact Relation.ReflTransGen.tail hv h'
      · exact visitList_queue_marked
          (fun y hy => hq y (List.mem_cons_of_mem v hy))

/-- The expansion invariant: every marked vertex is still queued or has
all its neighbors marked.  It is preserved by the BFS loop. -/
def ExpandInv (adj : ℕ → ℕ → ℤ) (n : ℕ) (s : (ℕ → Bool) × List ℕ) : Prop :=
  ∀ x, s.1 x = true → x ∈ s.2 ∨ ∀ u ∈ neighbors adj n x, s.1 u = true

theorem bfsLoop_expandInv (adj : ℕ → ℕ → ℤ) (n : ℕ) :
    ∀ (f : ℕ) (r : ℕ → Bool) (q : List ℕ),
      ExpandInv adj n (r, q) → ExpandInv adj n (bfsLoop adj n f (r, q)) := by
  intro f
  induction f with
  | zero => intro r q h; exact h
  | succ f ih =>
    intro r q h
    cases q with
    | nil => exact h
    | cons v q =>
      show ExpandInv adj n (bfsLoop adj n f (visitList (r, q) (neighbors adj n v)))
      refine ih (visitList (r, q) (neighbors adj n v)).1
        (visitList (r, q) (neighbors adj n v)).2 ?_
      intro x hx
      by_cases hold : r x = true
      · rcases h x hold with hmem | hexp
        · rcases List.mem_cons.1 hmem with rfl | hmem'
          · exact Or.inr (fun u hu => visitList_marks_all hu)
          · exact Or.inl (visitList_queue_mono hmem')
        · exact Or.inr (fun u hu => visitList_mono (hexp u hu))
      · rw [Bool.not_eq_true] at hold
        exact Or.inl (visitList_fresh_in_queue hold hx)

/-- Correctness of `Graph.bfs_reachable`: the flag of `u` is set iff `u`
is reachable from `start` along adjacency-list edges. -/
theorem bfsReachable_iff (adj : ℕ → ℕ → ℤ) (n start : ℕ) (hs : start < n) (u : ℕ) :
    bfsReachable adj n start u = true ↔ Reaches adj n start u := by
  constructor
  · intro h
    refine bfsLoop_sound adj n start (n + 1) _ [start] ?_ ?_ u h
    · intro x hx
      rw [beq_iff_eq] at hx
      rw [hx]
      exact Relation.ReflTransGen.refl
    · intro x hx
      rw [List.mem_singleton] at hx
      rw [hx, beq_self_eq_true]
  · intro h
    have hdrain : (bfsLoop adj n (n + 1) ((fun u => u == start), [start])).2 = [] := by
      refine bfsLoop_drains adj n (n + 1) _ [start] ?_
      have := unvisited_le (fun u => u == start) n
      simp only [List.length_singleton]
      omega
    have hinv : ExpandInv adj n
        (bfsLoop adj n (n + 1) ((fun u => u == start), [start])) := by
      refine bfsLoop_expandInv adj n (n + 1) _ [start] ?_
      intro x hx
      rw [beq_iff_eq] at hx
      exact Or.inl (by rw [hx]; exact List.mem_singleton.2 rfl)
    induction h with
    | refl =>
      exact bfsLoop_mono adj n (n + 1) _ [start] start (beq_self_eq_true start)
    | tail hab hbc ihab =>
      rename_i b c
      have hb : bfsReachable adj n start b = true := ihab
      rcases hinv b hb with hmem | hexp
      · rw [hdrain] at hmem
        cases hmem
      · exact hexp c hbc
end Reach4

end GraphLib

namespace GraphLib

theorem reachMat_eq_one_iff {adj : ℕ → ℕ → ℤ} {n v u : ℕ} :
    Reach4.reachabilityMatrix adj n v u = 1 ↔
      Reach4.bfsReachable adj n v u = true := by
  unfold Reach4.reachabilityMatrix
  split_ifs with h
  · exact ⟨fun _ => h, fun _ => rfl⟩
  · constructor
    · intro h0; exact absurd h0 (by decide)
    · intro hb; exact absurd hb h

/-- C8: for every 0/1 adjacency matrix, the matrix returned by
`Graph.reachability_matrix` has `1` on the whole diagonal and is
transitive. -/
theorem C8_reachability (adj : ℕ → ℕ → ℤ) (n : ℕ) (h01 : ZeroOneMat adj n) :
    (∀ v < n, Reach4.reachabilityMatrix adj n v v = 1) ∧
    (∀ v < n, ∀ u < n, ∀ w < n,
      Reach4.reachabilityMatrix adj n v u = 1 →
      Reach4.reachabilityMatrix adj n u w = 1 →
      Reach4.reachabilityMatrix adj n v w = 1) := by
  constructor
  · intro v hv
    rw [reachMat_eq_one_iff, Reach4.bfsReachable_iff adj n v hv v]
    exact Relation.ReflTransGen.refl
  · intro v hv u hu w hw h1 h2
    rw [reachMat_eq_one_iff, Reach4.bfsReachable_iff adj n v hv u] at h1
    rw [reachMat_eq_one_iff, Reach4.bfsReachable_iff adj n u hu w] at h2
    rw [reachMat_eq_one_iff, Reach4.bfsReachable_iff adj n v hv w]
    exact Relation.ReflTransGen.trans h1 h2

/-- Witness for `C8_reachability` on the concrete matrix
`[[0,1],[0,0]]`. -/
theorem C8_reachability_witness :
    (∀ v < 2, Reach4.reachabilityMatrix (matOf [[0,1],[0,0]]) 2 v v = 1) ∧
    (∀ v < 2, ∀ u < 2, ∀ w < 2,
      Reach4.reachabilityMatrix (matOf [[0,1],[0,0]]) 2 v u = 1 →
      Reach4.reachabilityMatrix (matOf [[0,1],[0,0]]) 2 u w = 1 →
      Reach4.reachabilityMatrix (matOf [[0,1],[0,0]]) 2 v w = 1) :=
  C8_reachability (matOf [[0,1],[0,0]]) 2 (by decide)

end GraphLib

/-!
## Walks

Walks in the directed graph given by an edge relation `e` on the vertices
`0..n-1`.  `IsWalk e n i l j` says `l` is the list of vertices visited
after `i` on a walk from `i` to `j`; `walkWeight w i l` is its weight.
These are the specification-side notions that Floyd–Warshall and Dijkstra
are measured against.
-/

namespace GraphLib

inductive IsWalk (e : ℕ → ℕ → Prop) (n : ℕ) : ℕ → List ℕ → ℕ → Prop where
  | nil : ∀ i, i < n → IsWalk e n i [] i
  | cons : ∀ i j l k, i < n → e i j → IsWalk e n j l k → IsWalk e n i (j :: l) k

def walkWeight (w : ℕ → ℕ → ℤ) : ℕ → List ℕ → ℤ
  | _, [] => 0
  | i, j :: l => w i j + walkWeight w j l

theorem walkWeight_nil (w : ℕ → ℕ → ℤ) (i : ℕ) : walkWeight w i [] = 0 := rfl

theorem walkWeight_cons (w : ℕ → ℕ → ℤ) (i j : ℕ) (l : List ℕ) :
    walkWeight w i (j :: l) = w i j + walkWeight w j l := rfl

theorem IsWalk.start_lt {e : ℕ → ℕ → Prop} {n i l j} (h : IsWalk e n i l j) : i < n := by
  cases h with
  | nil _ h => exact h
  | cons _ _ _ _ h _ _ => exact h

theorem IsWalk.end_lt {e : ℕ → ℕ → Prop} {n i l j} (h : IsWalk e n i l j) : j < n := by
  induction h with
  | nil _ h => exact h
  | cons _ _ _ _ _ _ _ ih => exact ih

theorem IsWalk.nil_eq {e : ℕ → ℕ → Prop} {n i j} (h : IsWalk e n i [] j) : i = j := by
  cases h; rfl

/-- Concatenation of walks. -/
theorem IsWalk.append {e : ℕ → ℕ → Prop} {n i l₁ k l₂ j}
    (h₁ : IsWalk e n i l₁ k) (h₂ : IsWalk e n k l₂ j) :
    IsWalk e n i (l₁ ++ l₂) j := by
  induction h₁ with
  | nil => exact h₂
  | cons a b l c ha hab _ ih => exact IsWalk.cons a b _ j ha hab (ih h₂)

/-- Weight is additive along concatenation. -/
theorem walkWeight_append (w : ℕ → ℕ → ℤ) {e : ℕ → ℕ → Prop} {n : ℕ} :
    ∀ {i l₁ k} (_ : IsWalk e n i l₁ k) (l₂ : List ℕ),
      walkWeight w i (l₁ ++ l₂) = walkWeight w i l₁ + walkWeight w k l₂ := by
  intro i l₁ k h
  induction h with
  | nil => intro l₂; simp [walkWeight]
  | cons a b l c _ _ _ ih =>
    intro l₂
    show walkWeight w a (b :: (l ++ l₂)) = walkWeight w a (b :: l) + walkWeight w c l₂
    rw [walkWeight_cons, walkWeight_cons, ih l₂, add_assoc]

end GraphLib

/-!
## C3 (and groundwork for C1): Floyd–Warshall (`floyd_warshall_paths.py`)

The implementation mutates `dist` in place inside the triple loop, so the
embedding below is the *sequential* triple loop: `fwJ` runs the inner `j`
loop left to right on the current state, `fwI` runs the `i` loop (with the
hoisted `if dist[i][k] is INF: continue` guard, evaluated once per `i` as
in the source), `fwK` runs the outer `k` loop.  `⊤ : WithTop ℤ` plays
`math.inf`; the Python `is INF` identity tests agree with `= ⊤` because
every infinite entry of `dist` is the interned `INF` object and every
finite entry is an `int`.  Entries of the embedded state outside the
`n × n` block are never read or written by the loops.
-/

namespace GraphLib

namespace Floyd10

/-- Edge relation of the Floyd–Warshall initialization: off-diagonal
nonzero entries. -/
def eFW (w : ℕ → ℕ → ℤ) (i j : ℕ) : Prop := i ≠ j ∧ w i j ≠ 0

instance (w : ℕ → ℕ → ℤ) (i j : ℕ) : Decidable (eFW w i j) := by
  unfold eFW; infer_instance

/-- Floyd–Warshall state: the `dist` and `nxt` matrices. -/
abbrev FWState := (ℕ → ℕ → WithTop ℤ) × (ℕ → ℕ → Option ℕ)

/-- Initial `dist`: `0` on the diagonal, the weight where an edge exists,
`INF` otherwise. -/
def fwInitDist (w : ℕ → ℕ → ℤ) : ℕ → ℕ → WithTop ℤ := fun i j =>
  if i = j then 0 else if w i j ≠ 0 then (w i j : WithTop ℤ) else ⊤

/-- Initial `nxt`: `j` where an edge exists, `None` otherwise. -/
def fwInitNext (w : ℕ → ℕ → ℤ) : ℕ → ℕ → Option ℕ := fun i j =>
  if i = j then none else if w i j ≠ 0 then some j else none

/-- One `j`-iteration body: `if dist[k][j] is INF: continue`, then relax
`dist[i][j]` through `k` and inherit the first hop. -/
def relax (s : FWState) (k i j : ℕ) : FWState :=
  if s.1 k j = ⊤ then s
  else if s.1 i k + s.1 k j < s.1 i j then
    (fun a b => if a = i ∧ b = j then s.1 i k + s.1 k j else s.1 a b,
     fun a b => if a = i ∧ b = j then s.2 i k else s.2 a b)
  else s

/-- The inner `for j in range(jmax)` loop, left to right. -/
def fwJ (k i : ℕ) : ℕ → FWState → FWState
  | 0, s => s
  | j + 1, s => relax (fwJ k i j s) k i j

/-- The `for i in range(imax)` loop with the per-`i` guard
`if dist[i][k] is INF: continue`. -/
def fwI (k n : ℕ) : ℕ → FWState → FWState
  | 0, s => s
  | i + 1, s =>
    let s' := fwI k n i s
    if s'.1 i k = ⊤ then s' else fwJ k i n s'

/-- The outer `for k in range(kmax)` loop. -/
def fwK (n : ℕ) : ℕ → FWState → FWState
  | 0, s => s
  | k + 1, s => fwI k n n (fwK n k s)

/-- State after the whole triple loop. -/
def fwFinal (w : ℕ → ℕ → ℤ) (n : ℕ) : FWState :=
  fwK n n (fwInitDist w, fwInitNext w)

/-- `WeightedGraph.floyd_warshall`: run the triple loop, then raise
(`.error ()`) iff some diagonal entry is negative. -/
def floydWarshall (w : ℕ → ℕ → ℤ) (n : ℕ) : Except Unit FWState :=
  let s := fwFinal w n
  if ∃ i < n, s.1 i i < 0 then .error () else .ok s

/-- Absence of negative cycles, phrased over closed walks: every closed
walk along the edges the algorithm uses has non-negative weight. -/
def NegCycleFree (w : ℕ → ℕ → ℤ) (n : ℕ) : Prop :=
  ∀ i l, IsWalk (eFW w) n i l i → 0 ≤ walkWeight w i l

end Floyd10

end GraphLib

namespace GraphLib

namespace Floyd10

/-- Achievability invariant: every finite `dist[i][j]` is the weight of an
actual walk from `i` to `j`. -/
def AchInv (w : ℕ → ℕ → ℤ) (n : ℕ) (d : ℕ → ℕ → WithTop ℤ) : Prop :=
  ∀ i < n, ∀ j < n, ∀ v : ℤ, d i j = (v : WithTop ℤ) →
    ∃ l, IsWalk (eFW w) n i l j ∧ walkWeight w i l = v

theorem achInv_init (w : ℕ → ℕ → ℤ) (n : ℕ) : AchInv w n (fwInitDist w) := by
  intro i hi j hj v hv
  unfold fwInitDist at hv
  split_ifs at hv with h1 h2
  · subst h1
    refine ⟨[], IsWalk.nil i hi, ?_⟩
    rw [walkWeight_nil]
    symm
    exact_mod_cast hv.symm
  · refine ⟨[j], IsWalk.cons i j [] j hi ⟨h1, h2⟩ (IsWalk.nil j hj), ?_⟩
    rw [walkWeight_cons, walkWeight_nil, add_zero]
    symm
    exact_mod_cast hv.symm
  · exact absurd hv (by simp)

theorem add_eq_coe {a b : WithTop ℤ} {v : ℤ} (h : a + b = (v : WithTop ℤ)) :
    ∃ va vb : ℤ, a = (va : WithTop ℤ) ∧ b = (vb : WithTop ℤ) ∧ va + vb = v := by
  cases a with
  | top => rw [top_add] at h; exact absurd h (by simp)
  | coe va =>
    cases b with
    | top => rw [add_top] at h; exact absurd h (by simp)
    | coe vb =>
      refine ⟨va, vb, rfl, rfl, ?_⟩
      exact_mod_cast h

theorem relax_ach {w : ℕ → ℕ → ℤ} {n : ℕ} {s : FWState} {k i j : ℕ}
    (hk : k < n) (hi : i < n) (hj : j < n)
    (h : AchInv w n s.1) : AchInv w n (relax s k i j).1 := by
  unfold relax
  split_ifs with h1 h2
  · exact h
  · intro a ha b hb v hv
    simp only at hv
    by_cases hab : a = i ∧ b = j
    · rw [if_pos hab] at hv
      obtain ⟨va, vb, hva, hvb, hsum⟩ := add_eq_coe hv
      obtain ⟨l₁, hw₁, hsum₁⟩ := h i hi k hk va hva
      obtain ⟨l₂, hw₂, hsum₂⟩ := h k hk j hj vb hvb
      refine ⟨l₁ ++ l₂, ?_, ?_⟩
      · have := IsWalk.append hw₁ hw₂
        rw [hab.1, hab.2]
        exact this
      · rw [hab.1]
        rw [walkWeight_append w hw₁ l₂, hsum₁, hsum₂, hsum]
    · rw [if_neg hab] at hv
      exact h a ha b hb v hv
  · exact h

theorem fwJ_ach {w : ℕ → ℕ → ℤ} {n k i : ℕ} (hk : k < n) (hi : i < n) :
    ∀ (jc : ℕ), jc ≤ n → ∀ {s : FWState}, AchInv w n s.1 →
      AchInv w n (fwJ k i jc s).1 := by
  intro jc
  induction jc with
  | zero => intro _ s h; exact h
  | succ j ih =>
    intro hjc s h
    exact relax_ach hk hi (by omega) (ih (by omega) h)

theorem fwI_ach {w : ℕ → ℕ → ℤ} {n k : ℕ} (hk : k < n) :
    ∀ (ic : ℕ), ic ≤ n → ∀ {s : FWState}, AchInv w n s.1 →
      AchInv w n (fwI k n ic s).1 := by
  intro ic
  induction ic with
  | zero => intro _ s h; exact h
  | succ i ih =>
    intro hic s h
    show AchInv w n
      (if (fwI k n i s).1 i k = ⊤ then fwI k n i s else fwJ k i n (fwI k n i s)).1
    split_ifs with hg
    · exact ih (by omega) h
    · exact fwJ_ach hk (by omega) n le_rfl (ih (by omega) h)

theorem fwK_ach {w : ℕ → ℕ → ℤ} {n : ℕ} :
    ∀ (kc : ℕ), kc ≤ n → ∀ {s : FWState}, AchInv w n s.1 →
      AchInv w n (fwK n kc s).1 := by
  intro kc
  induction kc with
  | zero => intro _ s h; exact h
  | succ k ih =>
    intro hkc s h
    exact fwI_ach (by omega) n le_rfl (ih (by omega) h)

theorem fwFinal_ach (w : ℕ → ℕ → ℤ) (n : ℕ) : AchInv w n (fwFinal w n).1 :=
  fwK_ach n le_rfl (achInv_init w n)

end Floyd10

/-- C3: `floyd_warshall` raises the negative-cycle error iff some final
diagonal entry is negative, and on every zero-diagonal input without a
negative cycle it returns the `dist`/`nxt` matrices without error. -/
theorem C3_floyd_warshall_negative_cycle (w : ℕ → ℕ → ℤ) (n : ℕ)
    (hd : ZeroDiag w n) :
    (Floyd10.floydWarshall w n = .error () ↔
      ∃ i < n, (Floyd10.fwFinal w n).1 i i < 0) ∧
    (Floyd10.NegCycleFree w n →
      Floyd10.floydWarshall w n = .ok (Floyd10.fwFinal w n)) := by
  constructor
  · unfold Floyd10.floydWarshall
    simp only []
    split_ifs with h
    · exact ⟨fun _ => h, fun _ => rfl⟩
    · constructor
      · intro hcontra; simp at hcontra
      · intro h'; exact absurd h' h
  · intro hncf
    unfold Floyd10.floydWarshall
    simp only []
    rw [if_neg]
    rintro ⟨i, hi, hneg⟩
    obtain ⟨v, hv, hvlt⟩ : ∃ v : ℤ, (Floyd10.fwFinal w n).1 i i = (v : WithTop ℤ) ∧ v < 0 := by
      rcases (WithTop.lt_iff_exists_coe).1 hneg with ⟨p, hp, hplt⟩
      exact ⟨p, hp, by exact_mod_cast hplt⟩
    obtain ⟨l, hwalk, hweight⟩ := Floyd10.fwFinal_ach w n i hi i hi v hv
    have := hncf i l hwalk
    omega

/-- Vertices only ever step upward along `e`-edges on such walks. -/
theorem isWalk_le_of_increasing {e : ℕ → ℕ → Prop} {n : ℕ}
    (h : ∀ i < n, ∀ j < n, e i j → i < j) :
    ∀ {a l c}, IsWalk e n a l c → a ≤ c ∧ (l = [] ∨ a < c) := by
  intro a l c hw
  induction hw with
  | nil => exact ⟨le_rfl, Or.inl rfl⟩
  | cons i j l k hi hij hw ih =>
    have hj : j < n := hw.start_lt
    have hlt : i < j := h i hi j hj hij
    refine ⟨by omega, Or.inr (by omega)⟩

/-- A matrix whose edges all go from smaller to larger index has no
cycles at all, hence no negative ones. -/
theorem negCycleFree_of_increasing (w : ℕ → ℕ → ℤ) (n : ℕ)
    (h : ∀ i < n, ∀ j < n, Floyd10.eFW w i j → i < j) :
    Floyd10.NegCycleFree w n := by
  intro i l hwalk
  rcases (isWalk_le_of_increasing h hwalk).2 with rfl | hlt
  · rw [walkWeight_nil]
  · omega

/-- Witness for `C3_floyd_warshall_negative_cycle`: the 2-vertex matrix
with the single negative edge `1→2` of weight `-5` (acyclic, so free of
negative cycles), on which the run indeed returns `.ok`. -/
theorem C3_floyd_warshall_negative_cycle_witness :
    ((Floyd10.floydWarshall (matOf [[0,-5],[0,0]]) 2 = .error () ↔
       ∃ i < 2, (Floyd10.fwFinal (matOf [[0,-5],[0,0]]) 2).1 i i < 0) ∧
     (Floyd10.NegCycleFree (matOf [[0,-5],[0,0]]) 2 →
       Floyd10.floydWarshall (matOf [[0,-5],[0,0]]) 2 =
         .ok (Floyd10.fwFinal (matOf [[0,-5],[0,0]]) 2))) ∧
    Floyd10.floydWarshall (matOf [[0,-5],[0,0]]) 2 =
      .ok (Floyd10.fwFinal (matOf [[0,-5],[0,0]]) 2) :=
  ⟨C3_floyd_warshall_negative_cycle (matOf [[0,-5],[0,0]]) 2 (by decide),
   (C3_floyd_warshall_negative_cycle (matOf [[0,-5],[0,0]]) 2 (by decide)).2
     (negCycleFree_of_increasing (matOf [[0,-5],[0,0]]) 2 (by decide))⟩

end GraphLib

/-!
## C4: Prim's algorithm (`mst_prim.py`)

State of `prim_mst`: the `in_mst` flags, the `min_edge` array
(`float('inf')` becomes `⊤ : WithTop ℤ`) and the `parent` array
(`-1` becomes `none`).  The selection scan, the relaxation scan and the
edge-collection loop are embedded as primitive recursions over the scanned
range; the main `for _ in range(n)` loop is a recursion on the remaining
iteration count, with `none` modelling the early `return None, None`.
-/

namespace GraphLib

namespace Prim7

/-- Prim state: `in_mst`, `min_edge`, `parent`. -/
abbrev PState := (ℕ → Bool) × (ℕ → WithTop ℤ) × (ℕ → Option ℕ)

/-- The selection scan `for v in range(cnt)` picking the unvisited vertex
with minimum `min_edge` (`none` models `u == -1`). -/
def selectMin (inMst : ℕ → Bool) (minEdge : ℕ → WithTop ℤ) : ℕ → Option ℕ × WithTop ℤ
  | 0 => (none, ⊤)
  | v + 1 =>
    let p := selectMin inMst minEdge v
    if inMst v = false ∧ minEdge v < p.2 then (some v, minEdge v) else p

/-- The relaxation scan after visiting `u`: for every `v < n` with a
positive edge `u–v`, unvisited and improving, update `min_edge[v]` and
`parent[v]`.  (`in_mst` already has `u` marked, as in the source.) -/
def relaxAll (w : ℕ → ℕ → ℤ) (n u : ℕ) (inMst : ℕ → Bool)
    (minEdge : ℕ → WithTop ℤ) (parent : ℕ → Option ℕ) :
    (ℕ → WithTop ℤ) × (ℕ → Option ℕ) :=
  (fun v =>
    if v < n ∧ 0 < w u v ∧ inMst v = false ∧ ((w u v : WithTop ℤ)) < minEdge v
    then (w u v : WithTop ℤ) else minEdge v,
   fun v =>
    if v < n ∧ 0 < w u v ∧ inMst v = false ∧ ((w u v : WithTop ℤ)) < minEdge v
    then some u else parent v)

/-- One iteration of the main loop: select, mark, relax. -/
def primStep (w : ℕ → ℕ → ℤ) (n : ℕ) (s : PState) : Option PState :=
  match (selectMin s.1 s.2.1 n).1 with
  | none => none
  | some u =>
    let inMst' : ℕ → Bool := fun v => if v = u then true else s.1 v
    let me := relaxAll w n u inMst' s.2.1 s.2.2
    some (inMst', me.1, me.2)

/-- The main `for _ in range(c)` loop; `none` = `return None, None`. -/
def primLoop (w : ℕ → ℕ → ℤ) (n : ℕ) : ℕ → PState → Option PState
  | 0, s => some s
  | c + 1, s =>
    match primStep w n s with
    | none => none
    | some s' => primLoop w n c s'

/-- The edge-collection loop `for v in range(1, cnt + 1)`: accumulate
`(parent[v], v, w)` and the running total, failing on an unset parent. -/
def buildEdges (w : ℕ → ℕ → ℤ) (parent : ℕ → Option ℕ) :
    ℕ → Option (List (ℕ × ℕ × ℤ) × ℤ)
  | 0 => some ([], 0)
  | c + 1 =>
    match buildEdges w parent c with
    | none => none
    | some (es, t) =>
      match parent (c + 1) with
      | none => none
      | some u => some (es ++ [(u, c + 1, w u (c + 1))], t + w u (c + 1))

/-- Initial state: nothing visited, `min_edge = [inf]*n` with
`min_edge[0] = 0`, all parents unset. -/
def primInit : PState :=
  (fun _ => false, fun v => if v = 0 then (0 : WithTop ℤ) else ⊤, fun _ => none)

/-- `WeightedGraph.prim_mst`. -/
def primMst (w : ℕ → ℕ → ℤ) (n : ℕ) : Option (List (ℕ × ℕ × ℤ)) × Option ℤ :=
  if n = 0 then (none, none)
  else if n = 1 then (some [], some 0)
  else
    match primLoop w n n primInit with
    | none => (none, none)
    | some s =>
      if ∀ v < n, s.1 v = true then
        match buildEdges w s.2.2 (n - 1) with
        | none => (none, none)
        | some (es, t) => (some es, some t)
      else (none, none)

/-- Edge relation of the Prim graph: a strictly positive weight. -/
def ePos (w : ℕ → ℕ → ℤ) (n a b : ℕ) : Prop := a < n ∧ b < n ∧ 0 < w a b

/-- Reachability from vertex `0` over positive-weight edges. -/
def ReachesPos (w : ℕ → ℕ → ℤ) (n a b : ℕ) : Prop :=
  Relation.ReflTransGen (ePos w n) a b

/-- Connectivity as Prim requires it: at least one vertex, and every
vertex reachable from vertex `0`. -/
def Connected (w : ℕ → ℕ → ℤ) (n : ℕ) : Prop :=
  0 < n ∧ ∀ v < n, ReachesPos w n 0 v

end Prim7

end GraphLib

namespace GraphLib

namespace Prim7

theorem selectMin_none_best (inMst : ℕ → Bool) (minEdge : ℕ → WithTop ℤ) :
    ∀ cnt, (selectMin inMst minEdge cnt).1 = none →
      (selectMin inMst minEdge cnt).2 = ⊤ := by
  intro cnt
  induction cnt with
  | zero => intro _; rfl
  | succ v ih =>
    intro h
    unfold selectMin at h ⊢
    simp only [] at h ⊢
    split_ifs at h ⊢ with hc
    exact ih h

theorem selectMin_none_iff (inMst : ℕ → Bool) (minEdge : ℕ → WithTop ℤ) :
    ∀ cnt, (selectMin inMst minEdge cnt).1 = none ↔
      ∀ v < cnt, ¬(inMst v = false ∧ minEdge v < ⊤) := by
  intro cnt
  induction cnt with
  | zero => exact ⟨fun _ v hv => by omega, fun _ => rfl⟩
  | succ c ih =>
    constructor
    · intro h v hv
      unfold selectMin at h
      simp only [] at h
      split_ifs at h with hc
      rcases Nat.lt_succ_iff_lt_or_eq.1 hv with hv' | rfl
      · exact (ih.1 h) v hv'
      · intro ⟨h1, h2⟩
        rw [selectMin_none_best inMst minEdge v h] at hc
        exact hc ⟨h1, h2⟩
    · intro h
      unfold selectMin
      have hpre : (selectMin inMst minEdge c).1 = none :=
        ih.2 (fun v hv => h v (by omega))
      simp only []
      split_ifs with hc
      · rw [selectMin_none_best inMst minEdge c hpre] at hc
        exact absurd hc (h c (by omega))
      · exact hpre

theorem selectMin_some_spec (inMst : ℕ → Bool) (minEdge : ℕ → WithTop ℤ) :
    ∀ cnt u, (selectMin inMst minEdge cnt).1 = some u →
      u < cnt ∧ inMst u = false ∧ minEdge u < ⊤ := by
  intro cnt
  induction cnt with
  | zero => intro u h; cases h
  | succ c ih =>
    intro u h
    unfold selectMin at h
    simp only [] at h
    split_ifs at h with hc
    · simp only [Option.some.injEq] at h
      subst h
      exact ⟨by omega, hc.1, lt_of_lt_of_le hc.2 le_top⟩
    · obtain ⟨h1, h2, h3⟩ := ih u h
      exact ⟨by omega, h2, h3⟩

/-- In a relational path from a marked to an unmarked vertex some edge
crosses the boundary. -/
theorem reach_crossing {rel : ℕ → ℕ → Prop} {marked : ℕ → Bool} {a b : ℕ}
    (h : Relation.ReflTransGen rel a b)
    (ha : marked a = true) (hb : marked b = false) :
    ∃ x y, marked x = true ∧ marked y = false ∧ rel x y := by
  induction h with
  | refl => rw [ha] at hb; cases hb
  | tail hab hbc ih =>
    rename_i p q
    cases hp : marked p with
    | true => exact ⟨p, q, hp, hb, hbc⟩
    | false => exact ih hp

end Prim7

end GraphLib

namespace GraphLib

namespace Prim7

/-- Loop invariant of `prim_mst`:
visited vertices are in range and reachable from `0`; a finite `min_edge`
of an unvisited vertex is explained by `v = 0` or an edge from a visited
vertex; edges from visited to unvisited vertices keep `min_edge` finite;
a finite `min_edge` off vertex `0` comes with a parent; visited vertices
have finite `min_edge`; vertex `0` keeps its seed entry while
unvisited. -/
def Inv (w : ℕ → ℕ → ℤ) (n : ℕ) (s : PState) : Prop :=
  (∀ v, s.1 v = true → v < n ∧ ReachesPos w n 0 v) ∧
  (∀ v, v < n → s.1 v = false → s.2.1 v ≠ ⊤ →
    v = 0 ∨ ∃ u, s.1 u = true ∧ 0 < w u v) ∧
  (∀ u v, s.1 u = true → v < n → s.1 v = false → 0 < w u v → s.2.1 v ≠ ⊤) ∧
  (∀ v, v ≠ 0 → s.2.1 v ≠ ⊤ → s.2.2 v ≠ none) ∧
  (∀ v, s.1 v = true → s.2.1 v ≠ ⊤) ∧
  (s.1 0 = false → s.2.1 0 ≠ ⊤)

theorem inv_init (w : ℕ → ℕ → ℤ) (n : ℕ) : Inv w n primInit := by
  refine ⟨?_, ?_, ?_, ?_, ?_, ?_⟩
  · intro v h; cases h
  · intro v _ _ hne
    by_cases h0 : v = 0
    · exact Or.inl h0
    · exact absurd (by simp [primInit, h0]) hne
  · intro u v h; cases h
  · intro v h0 hne
    exact absurd (by simp [primInit, h0]) hne
  · intro v h; cases h
  · intro _
    simp [primInit]

theorem primStep_inv {w : ℕ → ℕ → ℤ} {n : ℕ} {s s' : PState}
    (hinv : Inv w n s) (hstep : primStep w n s = some s') : Inv w n s' := by
  obtain ⟨hsound, hreason, hfrontier, hparent, hmfin, hseed⟩ := hinv
  unfold primStep at hstep
  rcases hsel : (selectMin s.1 s.2.1 n).1 with _ | u
  · rw [hsel] at hstep; cases hstep
  · rw [hsel] at hstep
    obtain ⟨hun, humst, humin⟩ := selectMin_some_spec s.1 s.2.1 n u hsel
    simp only [Option.some.injEq] at hstep
    subst hstep
    have humin' : s.2.1 u ≠ ⊤ := ne_top_of_lt humin
    set inMst' : ℕ → Bool := fun v => if v = u then true else s.1 v with hInMst
    have hmark : ∀ v, inMst' v = true ↔ (v = u ∨ s.1 v = true) := by
      intro v
      rw [hInMst]
      by_cases hvu : v = u <;> simp [hvu]
    have hmark_false : ∀ v, inMst' v = false ↔ (v ≠ u ∧ s.1 v = false) := by
      intro v
      rw [hInMst]
      by_cases hvu : v = u <;> simp [hvu]
    -- the relaxation condition and the two result arrays, pointwise
    set cond : ℕ → Prop := fun v =>
      v < n ∧ 0 < w u v ∧ inMst' v = false ∧ ((w u v : WithTop ℤ)) < s.2.1 v
      with hcond
    have hme : ∀ v, (relaxAll w n u inMst' s.2.1 s.2.2).1 v =
        if cond v then (w u v : WithTop ℤ) else s.2.1 v := fun v => rfl
    have hpe : ∀ v, (relaxAll w n u inMst' s.2.1 s.2.2).2 v =
        if cond v then some u else s.2.2 v := fun v => rfl
    have hme_le : ∀ v, (relaxAll w n u inMst' s.2.1 s.2.2).1 v ≤ s.2.1 v := by
      intro v
      rw [hme v]
      split_ifs with hc
      · exact le_of_lt hc.2.2.2
      · exact le_rfl
    have hme_ne : ∀ v, s.2.1 v ≠ ⊤ → (relaxAll w n u inMst' s.2.1 s.2.2).1 v ≠ ⊤ := by
      intro v hv
      intro hcontra
      exact hv (top_le_iff.1 (hcontra ▸ hme_le v))
    have hureach : ReachesPos w n 0 u := by
      rcases hreason u hun humst humin' with h0 | ⟨u', hu', hw⟩
      · rw [h0]
        exact Relation.ReflTransGen.refl
      · obtain ⟨hu'n, hu'r⟩ := hsound u' hu'
        exact Relation.ReflTransGen.tail hu'r ⟨hu'n, hun, hw⟩
    refine ⟨?_, ?_, ?_, ?_, ?_, ?_⟩
    · -- sound
      intro v hv
      rcases (hmark v).1 hv with rfl | hv'
      · exact ⟨hun, hureach⟩
      · exact hsound v hv'
    · -- reason
      intro v hvn hv hne
      obtain ⟨hvu, hvf⟩ := (hmark_false v).1 hv
      rw [hme v] at hne
      split_ifs at hne with hc
      · exact Or.inr ⟨u, (hmark u).2 (Or.inl rfl), hc.2.1⟩
      · rcases hreason v hvn hvf hne with h0 | ⟨u', hu', hw⟩
        · exact Or.inl h0
        · exact Or.inr ⟨u', (hmark u').2 (Or.inr hu'), hw⟩
    · -- frontier
      intro x v hx hvn hv hw
      obtain ⟨hvu, hvf⟩ := (hmark_false v).1 hv
      rcases (hmark x).1 hx with hxu | hx'
      · -- edge from the freshly visited u
        rw [hxu] at hw
        rw [hme v]
        split_ifs with hc
        · simp
        · have hnlt : ¬ ((w u v : WithTop ℤ) < s.2.1 v) := fun hlt =>
            hc ⟨hvn, hw, (hmark_false v).2 ⟨hvu, hvf⟩, hlt⟩
          exact ne_top_of_lt
            (lt_of_le_of_lt (not_lt.1 hnlt) (WithTop.coe_lt_top (w u v)))
      · exact hme_ne v (hfrontier x v hx' hvn hvf hw)
    · -- parent present
      intro v hv0 hne
      rw [hme v] at hne
      rw [hpe v]
      split_ifs at hne ⊢ with hc
      · exact Option.some_ne_none u
      · exact hparent v hv0 hne
    · -- visited keeps finite min_edge
      intro v hv
      rcases (hmark v).1 hv with rfl | hv'
      · exact hme_ne v humin'
      · exact hme_ne v (hmfin v hv')
    · -- seed at vertex 0
      intro h0
      obtain ⟨h0u, h0f⟩ := (hmark_false 0).1 h0
      exact hme_ne 0 (hseed h0f)

end Prim7

end GraphLib

namespace GraphLib

namespace Prim7

/-- Number of unvisited vertices below `n`. -/
def unmarked (s : PState) (n : ℕ) : ℕ :=
  (List.range n).countP (fun v => !(s.1 v))

theorem unmarked_init (n : ℕ) : unmarked primInit n = n := by
  unfold unmarked primInit
  simp

theorem primLoop_inv {w : ℕ → ℕ → ℤ} {n : ℕ} :
    ∀ (c : ℕ) (s s' : PState), Inv w n s → primLoop w n c s = some s' →
      Inv w n s' := by
  intro c
  induction c with
  | zero =>
    intro s s' hinv h
    simp only [primLoop, Option.some.injEq] at h
    rw [← h]
    exact hinv
  | succ c ih =>
    intro s s' hinv h
    replace h : (match primStep w n s with
      | none => none
      | some s₀ => primLoop w n c s₀) = some s' := h
    rcases hps : primStep w n s with _ | s₀
    · rw [hps] at h; cases h
    · rw [hps] at h
      exact ih s₀ s' (primStep_inv hinv hps) h

theorem primLoop_success {w : ℕ → ℕ → ℤ} {n : ℕ} (hconn : Connected w n) :
    ∀ (c : ℕ) (s : PState), Inv w n s → unmarked s n = c →
      ∃ s', primLoop w n c s = some s' ∧ Inv w n s' ∧ ∀ v < n, s'.1 v = true := by
  intro c
  induction c with
  | zero =>
    intro s hinv hcount
    refine ⟨s, rfl, hinv, ?_⟩
    intro v hv
    have := List.countP_eq_zero.1 hcount v (List.mem_range.2 hv)
    simp at this
    exact this
  | succ c ih =>
    intro s hinv hcount
    obtain ⟨hsound, hreason, hfrontier, hparent, hmfin, hseed⟩ := hinv
    -- some vertex is still unvisited
    have hex : ∃ v ∈ List.range n, (!(s.1 v)) = true := by
      rw [← List.countP_pos]
      unfold unmarked at hcount
      omega
    obtain ⟨v₀, hv₀mem, hv₀⟩ := hex
    rw [List.mem_range] at hv₀mem
    rw [Bool.not_eq_true'] at hv₀
    -- the selection scan finds a candidate
    have hsel : (selectMin s.1 s.2.1 n).1 ≠ none := by
      intro hnone
      rw [selectMin_none_iff] at hnone
      by_cases h0 : s.1 0 = true
      · have hcross := reach_crossing (hconn.2 v₀ hv₀mem) h0 hv₀
        obtain ⟨x, y, hx, hy, hxn, hyn, hwxy⟩ := hcross
        have hfin := hfrontier x y hx hyn hy hwxy
        exact hnone y hyn ⟨hy, lt_top_iff_ne_top.2 hfin⟩
      · rw [Bool.not_eq_true] at h0
        have hfin := hseed h0
        exact hnone 0 hconn.1 ⟨h0, lt_top_iff_ne_top.2 hfin⟩
    obtain ⟨u, hu⟩ := Option.ne_none_iff_exists'.1 hsel
    obtain ⟨hun, humst, _⟩ := selectMin_some_spec s.1 s.2.1 n u hu
    set inMst' : ℕ → Bool := fun v => if v = u then true else s.1 v with hInMst
    set s'' : PState :=
      (inMst', (relaxAll w n u inMst' s.2.1 s.2.2).1,
        (relaxAll w n u inMst' s.2.1 s.2.2).2) with hs''
    have hstep : primStep w n s = some s'' := by
      unfold primStep
      rw [hu]
    have hcnt : unmarked s'' n + 1 = unmarked s n :=
      Reach4.countP_mark (List.range n) (List.nodup_range n)
        (List.mem_range.2 hun) humst
    have hloop : primLoop w n (c + 1) s = primLoop w n c s'' := by
      show (match primStep w n s with
        | none => none
        | some s₀ => primLoop w n c s₀) = primLoop w n c s''
      rw [hstep]
    obtain ⟨s', h1, h2, h3⟩ := ih s''
      (primStep_inv ⟨hsound, hreason, hfrontier, hparent, hmfin, hseed⟩ hstep)
      (by omega)
    exact ⟨s', by rw [hloop]; exact h1, h2, h3⟩

theorem buildEdges_spec (w : ℕ → ℕ → ℤ) (parent : ℕ → Option ℕ) :
    ∀ (c : ℕ) (es : List (ℕ × ℕ × ℤ)) (t : ℤ),
      buildEdges w parent c = some (es, t) →
      es.length = c ∧ t = (es.map (fun e => e.2.2)).sum := by
  intro c
  induction c with
  | zero =>
    intro es t h
    simp only [buildEdges, Option.some.injEq, Prod.mk.injEq] at h
    rw [← h.1, ← h.2]
    simp
  | succ c ih =>
    intro es t h
    replace h : (match buildEdges w parent c with
      | none => none
      | some (es₀, t₀) =>
        match parent (c + 1) with
        | none => none
        | some u => some (es₀ ++ [(u, c + 1, w u (c + 1))], t₀ + w u (c + 1))) =
          some (es, t) := h
    rcases hb : buildEdges w parent c with _ | ⟨es₀, t₀⟩
    · rw [hb] at h; cases h
    · rw [hb] at h
      rcases hp : parent (c + 1) with _ | u
      · rw [hp] at h; cases h
      · rw [hp] at h
        simp only [Option.some.injEq, Prod.mk.injEq] at h
        obtain ⟨hes, ht⟩ := h
        obtain ⟨hlen, hsum⟩ := ih es₀ t₀ hb
        constructor
        · rw [← hes, List.length_append, hlen, List.length_singleton]
        · rw [← hes, ← ht, List.map_append, List.sum_append, hsum]
          simp

theorem buildEdges_some (w : ℕ → ℕ → ℤ) (parent : ℕ → Option ℕ) :
    ∀ (c : ℕ), (∀ v, 1 ≤ v → v ≤ c → parent v ≠ none) →
      ∃ es t, buildEdges w parent c = some (es, t) := by
  intro c
  induction c with
  | zero => intro _; exact ⟨[], 0, rfl⟩
  | succ c ih =>
    intro h
    obtain ⟨es, t, hb⟩ := ih (fun v h1 h2 => h v h1 (by omega))
    rcases hp : parent (c + 1) with _ | u
    · exact absurd hp (h (c + 1) (by omega) le_rfl)
    · refine ⟨es ++ [(u, c + 1, w u (c + 1))], t + w u (c + 1), ?_⟩
      show (match buildEdges w parent c with
        | none => none
        | some (es₀, t₀) =>
          match parent (c + 1) with
          | none => none
          | some u => some (es₀ ++ [(u, c + 1, w u (c + 1))], t₀ + w u (c + 1))) = _
      rw [hb, hp]

end Prim7

end GraphLib

namespace GraphLib

/-- If the graph has no positive edges at all, reachability collapses. -/
theorem reachesPos_eq_of_no_edges {w : ℕ → ℕ → ℤ} {n : ℕ}
    (h : ∀ a b, ¬ Prim7.ePos w n a b) {a b : ℕ}
    (hr : Prim7.ReachesPos w n a b) : a = b := by
  induction hr with
  | refl => rfl
  | tail hab hbc ih => exact absurd hbc (h _ _)

/-- C4: on a symmetric non-negative zero-diagonal weight matrix,
`prim_mst` returns, for a connected graph, exactly `n - 1` edges whose
reported total weight is the sum of the listed edge weights; for a
disconnected graph it returns `(None, None)`. -/
theorem C4_prim_mst (w : ℕ → ℕ → ℤ) (n : ℕ)
    (hnn : NonnegMat w n) (hd : ZeroDiag w n) (hs : SymmMat w n) :
    (Prim7.Connected w n →
      ∃ es t, Prim7.primMst w n = (some es, some t) ∧
        es.length = n - 1 ∧ t = (es.map (fun e => e.2.2)).sum) ∧
    (¬ Prim7.Connected w n → Prim7.primMst w n = (none, none)) := by
  constructor
  · intro hconn
    have hn0 : n ≠ 0 := by
      intro h
      rw [h] at hconn
      exact absurd hconn.1 (by omega)
    by_cases hn1 : n = 1
    · refine ⟨[], 0, ?_, by simp [hn1], by simp⟩
      unfold Prim7.primMst
      rw [if_neg hn0, if_pos hn1]
    · obtain ⟨s', hloop, hinv', hall⟩ :=
        Prim7.primLoop_success hconn n Prim7.primInit
          (Prim7.inv_init w n) (Prim7.unmarked_init n)
      obtain ⟨hsound, _, _, hparent, hmfin, _⟩ := hinv'
      have hps : ∀ v, 1 ≤ v → v ≤ n - 1 → s'.2.2 v ≠ none := by
        intro v h1 h2
        have hvn : v < n := by omega
        exact hparent v (by omega) (hmfin v (hall v hvn))
      obtain ⟨es, t, hbe⟩ := Prim7.buildEdges_some w s'.2.2 (n - 1) hps
      obtain ⟨hlen, hsum⟩ := Prim7.buildEdges_spec w s'.2.2 (n - 1) es t hbe
      refine ⟨es, t, ?_, hlen, hsum⟩
      unfold Prim7.primMst
      rw [if_neg hn0, if_neg hn1, hloop]
      simp only []
      rw [if_pos hall, hbe]
  · intro hnc
    unfold Prim7.primMst
    by_cases hn0 : n = 0
    · rw [if_pos hn0]
    · by_cases hn1 : n = 1
      · exfalso
        refine hnc ⟨by omega, ?_⟩
        intro v hv
        have : v = 0 := by omega
        rw [this]
        exact Relation.ReflTransGen.refl
      · rw [if_neg hn0, if_neg hn1]
        rcases hloop : Prim7.primLoop w n n Prim7.primInit with _ | s'
        · rfl
        · have hinv' := Prim7.primLoop_inv n Prim7.primInit s'
            (Prim7.inv_init w n) hloop
          simp only []
          by_cases hall : ∀ v < n, s'.1 v = true
          · exfalso
            exact hnc ⟨by omega, fun v hv => (hinv'.1 v (hall v hv)).2⟩
          · rw [if_neg hall]

/-- Witness for `C4_prim_mst`: a connected 2-vertex graph (one edge of
weight 2) and a disconnected edgeless 2-vertex graph. -/
theorem C4_prim_mst_witness :
    (∃ es t, Prim7.primMst (matOf [[0,2],[2,0]]) 2 = (some es, some t) ∧
      es.length = 2 - 1 ∧ t = (es.map (fun e => e.2.2)).sum) ∧
    Prim7.primMst (matOf [[0,0],[0,0]]) 2 = (none, none) := by
  constructor
  · refine (C4_prim_mst (matOf [[0,2],[2,0]]) 2 (by decide) (by decide) (by decide)).1 ?_
    refine ⟨by decide, ?_⟩
    intro v hv
    interval_cases v
    · exact Relation.ReflTransGen.refl
    · exact Relation.ReflTransGen.single ⟨by decide, by decide, by decide⟩
  · refine (C4_prim_mst (matOf [[0,0],[0,0]]) 2 (by decide) (by decide) (by decide)).2 ?_
    rintro ⟨-, hall⟩
    have h1 := hall 1 (by decide)
    have hno : ∀ a b, ¬ Prim7.ePos (matOf [[0,0],[0,0]]) 2 a b := by
      rintro a b ⟨ha, hb, hlt⟩
      interval_cases a <;> interval_cases b <;> revert hlt <;> decide
    exact absurd (reachesPos_eq_of_no_edges hno h1) (by decide)

end GraphLib

/-!
## C6: exact chromatic number (`graph_coloring.py`)

The recursive `backtrack` is embedded functionally: the Python code
resets `colors[v] = 0` before trying the next color, so a failed branch
leaves the array exactly as it found it, and passing the array by value
is observationally identical.  The color loop `for c in range(1, k + 1)`
becomes `tryFrom` counting `c` upward; the vertex order is the stable
descending-degree sort of the source.
-/

namespace GraphLib

namespace Coloring12

/-- `Graph._build_adjacency_list` for the 0/1 adjacency matrix. -/
def adjListC (adj : ℕ → ℕ → ℤ) (n v : ℕ) : List ℕ :=
  (List.range n).filter (fun u => adj v u = 1)

/-- `Graph.is_safe_color`. -/
def isSafeColor (adj : ℕ → ℕ → ℤ) (n v c : ℕ) (colors : ℕ → ℕ) : Bool :=
  (adjListC adj n v).all (fun u => colors u != c)

/-- Vertex order of `_color_with_k`: stable sort of `range n` by
descending adjacency-list length (`sorted(..., key=lambda v: -len(...))`). -/
def order (adj : ℕ → ℕ → ℤ) (n : ℕ) : List ℕ :=
  (List.range n).mergeSort
    (fun a b => (adjListC adj n b).length ≤ (adjListC adj n a).length)

mutual

/-- `backtrack(idx)` over the remaining suffix of the vertex order. -/
def backtrack (adj : ℕ → ℕ → ℤ) (n k : ℕ) : List ℕ → (ℕ → ℕ) → Option (ℕ → ℕ)
  | [], colors => some colors
  | v :: rest, colors => tryFrom adj n k v rest colors 1
termination_by l _ => (l.length, k + 2)
decreasing_by
  simp only [List.length_cons]
  apply Prod.Lex.right
  omega

/-- The `for c in range(1, k + 1)` loop inside `backtrack`. -/
def tryFrom (adj : ℕ → ℕ → ℤ) (n k v : ℕ) (rest : List ℕ) (colors : ℕ → ℕ)
    (c : ℕ) : Option (ℕ → ℕ) :=
  if h : k < c then none
  else if isSafeColor adj n v c colors then
    match backtrack adj n k rest (fun x => if x = v then c else colors x) with
    | some res => some res
    | none => tryFrom adj n k v rest colors (c + 1)
  else tryFrom adj n k v rest colors (c + 1)
termination_by (rest.length + 1, k + 1 - c)
decreasing_by
  · apply Prod.Lex.left
    omega
  · apply Prod.Lex.right
    omega
  · apply Prod.Lex.right
    omega

end

/-- `Graph._color_with_k`. -/
def colorWithK (adj : ℕ → ℕ → ℤ) (n k : ℕ) : Option (ℕ → ℕ) :=
  backtrack adj n k (order adj n) (fun _ => 0)

/-- The `for k in range(1, n + 1)` loop of `Graph.chromatic_number`,
with the theoretically unreachable fallback `(n, [1, …, n])`. -/
def chromFrom (adj : ℕ → ℕ → ℤ) (n : ℕ) : ℕ → ℕ → ℕ × (ℕ → ℕ)
  | _, 0 => (n, fun v => v + 1)
  | k, r + 1 =>
    match colorWithK adj n k with
    | some col => (k, col)
    | none => chromFrom adj n (k + 1) r

/-- `Graph.chromatic_number`. -/
def chromaticNumber (adj : ℕ → ℕ → ℤ) (n : ℕ) : ℕ × (ℕ → ℕ) :=
  chromFrom adj n 1 n

end Coloring12

end GraphLib

namespace GraphLib

namespace Coloring12

theorem mem_adjListC {adj : ℕ → ℕ → ℤ} {n v u : ℕ} :
    u ∈ adjListC adj n v ↔ u < n ∧ adj v u = 1 := by
  unfold adjListC
  rw [List.mem_filter, List.mem_range, decide_eq_true_eq]

theorem isSafe_iff {adj : ℕ → ℕ → ℤ} {n v c : ℕ} {colors : ℕ → ℕ} :
    isSafeColor adj n v c colors = true ↔
      ∀ u ∈ adjListC adj n v, colors u ≠ c := by
  unfold isSafeColor
  rw [List.all_eq_true]
  constructor
  · intro h u hu
    exact bne_iff_ne.1 (h u hu)
  · intro h u hu
    exact bne_iff_ne.2 (h u hu)

/-- Soundness of the backtracking search: a returned coloring leaves
vertices outside the worklist untouched, colors the worklist within
`1..k`, and creates no conflict along any edge touching the worklist. -/
theorem backtrack_sound {adj : ℕ → ℕ → ℤ} {n k : ℕ}
    (hd : ZeroDiag adj n) (hs : SymmMat adj n) :
    ∀ (l : List ℕ) (colors res : ℕ → ℕ), l.Nodup → (∀ x ∈ l, x < n) →
      backtrack adj n k l colors = some res →
      (∀ x, x ∉ l → res x = colors x) ∧
      (∀ v ∈ l, 1 ≤ res v ∧ res v ≤ k) ∧
      (∀ v ∈ l, ∀ u ∈ adjListC adj n v, u ∉ l → res u ≠ res v) ∧
      (∀ a ∈ l, ∀ b ∈ l, b ∈ adjListC adj n a → res a ≠ res b) := by
  intro l
  induction l with
  | nil =>
    intro colors res _ _ hbt
    unfold backtrack at hbt
    simp only [Option.some.injEq] at hbt
    subst hbt
    exact ⟨fun x _ => rfl, fun v hv => absurd hv (List.not_mem_nil v),
      fun v hv => absurd hv (List.not_mem_nil v),
      fun a ha => absurd ha (List.not_mem_nil a)⟩
  | cons v rest ih =>
    intro colors res hnd hbound hbt
    unfold backtrack at hbt
    rw [List.nodup_cons] at hnd
    have hvn : v < n := hbound v (List.mem_cons_self v rest)
    have hrestb : ∀ x ∈ rest, x < n :=
      fun x hx => hbound x (List.mem_cons_of_mem v hx)
    suffices inner : ∀ fuel c, k + 1 - c ≤ fuel → 1 ≤ c →
        tryFrom adj n k v rest colors c = some res →
        (∀ x, x ∉ v :: rest → res x = colors x) ∧
        (∀ x ∈ v :: rest, 1 ≤ res x ∧ res x ≤ k) ∧
        (∀ x ∈ v :: rest, ∀ u ∈ adjListC adj n x, u ∉ v :: rest → res u ≠ res x) ∧
        (∀ a ∈ v :: rest, ∀ b ∈ v :: rest, b ∈ adjListC adj n a → res a ≠ res b) by
      exact inner (k + 1) 1 (by omega) le_rfl hbt
    intro fuel
    induction fuel with
    | zero =>
      intro c hf h1c htf
      unfold tryFrom at htf
      rw [dif_pos (by omega)] at htf
      cases htf
    | succ f ihf =>
      intro c hf h1c htf
      by_cases hkc : k < c
      · unfold tryFrom at htf
        rw [dif_pos hkc] at htf
        cases htf
      · unfold tryFrom at htf
        rw [dif_neg hkc] at htf
        split_ifs at htf with hsafe
        · rcases hbt2 : backtrack adj n k rest
              (fun x => if x = v then c else colors x) with _ | res₀
          · rw [hbt2] at htf
            exact ihf (c + 1) (by omega) (by omega) htf
          · rw [hbt2] at htf
            simp only [Option.some.injEq] at htf
            subst htf
            obtain ⟨hi, hii, hiii, hiv⟩ := ih _ res₀ hnd.2 hrestb hbt2
            have hresv : res₀ v = c := by
              rw [hi v hnd.1]
              simp
            have hsafe' := isSafe_iff.1 hsafe
            refine ⟨?_, ?_, ?_, ?_⟩
            · intro x hx
              rw [List.mem_cons] at hx
              push_neg at hx
              rw [hi x hx.2]
              rw [if_neg hx.1]
            · intro x hx
              rcases List.mem_cons.1 hx with rfl | hx'
              · rw [hresv]; omega
              · exact hii x hx'
            · intro x hx u hu hun
              rw [List.mem_cons] at hun
              push_neg at hun
              rcases List.mem_cons.1 hx with rfl | hx'
              · have hres_u : res₀ u = colors u := by
                  rw [hi u hun.2, if_neg hun.1]
                rw [hres_u, hresv]
                exact hsafe' u hu
              · exact hiii x hx' u hu hun.2
            · intro a ha b hb hba
              have han : a < n := hbound a ha
              have hab : a ≠ b := by
                intro h
                obtain ⟨hbn, hedge⟩ := mem_adjListC.1 hba
                rw [← h] at hedge
                rw [hd a han] at hedge
                exact absurd hedge (by decide)
              have hsymm_mem : a ∈ adjListC adj n b := by
                obtain ⟨hbn, hedge⟩ := mem_adjListC.1 hba
                refine mem_adjListC.2 ⟨han, ?_⟩
                rw [← hs a han b hbn]
                exact hedge
              rcases List.mem_cons.1 ha with hav | ha' <;>
                rcases List.mem_cons.1 hb with hbv | hb'
              · exact absurd (hav.trans hbv.symm) hab
              · -- a is the head, b in the tail
                exact hiii b hb' a hsymm_mem (by rw [hav]; exact hnd.1)
              · -- b is the head, a in the tail
                exact Ne.symm (hiii a ha' b hba (by rw [hbv]; exact hnd.1))
              · exact hiv a ha' b hb' hba
        · exact ihf (c + 1) (by omega) (by omega) htf

end Coloring12

end GraphLib

namespace GraphLib

namespace Coloring12

/-- Completeness of the backtracking search: if some proper `k`-coloring
extends the current partial assignment, the search does not fail. -/
theorem backtrack_complete {adj : ℕ → ℕ → ℤ} {n k : ℕ} :
    ∀ (l : List ℕ) (colors g : ℕ → ℕ), l.Nodup →
      (∀ v ∈ l, colors v = 0) →
      (∀ v ∈ l, 1 ≤ g v ∧ g v ≤ k) →
      (∀ x, x ∉ l → g x = colors x) →
      (∀ v ∈ l, ∀ u ∈ adjListC adj n v, g u ≠ g v) →
      backtrack adj n k l colors ≠ none := by
  intro l
  induction l with
  | nil =>
    intro colors g _ _ _ _ _
    unfold backtrack
    simp
  | cons v rest ih =>
    intro colors g hnd hz hb hout hconf
    unfold backtrack
    rw [List.nodup_cons] at hnd
    have hvk := hb v (List.mem_cons_self v rest)
    -- the extension's color of the head vertex
    have hsafe : isSafeColor adj n v (g v) colors = true := by
      rw [isSafe_iff]
      intro u hu
      by_cases hul : u ∈ v :: rest
      · rw [hz u hul]
        omega
      · rw [← hout u hul]
        exact hconf v (List.mem_cons_self v rest) u hu
    have hrec : backtrack adj n k rest
        (fun x => if x = v then g v else colors x) ≠ none := by
      refine ih _ g hnd.2 ?_ ?_ ?_ ?_
      · intro u hu
        rw [if_neg (fun h : u = v => hnd.1 (h ▸ hu))]
        exact hz u (List.mem_cons_of_mem v hu)
      · intro u hu
        exact hb u (List.mem_cons_of_mem v hu)
      · intro x hx
        by_cases hxv : x = v
        · rw [if_pos hxv, hxv]
        · rw [if_neg hxv]
          exact hout x (by
            rw [List.mem_cons]
            push_neg
            exact ⟨hxv, hx⟩)
      · intro u hu
        exact hconf u (List.mem_cons_of_mem v hu)
    -- the color loop reaches g v
    suffices htf : ∀ fuel c, k + 1 - c ≤ fuel → c ≤ g v →
        tryFrom adj n k v rest colors c ≠ none by
      exact htf (k + 1) 1 (by omega) hvk.1
    intro fuel
    induction fuel with
    | zero =>
      intro c hf hc
      omega
    | succ f ihf =>
      intro c hf hc
      unfold tryFrom
      rw [dif_neg (by omega)]
      split_ifs with hsafec
      · rcases hbt2 : backtrack adj n k rest
            (fun x => if x = v then c else colors x) with _ | res₀
        · -- this branch failed; if c = g v that contradicts hrec
          have hclt : c < g v := by
            rcases Nat.lt_or_ge c (g v) with h | h
            · exact h
            · exfalso
              have : c = g v := by omega
              rw [this] at hbt2
              exact hrec hbt2
          exact ihf (c + 1) (by omega) (by omega)
        · simp
      · have hcneq : c ≠ g v := by
          intro h
          rw [h] at hsafec
          exact hsafec hsafe
        exact ihf (c + 1) (by omega) (by omega)

end Coloring12

end GraphLib

namespace GraphLib

namespace Coloring12

theorem order_perm (adj : ℕ → ℕ → ℤ) (n : ℕ) :
    (order adj n).Perm (List.range n) := List.mergeSort_perm _ _

theorem order_nodup (adj : ℕ → ℕ → ℤ) (n : ℕ) : (order adj n).Nodup :=
  ((order_perm adj n).nodup_iff).2 (List.nodup_range n)

theorem mem_order {adj : ℕ → ℕ → ℤ} {n x : ℕ} : x ∈ order adj n ↔ x < n := by
  rw [(order_perm adj n).mem_iff, List.mem_range]

theorem colorWithK_sound {adj : ℕ → ℕ → ℤ} {n k : ℕ}
    (hd : ZeroDiag adj n) (hs : SymmMat adj n) {res : ℕ → ℕ}
    (h : colorWithK adj n k = some res) :
    (∀ v < n, 1 ≤ res v ∧ res v ≤ k) ∧
    (∀ a < n, ∀ b < n, adj a b = 1 → res a ≠ res b) := by
  obtain ⟨_, hii, _, hiv⟩ := backtrack_sound hd hs (order adj n) (fun _ => 0) res
    (order_nodup adj n) (fun x hx => mem_order.1 hx) h
  constructor
  · intro v hv
    exact hii v (mem_order.2 hv)
  · intro a ha b hb he
    exact hiv a (mem_order.2 ha) b (mem_order.2 hb) (mem_adjListC.2 ⟨hb, he⟩)

theorem colorWithK_complete {adj : ℕ → ℕ → ℤ} {n k : ℕ}
    (hg : ∃ g : ℕ → ℕ, (∀ v < n, 1 ≤ g v ∧ g v ≤ k) ∧
      (∀ a < n, ∀ b < n, adj a b = 1 → g a ≠ g b)) :
    colorWithK adj n k ≠ none := by
  obtain ⟨g, hb, hp⟩ := hg
  refine backtrack_complete (order adj n) (fun _ => 0)
    (fun x => if x < n then g x else 0) (order_nodup adj n)
    (fun _ _ => rfl) ?_ ?_ ?_
  · intro v hv
    have hvn := mem_order.1 hv
    show 1 ≤ (if v < n then g v else 0) ∧ (if v < n then g v else 0) ≤ k
    rw [if_pos hvn]
    exact hb v hvn
  · intro x hx
    show (if x < n then g x else 0) = 0
    rw [if_neg (fun h : x < n => hx (mem_order.2 h))]
  · intro v hv u hu
    have hvn := mem_order.1 hv
    obtain ⟨hun, hedge⟩ := mem_adjListC.1 hu
    show (if u < n then g u else 0) ≠ (if v < n then g v else 0)
    rw [if_pos hvn, if_pos hun]
    exact Ne.symm (hp v hvn u hun hedge)

theorem chromFrom_spec (adj : ℕ → ℕ → ℤ) (n : ℕ) :
    ∀ (r k₀ k : ℕ) (col : ℕ → ℕ), chromFrom adj n k₀ r = (k, col) →
      (colorWithK adj n k = some col ∧ k₀ ≤ k ∧ k < k₀ + r ∧
        ∀ j, k₀ ≤ j → j < k → colorWithK adj n j = none) ∨
      ((k, col) = (n, fun v => v + 1) ∧
        ∀ j, k₀ ≤ j → j < k₀ + r → colorWithK adj n j = none) := by
  intro r
  induction r with
  | zero =>
    intro k₀ k col h
    replace h : ((n : ℕ), fun v => v + 1) = (k, col) := h
    refine Or.inr ⟨h.symm, ?_⟩
    intro j h1 h2
    omega
  | succ r ih =>
    intro k₀ k col h
    replace h : (match colorWithK adj n k₀ with
      | some col₀ => (k₀, col₀)
      | none => chromFrom adj n (k₀ + 1) r) = (k, col) := h
    rcases hck : colorWithK adj n k₀ with _ | col₀
    · rw [hck] at h
      rcases ih (k₀ + 1) k col h with ⟨h1, h2, h3, h4⟩ | ⟨h1, h2⟩
      · refine Or.inl ⟨h1, by omega, by omega, ?_⟩
        intro j hj1 hj2
        rcases Nat.eq_or_lt_of_le hj1 with rfl | hj1'
        · exact hck
        · exact h4 j (by omega) hj2
      · refine Or.inr ⟨h1, ?_⟩
        intro j hj1 hj2
        rcases Nat.eq_or_lt_of_le hj1 with rfl | hj1'
        · exact hck
        · exact h2 j (by omega) (by omega)
    · rw [hck] at h
      simp only [Prod.mk.injEq] at h
      refine Or.inl ⟨?_, by omega, by omega, ?_⟩
      · rw [← h.1, ← h.2]
        exact hck
      · intro j hj1 hj2
        omega

end Coloring12

/-- C6: for every symmetric loop-free 0/1 adjacency matrix,
`chromatic_number` returns `(k, coloring)` where the coloring uses colors
`1..k`, no edge joins equal colors, and no proper coloring with fewer
than `k` colors exists. -/
theorem C6_chromatic_number (adj : ℕ → ℕ → ℤ) (n : ℕ)
    (h01 : ZeroOneMat adj n) (hd : ZeroDiag adj n) (hs : SymmMat adj n) :
    (∀ v < n, 1 ≤ (Coloring12.chromaticNumber adj n).2 v ∧
      (Coloring12.chromaticNumber adj n).2 v ≤ (Coloring12.chromaticNumber adj n).1) ∧
    (∀ a < n, ∀ b < n, adj a b = 1 →
      (Coloring12.chromaticNumber adj n).2 a ≠ (Coloring12.chromaticNumber adj n).2 b) ∧
    (∀ k' < (Coloring12.chromaticNumber adj n).1,
      ¬ ∃ g : ℕ → ℕ, (∀ v < n, 1 ≤ g v ∧ g v ≤ k') ∧
        (∀ a < n, ∀ b < n, adj a b = 1 → g a ≠ g b)) := by
  by_cases hn : n = 0
  · subst hn
    have h0 : Coloring12.chromaticNumber adj 0 = (0, fun v => v + 1) := rfl
    rw [h0]
    refine ⟨?_, ?_, ?_⟩
    · intro v hv; omega
    · intro a ha; omega
    · intro k' hk'; omega
  · have hfull : Coloring12.colorWithK adj n n ≠ none := by
      refine Coloring12.colorWithK_complete ⟨fun v => v + 1, ?_, ?_⟩
      · intro v hv
        simp only []
        omega
      · intro a ha b hb he
        by_cases hab : a = b
        · rw [hab, hd b hb] at he
          exact absurd he (by decide)
        · simp only []
          omega
    rcases hcf : Coloring12.chromaticNumber adj n with ⟨k, col⟩
    rcases Coloring12.chromFrom_spec adj n n 1 k col hcf
      with ⟨hck, hk1, hkn, hnone⟩ | ⟨hfallback, hallnone⟩
    · obtain ⟨hbounds, hproper⟩ := Coloring12.colorWithK_sound hd hs hck
      refine ⟨hbounds, hproper, ?_⟩
      rintro k' hk' ⟨g, hgb, hgp⟩
      by_cases hk'0 : k' = 0
      · subst hk'0
        have := hgb 0 (by omega)
        omega
      · exact Coloring12.colorWithK_complete ⟨g, hgb, hgp⟩
          (hnone k' (by omega) hk')
    · exact absurd (hallnone n (by omega) (by omega)) hfull

/-- Witness for `C6_chromatic_number` on the triangle graph. -/
theorem C6_chromatic_number_witness :
    (∀ v < 3, 1 ≤ (Coloring12.chromaticNumber (matOf [[0,1,1],[1,0,1],[1,1,0]]) 3).2 v ∧
      (Coloring12.chromaticNumber (matOf [[0,1,1],[1,0,1],[1,1,0]]) 3).2 v ≤
        (Coloring12.chromaticNumber (matOf [[0,1,1],[1,0,1],[1,1,0]]) 3).1) ∧
    (∀ a < 3, ∀ b < 3, matOf [[0,1,1],[1,0,1],[1,1,0]] a b = 1 →
      (Coloring12.chromaticNumber (matOf [[0,1,1],[1,0,1],[1,1,0]]) 3).2 a ≠
        (Coloring12.chromaticNumber (matOf [[0,1,1],[1,0,1],[1,1,0]]) 3).2 b) ∧
    (∀ k' < (Coloring12.chromaticNumber (matOf [[0,1,1],[1,0,1],[1,1,0]]) 3).1,
      ¬ ∃ g : ℕ → ℕ, (∀ v < 3, 1 ≤ g v ∧ g v ≤ k') ∧
        (∀ a < 3, ∀ b < 3, matOf [[0,1,1],[1,0,1],[1,1,0]] a b = 1 → g a ≠ g b)) :=
  C6_chromatic_number (matOf [[0,1,1],[1,0,1],[1,1,0]]) 3
    (by decide) (by decide) (by decide)

end GraphLib

/-!
## C5 and C10: Edmonds–Karp max-flow (`max_flow_ford_fulkerson.py`)

`_bfs_on_residual` scans `for u in range(n)` with an early `return True,
parent` the moment the sink is freshly discovered; the scan is embedded as
a primitive recursion over the scanned prefix with a short-circuit flag,
and the `while queue` loop gets fuel `n + 1` (sufficient by the usual
`unvisited + |queue|` potential whenever the source is in range).  Path
reconstruction walks the `parent` array with fuel `n + 1`; the BFS parent
forest is proved to have strictly decreasing ranks, so the walk reaches
`s` within `n` steps.  The outer augmentation loop gets fuel
`(sum of the source row of the capacity matrix) + 1`; all claims are
proved as invariants of every reachable loop state, so they cover the
state in which the Python loop exits.
-/

namespace GraphLib

namespace MaxFlow11

/-- `_bfs_on_residual`'s inner `for u in range(cnt)` scan from the popped
vertex `v`.  Returns (early-returned?, parent, visited, queue). -/
def bfsScan (residual : ℕ → ℕ → ℤ) (t v : ℕ) :
    ℕ → (ℕ → Option ℕ) → (ℕ → Bool) → List ℕ →
    Bool × (ℕ → Option ℕ) × (ℕ → Bool) × List ℕ
  | 0, parent, visited, queue => (false, parent, visited, queue)
  | u + 1, parent, visited, queue =>
    match bfsScan residual t v u parent visited queue with
    | (true, p, vis, q) => (true, p, vis, q)
    | (false, p, vis, q) =>
      if vis u = false ∧ residual v u > 0 then
        let vis' : ℕ → Bool := fun x => if x = u then true else vis x
        let p' : ℕ → Option ℕ := fun x => if x = u then some v else p x
        if u = t then (true, p', vis', q) else (false, p', vis', q ++ [u])
      else (false, p, vis, q)

/-- The `while queue` loop of `_bfs_on_residual`, with fuel; `none` is
never reached when the fuel is at least `n + 1` and `s < n`. -/
def bfsLoopMF (residual : ℕ → ℕ → ℤ) (n t : ℕ) :
    ℕ → (ℕ → Option ℕ) → (ℕ → Bool) → List ℕ → Option (Bool × (ℕ → Option ℕ))
  | 0, _, _, _ => none
  | _ + 1, parent, visited, [] => some (visited t, parent)
  | f + 1, parent, visited, v :: q =>
    match bfsScan residual t v n parent visited q with
    | (true, p, _, _) => some (true, p)
    | (false, p, vis, q') => bfsLoopMF residual n t f p vis q'

/-- `FlowNetwork._bfs_on_residual`. -/
def bfsOnResidual (residual : ℕ → ℕ → ℤ) (n s t : ℕ) :
    Option (Bool × (ℕ → Option ℕ)) :=
  bfsLoopMF residual n t (n + 1) (fun _ => none) (fun x => x == s) [s]

/-- The `while v is not None` path reconstruction from the sink, before
the final `reverse`. -/
def buildPath (parent : ℕ → Option ℕ) (s : ℕ) : ℕ → ℕ → List ℕ
  | 0, _ => []
  | f + 1, v =>
    v :: (if v = s then []
          else match parent v with
               | none => []
               | some p => buildPath parent s f p)

/-- Bottleneck: minimum residual capacity over the path's edges
(`float('inf')` over fewer than two vertices). -/
def pathMin (residual : ℕ → ℕ → ℤ) : List ℕ → WithTop ℤ
  | [] => ⊤
  | [_] => ⊤
  | u :: v :: rest => min ((residual u v : WithTop ℤ)) (pathMin residual (v :: rest))

/-- Residual update along the path: subtract the bottleneck on forward
edges, add it on reverse edges, sequentially as in the source. -/
def augment (residual : ℕ → ℕ → ℤ) (b : ℤ) : List ℕ → (ℕ → ℕ → ℤ)
  | [] => residual
  | [_] => residual
  | u :: v :: rest =>
    augment
      (fun a c =>
        if a = u ∧ c = v then residual a c - b
        else if a = v ∧ c = u then residual a c + b
        else residual a c)
      b (v :: rest)

/-- Loop state: residual matrix, accumulated flow, recorded augmenting
paths, and whether the loop has exited. -/
abbrev MFState := (ℕ → ℕ → ℤ) × ℤ × List (List ℕ × ℤ) × Bool

/-- One iteration of the `while True` loop. -/
def mfStep (n s t : ℕ) (st : MFState) : Option MFState :=
  if st.2.2.2 then some st
  else
    match bfsOnResidual st.1 n s t with
    | none => none
    | some (false, _) => some (st.1, st.2.1, st.2.2.1, true)
    | some (true, parent) =>
      let path := (buildPath parent s (n + 1) t).reverse
      match pathMin st.1 path with
      | ⊤ => some (st.1, st.2.1, st.2.2.1, true)
      | (b : ℤ) =>
        some (augment st.1 b path, st.2.1 + b, st.2.2.1 ++ [(path, b)], false)

/-- `k` iterations of the loop. -/
def mfIter (n s t : ℕ) : ℕ → MFState → Option MFState
  | 0, st => some st
  | k + 1, st =>
    match mfStep n s t st with
    | none => none
    | some st' => mfIter n s t k st'

/-- Initial loop state: the residual starts as a copy of the capacity
matrix. -/
def mfInit (cap : ℕ → ℕ → ℤ) : MFState := (cap, 0, [], false)

/-- Sum of the residual/capacity row of the source. -/
def rowSum (m : ℕ → ℕ → ℤ) (s n : ℕ) : ℤ := ∑ j ∈ Finset.range n, m s j

/-- `FlowNetwork.max_flow_ford_fulkerson`: run the loop (fuel bounded by
the source row sum, which strictly decreases per augmentation) and return
the flow value and the recorded paths. -/
def maxFlowFordFulkerson (cap : ℕ → ℕ → ℤ) (n s t : ℕ) :
    Option (ℤ × List (List ℕ × ℤ)) :=
  (mfIter n s t ((rowSum cap s n).toNat + 1) (mfInit cap)).map
    (fun st => (st.2.1, st.2.2.1))

end MaxFlow11

end GraphLib

namespace GraphLib

/-- Marking one fresh element bumps the visited count by one. -/
theorem countP_mark_vis {u : ℕ} {r : ℕ → Bool} :
    ∀ (l : List ℕ), l.Nodup → u ∈ l → r u = false →
      l.countP (fun x => (fun y => if y = u then true else r y) x) =
        l.countP (fun x => r x) + 1 := by
  intro l
  induction l with
  | nil => intro _ h; cases h
  | cons a l ih =>
    intro hnd ha hru
    rw [List.nodup_cons] at hnd
    rw [List.countP_cons, List.countP_cons]
    by_cases hua : u = a
    · have hnotin : u ∉ l := by rw [hua]; exact hnd.1
      have heq : l.countP (fun x => (fun y => if y = u then true else r y) x) =
          l.countP (fun x => r x) := by
        apply List.countP_congr
        intro x hx
        have : x ≠ u := fun h => hnotin (h ▸ hx)
        simp [this]
      rw [heq]
      have h1 : ((fun y => if y = u then true else r y) a) = true := by
        simp [hua.symm]
      have h2 : (r a) = false := by rw [← hua]; exact hru
      rw [h1, h2]
      simp
    · have hul : u ∈ l := by
        rcases List.mem_cons.1 ha with h | h
        · exact absurd h hua
        · exact h
      have h1 : ((fun y => if y = u then true else r y) a) = (r a) := by
        simp only []
        rw [if_neg (show ¬ a = u from fun h => hua h.symm)]
      rw [h1]
      have := ih hnd.2 hul hru
      omega

namespace MaxFlow11

/-- Number of visited vertices below `n`. -/
def visCount (vis : ℕ → Bool) (n : ℕ) : ℕ :=
  (List.range n).countP (fun x => vis x)

theorem visCount_mark {u : ℕ} {vis : ℕ → Bool} {n : ℕ}
    (hu : u < n) (hvu : vis u = false) :
    visCount (fun y => if y = u then true else vis y) n = visCount vis n + 1 :=
  countP_mark_vis (List.range n) (List.nodup_range n) (List.mem_range.2 hu) hvu

/-- BFS parent-forest invariant: visited vertices are in range, have
ranks below the visited count, and every visited vertex other than the
source has a visited parent of strictly smaller rank across a positive
residual edge. -/
def ChainInv (res : ℕ → ℕ → ℤ) (n s : ℕ)
    (parent : ℕ → Option ℕ) (vis : ℕ → Bool) : Prop :=
  ∃ rk : ℕ → ℕ,
    (∀ u, vis u = true → u < n) ∧
    (∀ u, vis u = true → rk u < visCount vis n) ∧
    (∀ u, vis u = true → u ≠ s → ∃ p, parent u = some p ∧ vis p = true ∧
      rk p < rk u ∧ res p u > 0)

theorem chainInv_init {res : ℕ → ℕ → ℤ} {n s : ℕ} (hs : s < n) :
    ChainInv res n s (fun _ => none) (fun x => x == s) := by
  refine ⟨fun _ => 0, ?_, ?_, ?_⟩
  · intro u hu
    rw [beq_iff_eq] at hu
    rw [hu]; exact hs
  · intro u hu
    have h1 : (1 : ℕ) ≤ visCount (fun x => x == s) n := by
      unfold visCount
      have : s ∈ List.range n := List.mem_range.2 hs
      calc (1 : ℕ) = [s].countP (fun x => x == s) := by simp
        _ ≤ (List.range n).countP (fun x => x == s) := by
            apply List.Sublist.countP_le
            exact List.singleton_sublist.2 this
    show (0 : ℕ) < visCount (fun x => x == s) n
    omega
  · intro u hu hus
    rw [beq_iff_eq] at hu
    exact absurd hu hus

end MaxFlow11

end GraphLib

namespace GraphLib

namespace MaxFlow11

theorem chainInv_mark {res : ℕ → ℕ → ℤ} {n s : ℕ} {p : ℕ → Option ℕ}
    {vis1 : ℕ → Bool} {u v : ℕ}
    (hun : u < n) (hfresh : vis1 u = false) (hres : res v u > 0)
    (hv1 : vis1 v = true) (hinv : ChainInv res n s p vis1) :
    ChainInv res n s (fun x => if x = u then some v else p x)
      (fun x => if x = u then true else vis1 x) := by
  obtain ⟨rk, h1, h2, h3⟩ := hinv
  have hvc := visCount_mark hun hfresh
  have hvu : v ≠ u := fun h => by rw [h, hfresh] at hv1; cases hv1
  refine ⟨fun x => if x = u then visCount vis1 n else rk x, ?_, ?_, ?_⟩
  · intro x hx
    simp only [] at hx
    by_cases hxu : x = u
    · omega
    · rw [if_neg hxu] at hx
      exact h1 x hx
  · intro x hx
    simp only [] at hx ⊢
    rw [hvc]
    by_cases hxu : x = u
    · rw [if_pos hxu]
      omega
    · rw [if_neg hxu] at hx ⊢
      have := h2 x hx
      omega
  · intro x hx hxs
    simp only [] at hx ⊢
    by_cases hxu : x = u
    · subst hxu
      rw [if_pos rfl] at hx ⊢
      refine ⟨v, rfl, ?_, ?_, hres⟩
      · rw [if_neg hvu]
        exact hv1
      · rw [if_neg hvu, if_pos rfl]
        exact h2 v hv1
    · rw [if_neg hxu] at hx ⊢
      obtain ⟨pp, hpp1, hpp2, hpp3, hpp4⟩ := h3 x hx hxs
      have hppu : pp ≠ u := fun h => by
        rw [h, hfresh] at hpp2; cases hpp2
      refine ⟨pp, hpp1, ?_, ?_, hpp4⟩
      · rw [if_neg hppu]; exact hpp2
      · rw [if_neg hppu, if_neg hxu]
        exact hpp3

theorem bfsScan_props {res : ℕ → ℕ → ℤ} {n s t v : ℕ} :
    ∀ (cnt : ℕ) (parent : ℕ → Option ℕ) (vis : ℕ → Bool) (queue : List ℕ),
      cnt ≤ n → vis v = true → vis s = true →
      ChainInv res n s parent vis →
      (∀ x ∈ queue, vis x = true) →
      ChainInv res n s (bfsScan res t v cnt parent vis queue).2.1
        (bfsScan res t v cnt parent vis queue).2.2.1 ∧
      (∀ x ∈ (bfsScan res t v cnt parent vis queue).2.2.2,
        (bfsScan res t v cnt parent vis queue).2.2.1 x = true) ∧
      (∀ x, vis x = true → (bfsScan res t v cnt parent vis queue).2.2.1 x = true) ∧
      ((bfsScan res t v cnt parent vis queue).1 = true →
        (bfsScan res t v cnt parent vis queue).2.2.1 t = true) := by
  intro cnt
  induction cnt with
  | zero =>
    intro parent vis queue _ _ _ hinv hq
    exact ⟨hinv, hq, fun x hx => hx, fun h => absurd h (by simp [bfsScan])⟩
  | succ u ih =>
    intro parent vis queue hcnt hv hs hinv hq
    obtain ⟨hrecInv, hrecQ, hrecMono, hrecT⟩ :=
      ih parent vis queue (by omega) hv hs hinv hq
    rcases hscan : bfsScan res t v u parent vis queue with ⟨flag, p, vis1, q1⟩
    rw [hscan] at hrecInv hrecQ hrecMono hrecT
    simp only [] at hrecInv hrecQ hrecMono hrecT
    show ChainInv res n s (bfsScan res t v (u + 1) parent vis queue).2.1
        (bfsScan res t v (u + 1) parent vis queue).2.2.1 ∧ _ ∧ _ ∧ _
    unfold bfsScan
    rw [hscan]
    cases flag with
    | true => exact ⟨hrecInv, hrecQ, hrecMono, fun _ => hrecT rfl⟩
    | false =>
      simp only []
      split_ifs with hfresh hut
      · -- fresh vertex u, and it is the sink: early return
        refine ⟨chainInv_mark (by omega) hfresh.1 hfresh.2 (hrecMono v hv) hrecInv,
          ?_, ?_, ?_⟩
        · intro x hx
          have := hrecQ x hx
          simp only []
          by_cases hxu : x = u
          · rw [if_pos hxu]
          · rw [if_neg hxu]; exact this
        · intro x hx
          simp only []
          by_cases hxu : x = u
          · rw [if_pos hxu]
          · rw [if_neg hxu]; exact hrecMono x hx
        · intro _
          simp only []
          rw [← hut, if_pos rfl]
      · -- fresh vertex u, not the sink: mark and enqueue
        refine ⟨chainInv_mark (by omega) hfresh.1 hfresh.2 (hrecMono v hv) hrecInv,
          ?_, ?_, ?_⟩
        · intro x hx
          simp only []
          rcases List.mem_append.1 hx with hx' | hx'
          · have := hrecQ x hx'
            by_cases hxu : x = u
            · rw [if_pos hxu]
            · rw [if_neg hxu]; exact this
          · rcases List.mem_singleton.1 hx' with rfl
            rw [if_pos rfl]
        · intro x hx
          simp only []
          by_cases hxu : x = u
          · rw [if_pos hxu]
          · rw [if_neg hxu]; exact hrecMono x hx
        · intro h
          cases h
      · -- not fresh (or no residual edge): skip
        exact ⟨hrecInv, hrecQ, hrecMono, fun h => by cases h⟩

end MaxFlow11

end GraphLib

namespace GraphLib

namespace MaxFlow11

theorem visCount_le (vis : ℕ → Bool) (n : ℕ) : visCount vis n ≤ n := by
  unfold visCount
  calc (List.range n).countP (fun x => vis x) ≤ (List.range n).length :=
        List.countP_le_length _
    _ = n := List.length_range n

theorem bfsScan_phi {res : ℕ → ℕ → ℤ} {n t v : ℕ} :
    ∀ (cnt : ℕ) (parent : ℕ → Option ℕ) (vis : ℕ → Bool) (queue : List ℕ),
      cnt ≤ n →
      (bfsScan res t v cnt parent vis queue).1 = false →
      Reach4.unvisited (bfsScan res t v cnt parent vis queue).2.2.1 n +
        (bfsScan res t v cnt parent vis queue).2.2.2.length =
      Reach4.unvisited vis n + queue.length := by
  intro cnt
  induction cnt with
  | zero => intro parent vis queue _ _; rfl
  | succ u ih =>
    intro parent vis queue hcnt hflag
    rcases hscan : bfsScan res t v u parent vis queue with ⟨flag, p, vis1, q1⟩
    have hih := ih parent vis queue (by omega)
    rw [hscan] at hih
    simp only [] at hih
    replace hflag : (bfsScan res t v (u + 1) parent vis queue).1 = false := hflag
    show Reach4.unvisited (bfsScan res t v (u + 1) parent vis queue).2.2.1 n +
      (bfsScan res t v (u + 1) parent vis queue).2.2.2.length =
      Reach4.unvisited vis n + queue.length
    unfold bfsScan at hflag ⊢
    rw [hscan] at hflag ⊢
    cases flag with
    | true => simp at hflag
    | false =>
      simp only [] at hflag ⊢
      by_cases hfresh : vis1 u = false ∧ res v u > 0
      · by_cases hut : u = t
        · rw [if_pos hfresh, if_pos hut] at hflag
          simp at hflag
        · rw [if_pos hfresh, if_neg hut] at hflag ⊢
          show Reach4.unvisited (fun x => if x = u then true else vis1 x) n +
            (q1 ++ [u]).length = Reach4.unvisited vis n + queue.length
          rw [List.length_append, List.length_singleton]
          have hstep := Reach4.unvisited_mark (n := n) (u := u) (r := vis1)
            (by omega) hfresh.1
          have hbase := hih rfl
          omega
      · rw [if_neg hfresh] at hflag ⊢
        exact hih rfl

theorem bfsLoopMF_some {res : ℕ → ℕ → ℤ} {n t : ℕ} :
    ∀ (f : ℕ) (parent : ℕ → Option ℕ) (vis : ℕ → Bool) (queue : List ℕ),
      Reach4.unvisited vis n + queue.length < f →
      ∃ r, bfsLoopMF res n t f parent vis queue = some r := by
  intro f
  induction f with
  | zero => intro _ _ _ h; omega
  | succ f ih =>
    intro parent vis queue hphi
    cases queue with
    | nil => exact ⟨(vis t, parent), rfl⟩
    | cons v q =>
      show ∃ r, (match bfsScan res t v n parent vis q with
        | (true, p, _, _) => some (true, p)
        | (false, p, vis', q') => bfsLoopMF res n t f p vis' q') = some r
      rcases hscan : bfsScan res t v n parent vis q with ⟨flag, p, vis1, q1⟩
      cases flag with
      | true => exact ⟨(true, p), rfl⟩
      | false =>
        have hphi' := bfsScan_phi n parent vis q le_rfl (by rw [hscan])
        rw [hscan] at hphi'
        simp only [] at hphi'
        rw [List.length_cons] at hphi
        exact ih p vis1 q1 (by omega)

theorem bfsLoopMF_post {res : ℕ → ℕ → ℤ} {n s t : ℕ} :
    ∀ (f : ℕ) (parent : ℕ → Option ℕ) (vis : ℕ → Bool) (queue : List ℕ)
      (found : Bool) (p' : ℕ → Option ℕ),
      vis s = true → ChainInv res n s parent vis →
      (∀ x ∈ queue, vis x = true) →
      bfsLoopMF res n t f parent vis queue = some (found, p') →
      ∃ vis', vis' s = true ∧ ChainInv res n s p' vis' ∧
        (found = true → vis' t = true) := by
  intro f
  induction f with
  | zero => intro _ _ _ _ _ _ _ _ h; cases h
  | succ f ih =>
    intro parent vis queue found p' hviss hinv hq hloop
    cases queue with
    | nil =>
      replace hloop : some ((vis t, parent) : Bool × (ℕ → Option ℕ)) =
        some (found, p') := hloop
      simp only [Option.some.injEq, Prod.mk.injEq] at hloop
      refine ⟨vis, hviss, ?_, ?_⟩
      · rw [← hloop.2]; exact hinv
      · intro hf
        rw [← hloop.1] at hf
        exact hf
    | cons v q =>
      replace hloop : (match bfsScan res t v n parent vis q with
        | (true, p, _, _) => some (true, p)
        | (false, p, vis', q') => bfsLoopMF res n t f p vis' q') =
          some (found, p') := hloop
      have hv : vis v = true := hq v (List.mem_cons_self v q)
      have hq' : ∀ x ∈ q, vis x = true := fun x hx => hq x (List.mem_cons_of_mem v hx)
      obtain ⟨hsInv, hsQ, hsMono, hsT⟩ :=
        bfsScan_props n parent vis q le_rfl hv hviss hinv hq'
      rcases hscan : bfsScan res t v n parent vis q with ⟨flag, p, vis1, q1⟩
      rw [hscan] at hloop hsInv hsQ hsMono hsT
      simp only [] at hsInv hsQ hsMono hsT
      cases flag with
      | true =>
        simp only [Option.some.injEq, Prod.mk.injEq] at hloop
        refine ⟨vis1, hsMono s hviss, ?_, fun _ => hsT rfl⟩
        rw [← hloop.2]
        exact hsInv
      | false =>
        exact ih p vis1 q1 found p' (hsMono s hviss) hsInv hsQ hloop

/-- Postcondition of `_bfs_on_residual` for an in-range source: it
returns, and when it reports the sink reached there is a visited set and
a rank function witnessing a parent chain to the source. -/
theorem bfsOnResidual_post {res : ℕ → ℕ → ℤ} {n s t : ℕ} (hs : s < n) :
    ∃ found p', bfsOnResidual res n s t = some (found, p') ∧
      ∃ vis', vis' s = true ∧ ChainInv res n s p' vis' ∧
        (found = true → vis' t = true) := by
  have hcnt : Reach4.unvisited (fun x => x == s) n + 1 = n := by
    have h1 : Reach4.unvisited (fun x => x == s) n =
        Reach4.unvisited (fun y => if y = s then true else (fun _ => false) y) n := by
      unfold Reach4.unvisited
      apply List.countP_congr
      intro x _
      by_cases hxs : x = s <;> simp [hxs]
    have h2 := Reach4.unvisited_mark (n := n) (u := s) (r := fun _ => false) hs rfl
    have h3 : Reach4.unvisited (fun _ => false) n = n := by
      unfold Reach4.unvisited
      simp
    omega
  obtain ⟨⟨found, p'⟩, hr⟩ := @bfsLoopMF_some res n t (n + 1)
    (fun _ => none) (fun x => x == s) [s]
    (by rw [List.length_singleton]; omega)
  refine ⟨found, p', hr, ?_⟩
  exact bfsLoopMF_post (n + 1) (fun _ => none) (fun x => x == s) [s] found p'
    (beq_self_eq_true s) (chainInv_init hs)
    (fun x hx => by rw [List.mem_singleton.1 hx]; exact beq_self_eq_true s) hr

end MaxFlow11

end GraphLib

namespace GraphLib

namespace MaxFlow11

theorem buildPath_chain {res : ℕ → ℕ → ℤ} {n s : ℕ}
    {parent : ℕ → Option ℕ} {vis : ℕ → Bool} {rk : ℕ → ℕ}
    (hvn : ∀ u, vis u = true → u < n)
    (hchain : ∀ u, vis u = true → u ≠ s → ∃ p, parent u = some p ∧
      vis p = true ∧ rk p < rk u ∧ res p u > 0) :
    ∀ (fuel v : ℕ), vis v = true → rk v < fuel →
      ∃ l, buildPath parent s fuel v = v :: l ∧
        (v :: l).getLast? = some s ∧
        List.Chain' (fun a c => res c a > 0 ∧ rk c < rk a) (v :: l) ∧
        (∀ x ∈ v :: l, vis x = true) := by
  intro fuel
  induction fuel with
  | zero => intro v _ h; omega
  | succ f ih =>
    intro v hv hrk
    by_cases hvs : v = s
    · refine ⟨[], ?_, ?_, ?_, ?_⟩
      · show (v :: if v = s then []
          else match parent v with
               | none => []
               | some p => buildPath parent s f p) = v :: []
        rw [if_pos hvs]
      · rw [hvs]; rfl
      · exact List.chain'_singleton v
      · intro x hx
        rw [List.mem_singleton.1 hx]
        exact hv
    · obtain ⟨p, hp1, hp2, hp3, hp4⟩ := hchain v hv hvs
      obtain ⟨l', heq, hlast, hch, hmem⟩ := ih p hp2 (by omega)
      refine ⟨p :: l', ?_, ?_, ?_, ?_⟩
      · show (v :: if v = s then []
          else match parent v with
               | none => []
               | some q => buildPath parent s f q) = v :: p :: l'
        rw [if_neg hvs, hp1]
        show v :: buildPath parent s f p = v :: p :: l'
        rw [heq]
      · rw [List.getLast?_cons_cons]
        exact hlast
      · rw [List.chain'_cons]
        exact ⟨⟨hp4, hp3⟩, hch⟩
      · intro x hx
        rcases List.mem_cons.1 hx with rfl | hx'
        · exact hv
        · exact hmem x hx'

/-- Properties of the reconstructed (reversed) augmenting path when BFS
reported the sink reached. -/
theorem path_props {res : ℕ → ℕ → ℤ} {n s t : ℕ}
    {parent : ℕ → Option ℕ} {vis : ℕ → Bool}
    (hviss : vis s = true) (hinv : ChainInv res n s parent vis)
    (hvist : vis t = true) :
    ∃ path : List ℕ, (buildPath parent s (n + 1) t).reverse = path ∧
      path ≠ [] ∧ path.head? = some s ∧ path.getLast? = some t ∧
      path.Nodup ∧ (∀ x ∈ path, x < n) ∧
      List.Chain' (fun a c => res a c > 0) path ∧
      (s ≠ t → 2 ≤ path.length) := by
  obtain ⟨rk, h1, h2, h3⟩ := hinv
  obtain ⟨l, heq, hlast, hch, hmem⟩ := buildPath_chain h1 h3 (n + 1) t hvist
    (lt_of_lt_of_le (h2 t hvist) (by have := visCount_le vis n; omega))
  refine ⟨(t :: l).reverse, by rw [heq], ?_, ?_, ?_, ?_, ?_, ?_, ?_⟩
  · simp
  · rw [List.head?_reverse]
    exact hlast
  · rw [List.getLast?_reverse]
    rfl
  · rw [List.nodup_reverse]
    have htr : IsTrans ℕ (fun a c => rk c < rk a) := ⟨fun a b c h1 h2 => by omega⟩
    have hpair : (t :: l).Pairwise (fun a c => rk c < rk a) := by
      rw [← List.chain'_iff_pairwise]
      exact List.Chain'.imp (fun a c h => h.2) hch
    exact List.Pairwise.imp (fun h heq => by rw [heq] at h; omega) hpair
  · intro x hx
    rw [List.mem_reverse] at hx
    exact h1 x (hmem x hx)
  · rw [List.chain'_reverse]
    exact List.Chain'.imp (fun a c h => h.1) hch
  · intro hst
    rw [List.length_reverse, List.length_cons]
    cases l with
    | nil =>
      exfalso
      replace hlast : some t = some s := hlast
      simp only [Option.some.injEq] at hlast
      exact hst hlast.symm
    | cons a l' => simp

end MaxFlow11

end GraphLib

namespace GraphLib

namespace MaxFlow11

/-- Is `(a, c)` an adjacent (forward) pair of the path? -/
def fwdPair : List ℕ → ℕ → ℕ → Bool
  | u :: v :: rest, a, c => (decide (u = a) && decide (v = c)) || fwdPair (v :: rest) a c
  | _, _, _ => false

theorem fwdPair_mem_left : ∀ {l : List ℕ} {a c : ℕ}, fwdPair l a c = true → a ∈ l := by
  intro l
  induction l with
  | nil => intro a c h; cases h
  | cons u l ih =>
    intro a c h
    cases l with
    | nil => cases h
    | cons v rest =>
      replace h : ((decide (u = a) && decide (v = c)) || fwdPair (v :: rest) a c) = true := h
      rw [Bool.or_eq_true, Bool.and_eq_true] at h
      rcases h with ⟨h1, _⟩ | h
      · rw [decide_eq_true_eq] at h1
        rw [← h1]
        exact List.mem_cons_self u _
      · exact List.mem_cons_of_mem u (ih h)

theorem fwdPair_mem_right : ∀ {l : List ℕ} {a c : ℕ}, fwdPair l a c = true → c ∈ l := by
  intro l
  induction l with
  | nil => intro a c h; cases h
  | cons u l ih =>
    intro a c h
    cases l with
    | nil => cases h
    | cons v rest =>
      replace h : ((decide (u = a) && decide (v = c)) || fwdPair (v :: rest) a c) = true := h
      rw [Bool.or_eq_true, Bool.and_eq_true] at h
      rcases h with ⟨_, h2⟩ | h
      · rw [decide_eq_true_eq] at h2
        rw [← h2]
        exact List.mem_cons_of_mem u (List.mem_cons_self v rest)
      · exact List.mem_cons_of_mem u (ih h)

/-- Pointwise description of the sequential residual update along a
duplicate-free path. -/
theorem augment_apply :
    ∀ (l : List ℕ) (res : ℕ → ℕ → ℤ) (b : ℤ) (a c : ℕ), l.Nodup →
      augment res b l a c =
        if fwdPair l a c then res a c - b
        else if fwdPair l c a then res a c + b
        else res a c := by
  intro l
  induction l with
  | nil =>
    intro res b a c _
    simp [augment, fwdPair]
  | cons u l ih =>
    intro res b a c hnd
    cases l with
    | nil => simp [augment, fwdPair]
    | cons v rest =>
      rw [List.nodup_cons] at hnd
      have huv : u ≠ v := fun h => hnd.1 (h ▸ List.mem_cons_self v rest)
      have hunotin : u ∉ v :: rest := hnd.1
      replace ih := ih
        (fun x y =>
          if x = u ∧ y = v then res x y - b
          else if x = v ∧ y = u then res x y + b
          else res x y) b a c hnd.2
      show augment
        (fun x y =>
          if x = u ∧ y = v then res x y - b
          else if x = v ∧ y = u then res x y + b
          else res x y) b (v :: rest) a c = _
      rw [ih]
      simp only []
      by_cases h1 : a = u ∧ c = v
      · have e1 : fwdPair (v :: rest) a c = false := by
          cases he : fwdPair (v :: rest) a c with
          | false => rfl
          | true => exact absurd (h1.1 ▸ fwdPair_mem_left he) hunotin
        have e2 : fwdPair (v :: rest) c a = false := by
          cases he : fwdPair (v :: rest) c a with
          | false => rfl
          | true => exact absurd (h1.1 ▸ fwdPair_mem_right he) hunotin
        have efull : fwdPair (u :: v :: rest) a c = true := by
          show ((decide (u = a) && decide (v = c)) || fwdPair (v :: rest) a c) = true
          rw [Bool.or_eq_true, Bool.and_eq_true, decide_eq_true_eq, decide_eq_true_eq]
          exact Or.inl ⟨h1.1.symm, h1.2.symm⟩
        rw [e1, e2, efull]
        rw [if_neg (show ¬(false = true) by simp), if_neg (show ¬(false = true) by simp),
          if_pos h1, if_pos (show true = true from rfl)]
      · by_cases h2 : a = v ∧ c = u
        · have e1 : fwdPair (v :: rest) a c = false := by
            cases he : fwdPair (v :: rest) a c with
            | false => rfl
            | true => exact absurd (h2.2 ▸ fwdPair_mem_right he) hunotin
          have e2 : fwdPair (v :: rest) c a = false := by
            cases he : fwdPair (v :: rest) c a with
            | false => rfl
            | true => exact absurd (h2.2 ▸ fwdPair_mem_left he) hunotin
          have efullAC : fwdPair (u :: v :: rest) a c = false := by
            show ((decide (u = a) && decide (v = c)) || fwdPair (v :: rest) a c) = false
            rw [e1, Bool.or_false, Bool.and_eq_false_iff]
            left
            rw [decide_eq_false_iff_not]
            intro h
            exact huv (h.trans h2.1)
          have efullCA : fwdPair (u :: v :: rest) c a = true := by
            show ((decide (u = c) && decide (v = a)) || fwdPair (v :: rest) c a) = true
            rw [Bool.or_eq_true, Bool.and_eq_true, decide_eq_true_eq, decide_eq_true_eq]
            exact Or.inl ⟨h2.2.symm, h2.1.symm⟩
          rw [efullAC, efullCA, e1, e2]
          rw [if_neg (show ¬(false = true) by simp), if_neg (show ¬(false = true) by simp),
            if_neg h1, if_pos h2, if_neg (show ¬(false = true) by simp),
            if_pos (show true = true from rfl)]
        · have hresid :
            (if a = u ∧ c = v then res a c - b
             else if a = v ∧ c = u then res a c + b
             else res a c) = res a c := by
            rw [if_neg h1, if_neg h2]
          have efullAC : fwdPair (u :: v :: rest) a c = fwdPair (v :: rest) a c := by
            show ((decide (u = a) && decide (v = c)) || fwdPair (v :: rest) a c) = _
            have : (decide (u = a) && decide (v = c)) = false := by
              rw [Bool.and_eq_false_iff]
              by_cases hua : u = a
              · right
                rw [decide_eq_false_iff_not]
                intro hvc
                exact h1 ⟨hua.symm, hvc.symm⟩
              · left
                rw [decide_eq_false_iff_not]
                exact hua
            rw [this, Bool.false_or]
          have efullCA : fwdPair (u :: v :: rest) c a = fwdPair (v :: rest) c a := by
            show ((decide (u = c) && decide (v = a)) || fwdPair (v :: rest) c a) = _
            have : (decide (u = c) && decide (v = a)) = false := by
              rw [Bool.and_eq_false_iff]
              by_cases huc : u = c
              · right
                rw [decide_eq_false_iff_not]
                intro hva
                exact h2 ⟨hva.symm, huc.symm⟩
              · left
                rw [decide_eq_false_iff_not]
                exact huc
            rw [this, Bool.false_or]
          rw [efullAC, efullCA]
          simp only [hresid]

end MaxFlow11

end GraphLib

namespace GraphLib

namespace MaxFlow11

theorem pathMin_le_fwd {res : ℕ → ℕ → ℤ} :
    ∀ {l : List ℕ} {a c : ℕ}, fwdPair l a c = true →
      pathMin res l ≤ ((res a c : ℤ) : WithTop ℤ) := by
  intro l
  induction l with
  | nil => intro a c h; cases h
  | cons u l ih =>
    intro a c h
    cases l with
    | nil => cases h
    | cons v rest =>
      replace h : ((decide (u = a) && decide (v = c)) || fwdPair (v :: rest) a c) = true := h
      rw [Bool.or_eq_true, Bool.and_eq_true] at h
      show min ((res u v : ℤ) : WithTop ℤ) (pathMin res (v :: rest)) ≤ _
      rcases h with ⟨h1, h2⟩ | h
      · rw [decide_eq_true_eq] at h1 h2
        rw [← h1, ← h2]
        exact min_le_left _ _
      · exact le_trans (min_le_right _ _) (ih h)

theorem pathMin_pos_fin {res : ℕ → ℕ → ℤ} :
    ∀ {l : List ℕ}, List.Chain' (fun a c => res a c > 0) l → 2 ≤ l.length →
      ∃ b : ℤ, pathMin res l = (b : WithTop ℤ) ∧ 0 < b := by
  intro l
  induction l with
  | nil => intro _ h; simp at h
  | cons u l ih =>
    intro hch hlen
    cases l with
    | nil => simp at hlen
    | cons v rest =>
      rw [List.chain'_cons] at hch
      cases rest with
      | nil =>
        refine ⟨res u v, ?_, hch.1⟩
        show min ((res u v : ℤ) : WithTop ℤ) (pathMin res [v]) = _
        show min ((res u v : ℤ) : WithTop ℤ) ⊤ = _
        exact min_eq_left le_top
      | cons w rest' =>
        obtain ⟨b', hb1, hb2⟩ := ih hch.2 (by simp)
        refine ⟨min (res u v) b', ?_, by omega⟩
        show min ((res u v : ℤ) : WithTop ℤ) (pathMin res (v :: w :: rest')) = _
        rw [hb1, ← WithTop.coe_min]

end MaxFlow11

end GraphLib

namespace GraphLib

namespace MaxFlow11

/-- The source row of the residual loses exactly the bottleneck: on a
duplicate-free path starting at `s`, the only touched entry of row `s` is
the first edge (forward), and no reverse update writes into row `s`. -/
theorem rowSum_augment {res : ℕ → ℕ → ℤ} {b : ℤ} {s p2 : ℕ} {rest : List ℕ}
    {n : ℕ} (hnd : (s :: p2 :: rest).Nodup) (hp2 : p2 < n) :
    rowSum (augment res b (s :: p2 :: rest)) s n = rowSum res s n - b := by
  have hsnotin : s ∉ p2 :: rest := (List.nodup_cons.1 hnd).1
  have hBs : ∀ c, fwdPair (s :: p2 :: rest) s c = true ↔ c = p2 := by
    intro c
    constructor
    · intro h
      replace h : ((decide (s = s) && decide (p2 = c)) ||
        fwdPair (p2 :: rest) s c) = true := h
      rw [Bool.or_eq_true, Bool.and_eq_true] at h
      rcases h with ⟨_, h2⟩ | h
      · rw [decide_eq_true_eq] at h2
        exact h2.symm
      · exact absurd (fwdPair_mem_left h) hsnotin
    · intro h
      subst h
      show ((decide (s = s) && decide (c = c)) || fwdPair (c :: rest) s c) = true
      simp
  have hCs : ∀ a, fwdPair (s :: p2 :: rest) a s = false := by
    intro a
    cases h : fwdPair (s :: p2 :: rest) a s with
    | false => rfl
    | true =>
      exfalso
      replace h : ((decide (s = a) && decide (p2 = s)) ||
        fwdPair (p2 :: rest) a s) = true := h
      rw [Bool.or_eq_true, Bool.and_eq_true] at h
      rcases h with ⟨_, h2⟩ | h
      · rw [decide_eq_true_eq] at h2
        exact hsnotin (h2 ▸ List.mem_cons_self p2 rest)
      · exact hsnotin (fwdPair_mem_right h)
  unfold rowSum
  have hterm : ∀ j ∈ Finset.range n,
      augment res b (s :: p2 :: rest) s j =
        res s j - (if j = p2 then b else 0) := by
    intro j _
    rw [augment_apply _ res b s j hnd]
    by_cases hj : j = p2
    · rw [if_pos ((hBs j).2 hj), if_pos hj]
    · have h1 : fwdPair (s :: p2 :: rest) s j = false := by
        cases h : fwdPair (s :: p2 :: rest) s j with
        | false => rfl
        | true => exact absurd ((hBs j).1 h) hj
      rw [h1, hCs j]
      simp only [Bool.false_eq_true, if_false, if_neg hj]
      omega
  rw [Finset.sum_congr rfl hterm, Finset.sum_sub_distrib]
  congr 1
  rw [Finset.sum_ite_eq' (Finset.range n) p2 (fun _ => b)]
  rw [if_pos (Finset.mem_range.2 hp2)]

/-- Invariant of the augmentation loop: residual non-negative on the
`n × n` block, flow equals the sum of recorded amounts, flow plus the
source residual row equals the source capacity row. -/
def InvMF (cap : ℕ → ℕ → ℤ) (n s : ℕ) (st : MFState) : Prop :=
  (∀ i < n, ∀ j < n, 0 ≤ st.1 i j) ∧
  st.2.1 = (st.2.2.1.map (fun pr => pr.2)).sum ∧
  st.2.1 + rowSum st.1 s n = rowSum cap s n

theorem invMF_init {cap : ℕ → ℕ → ℤ} {n s : ℕ} (hnn : NonnegMat cap n) :
    InvMF cap n s (mfInit cap) := by
  refine ⟨?_, ?_, ?_⟩
  · intro i hi j hj
    exact hnn i hi j hj
  · rfl
  · show (0 : ℤ) + rowSum cap s n = rowSum cap s n
    omega

end MaxFlow11

end GraphLib

namespace GraphLib

namespace MaxFlow11

theorem mfStep_inv {cap : ℕ → ℕ → ℤ} {n s t : ℕ} (hs : s < n) (hst : s ≠ t)
    {st st' : MFState} (hinv : InvMF cap n s st)
    (hstep : mfStep n s t st = some st') : InvMF cap n s st' := by
  unfold mfStep at hstep
  split_ifs at hstep with hdone
  · simp only [Option.some.injEq] at hstep
    rw [← hstep]
    exact hinv
  · obtain ⟨found, p', hbfs, vis', hviss, hchain, hfound⟩ :=
      @bfsOnResidual_post st.1 n s t hs
    rw [hbfs] at hstep
    cases found with
    | false =>
      simp only [Option.some.injEq] at hstep
      rw [← hstep]
      exact ⟨hinv.1, hinv.2.1, hinv.2.2⟩
    | true =>
      have hvist := hfound rfl
      obtain ⟨path, hpathEq, hne, hhead, hlast, hnd, hmem, hch, hlen⟩ :=
        path_props hviss hchain hvist
      simp only [] at hstep
      rw [hpathEq] at hstep
      have hlen2 := hlen hst
      obtain ⟨b, hb, hbpos⟩ := pathMin_pos_fin hch hlen2
      rw [hb] at hstep
      replace hstep : some ((augment st.1 b path, st.2.1 + b,
          st.2.2.1 ++ [(path, b)], false) : MFState) = some st' := hstep
      simp only [Option.some.injEq] at hstep
      obtain ⟨p2, rest, hpath2⟩ : ∃ p2 rest, path = s :: p2 :: rest := by
        cases path with
        | nil => simp at hlen2
        | cons x l =>
          cases l with
          | nil => simp at hlen2
          | cons y r =>
            replace hhead : some x = some s := hhead
            simp only [Option.some.injEq] at hhead
            exact ⟨y, r, by rw [hhead]⟩
      rw [← hstep]
      refine ⟨?_, ?_, ?_⟩
      · -- residual stays non-negative
        intro i hi j hj
        show 0 ≤ augment st.1 b path i j
        rw [augment_apply path st.1 b i j hnd]
        split_ifs with hf hr
        · have hle := @pathMin_le_fwd st.1 _ _ _ hf
          rw [hb] at hle
          rw [WithTop.coe_le_coe] at hle
          have := hinv.1 i hi j hj
          omega
        · have := hinv.1 i hi j hj
          omega
        · exact hinv.1 i hi j hj
      · -- flow is the sum of recorded amounts
        show st.2.1 + b = ((st.2.2.1 ++ [(path, b)]).map (fun pr => pr.2)).sum
        rw [List.map_append, List.sum_append, ← hinv.2.1]
        simp
      · -- flow + source residual row is conserved
        show st.2.1 + b + rowSum (augment st.1 b path) s n = rowSum cap s n
        have hp2mem : p2 ∈ path := by rw [hpath2]; simp
        have hp2n : p2 < n := hmem p2 hp2mem
        have hndp : (s :: p2 :: rest).Nodup := by rw [← hpath2]; exact hnd
        have hrow : rowSum (augment st.1 b path) s n = rowSum st.1 s n - b := by
          rw [hpath2]
          exact rowSum_augment hndp hp2n
        rw [hrow]
        have := hinv.2.2
        omega

theorem mfIter_inv {cap : ℕ → ℕ → ℤ} {n s t : ℕ} (hs : s < n) (hst : s ≠ t) :
    ∀ (k : ℕ) (st st' : MFState), InvMF cap n s st →
      mfIter n s t k st = some st' → InvMF cap n s st' := by
  intro k
  induction k with
  | zero =>
    intro st st' hinv h
    replace h : some st = some st' := h
    simp only [Option.some.injEq] at h
    rw [← h]
    exact hinv
  | succ k ih =>
    intro st st' hinv h
    replace h : (match mfStep n s t st with
      | none => none
      | some st₀ => mfIter n s t k st₀) = some st' := h
    rcases hstep : mfStep n s t st with _ | st₀
    · rw [hstep] at h; cases h
    · rw [hstep] at h
      exact ih st₀ st' (mfStep_inv hs hst hinv hstep) h

theorem mfStep_some {n s t : ℕ} (hs : s < n) (st : MFState) :
    ∃ st', mfStep n s t st = some st' := by
  unfold mfStep
  split_ifs with hdone
  · exact ⟨st, rfl⟩
  · obtain ⟨found, p', hbfs, _⟩ :=
      @bfsOnResidual_post st.1 n s t hs
    rw [hbfs]
    cases found with
    | false => exact ⟨_, rfl⟩
    | true =>
      simp only []
      rcases pathMin st.1 ((buildPath p' s (n + 1) t).reverse) with _ | b
      · exact ⟨_, rfl⟩
      · exact ⟨_, rfl⟩

theorem mfIter_some {n s t : ℕ} (hs : s < n) :
    ∀ (k : ℕ) (st : MFState), ∃ st', mfIter n s t k st = some st' := by
  intro k
  induction k with
  | zero => intro st; exact ⟨st, rfl⟩
  | succ k ih =>
    intro st
    obtain ⟨st₀, hstep⟩ := mfStep_some (t := t) hs st
    obtain ⟨st', hiter⟩ := ih st₀
    refine ⟨st', ?_⟩
    show (match mfStep n s t st with
      | none => none
      | some st₀ => mfIter n s t k st₀) = some st'
    rw [hstep]
    exact hiter

end MaxFlow11

end GraphLib

namespace GraphLib

/-- C5: on a valid capacity matrix (square, non-negative, zero diagonal)
with distinct valid source and sink, every state reached by the
Ford-Fulkerson loop keeps the whole residual matrix non-negative and keeps
the running flow value equal to the sum of the bottleneck amounts of the
recorded augmenting paths; moreover the call returns a pair whose flow
value is that sum and does not exceed the total capacity out of the
source. -/
theorem C5_max_flow_invariants (cap : ℕ → ℕ → ℤ) (n s t : ℕ)
    (hnn : NonnegMat cap n) (hzd : ZeroDiag cap n)
    (hs : s < n) (ht : t < n) (hst : s ≠ t) :
    (∀ (k : ℕ) (st : MaxFlow11.MFState),
      MaxFlow11.mfIter n s t k (MaxFlow11.mfInit cap) = some st →
      (∀ i < n, ∀ j < n, 0 ≤ st.1 i j) ∧
      st.2.1 = (st.2.2.1.map (fun pr => pr.2)).sum ∧
      st.2.1 ≤ MaxFlow11.rowSum cap s n) ∧
    (∃ f ps, MaxFlow11.maxFlowFordFulkerson cap n s t = some (f, ps) ∧
      f = (ps.map (fun pr => pr.2)).sum ∧
      f ≤ MaxFlow11.rowSum cap s n) := by
  have key : ∀ (k : ℕ) (st : MaxFlow11.MFState),
      MaxFlow11.mfIter n s t k (MaxFlow11.mfInit cap) = some st →
      (∀ i < n, ∀ j < n, 0 ≤ st.1 i j) ∧
      st.2.1 = (st.2.2.1.map (fun pr => pr.2)).sum ∧
      st.2.1 ≤ MaxFlow11.rowSum cap s n := by
    intro k st h
    have hinv := MaxFlow11.mfIter_inv hs hst k _ st
      (MaxFlow11.invMF_init hnn) h
    refine ⟨hinv.1, hinv.2.1, ?_⟩
    have hnonneg : 0 ≤ MaxFlow11.rowSum st.1 s n := by
      refine Finset.sum_nonneg ?_
      intro j hj
      exact hinv.1 s hs j (Finset.mem_range.1 hj)
    have := hinv.2.2
    omega
  refine ⟨key, ?_⟩
  obtain ⟨st, hst'⟩ := MaxFlow11.mfIter_some (t := t) hs
    ((MaxFlow11.rowSum cap s n).toNat + 1) (MaxFlow11.mfInit cap)
  have hprops := key _ st hst'
  refine ⟨st.2.1, st.2.2.1, ?_, hprops.2.1, hprops.2.2⟩
  show (MaxFlow11.mfIter n s t ((MaxFlow11.rowSum cap s n).toNat + 1)
      (MaxFlow11.mfInit cap)).map (fun st => (st.2.1, st.2.2.1)) =
    some (st.2.1, st.2.2.1)
  rw [hst']
  rfl

/-- Witness for C5 at a concrete 3-vertex network. -/
theorem C5_max_flow_invariants_witness :
    (∀ (k : ℕ) (st : MaxFlow11.MFState),
      MaxFlow11.mfIter 3 0 2 k (MaxFlow11.mfInit (matOf [[0,3,1],[0,0,2],[0,0,0]])) = some st →
      (∀ i < 3, ∀ j < 3, 0 ≤ st.1 i j) ∧
      st.2.1 = (st.2.2.1.map (fun pr => pr.2)).sum ∧
      st.2.1 ≤ MaxFlow11.rowSum (matOf [[0,3,1],[0,0,2],[0,0,0]]) 0 3) ∧
    (∃ f ps, MaxFlow11.maxFlowFordFulkerson (matOf [[0,3,1],[0,0,2],[0,0,0]]) 3 0 2 = some (f, ps) ∧
      f = (ps.map (fun pr => pr.2)).sum ∧
      f ≤ MaxFlow11.rowSum (matOf [[0,3,1],[0,0,2],[0,0,0]]) 0 3) :=
  C5_max_flow_invariants (matOf [[0,3,1],[0,0,2],[0,0,0]]) 3 0 2
    (by decide) (by decide) (by decide) (by decide) (by decide)

end GraphLib

namespace GraphLib

namespace MaxFlow11

/-- The inner scan never unmarks a visited vertex. -/
theorem bfsScan_vis_mono {res : ℕ → ℕ → ℤ} {t v : ℕ} :
    ∀ (cnt : ℕ) (parent : ℕ → Option ℕ) (vis : ℕ → Bool) (queue : List ℕ)
      (x : ℕ), vis x = true →
      (bfsScan res t v cnt parent vis queue).2.2.1 x = true := by
  intro cnt
  induction cnt with
  | zero => intro parent vis queue x hx; exact hx
  | succ u ih =>
    intro parent vis queue x hx
    have hrec := ih parent vis queue x hx
    rcases hscan : bfsScan res t v u parent vis queue with ⟨flag, p, vis1, q1⟩
    rw [hscan] at hrec
    simp only [] at hrec
    show (bfsScan res t v (u + 1) parent vis queue).2.2.1 x = true
    unfold bfsScan
    rw [hscan]
    cases flag with
    | true => exact hrec
    | false =>
      simp only []
      split_ifs with hfresh hut
      · simp only []
        by_cases hxu : x = u
        · rw [if_pos hxu]
        · rw [if_neg hxu]; exact hrec
      · simp only []
        by_cases hxu : x = u
        · rw [if_pos hxu]
        · rw [if_neg hxu]; exact hrec
      · exact hrec

/-- If the sink is already visited, any `some` result of the BFS loop
reports it found. -/
theorem bfsLoopMF_found {res : ℕ → ℕ → ℤ} {n t : ℕ} :
    ∀ (f : ℕ) (parent : ℕ → Option ℕ) (vis : ℕ → Bool) (queue : List ℕ)
      (found : Bool) (p' : ℕ → Option ℕ), vis t = true →
      bfsLoopMF res n t f parent vis queue = some (found, p') →
      found = true := by
  intro f
  induction f with
  | zero => intro _ _ _ _ _ _ h; cases h
  | succ f ih =>
    intro parent vis queue found p' hvist hloop
    cases queue with
    | nil =>
      replace hloop : some (vis t, parent) = some (found, p') := hloop
      simp only [Option.some.injEq, Prod.mk.injEq] at hloop
      rw [← hloop.1, hvist]
    | cons v q =>
      replace hloop : (match bfsScan res t v n parent vis q with
        | (true, p, _, _) => some (true, p)
        | (false, p, vis', q') => bfsLoopMF res n t f p vis' q') =
          some (found, p') := hloop
      rcases hscan : bfsScan res t v n parent vis q with ⟨flag, p, vis1, q1⟩
      rw [hscan] at hloop
      cases flag with
      | true =>
        simp only [Option.some.injEq, Prod.mk.injEq] at hloop
        exact hloop.1.symm
      | false =>
        have hvist1 : vis1 t = true := by
          have := @bfsScan_vis_mono res t v
            n parent vis q t hvist
          rw [hscan] at this
          exact this
        exact ih p vis1 q1 found p' hvist1 hloop

/-- A state whose done flag is set is a fixed point of the loop. -/
theorem mfIter_done {n s t : ℕ} :
    ∀ (k : ℕ) (st : MFState), st.2.2.2 = true →
      mfIter n s t k st = some st := by
  intro k
  induction k with
  | zero => intro st _; rfl
  | succ k ih =>
    intro st hdone
    have hstep : mfStep n s t st = some st := by
      unfold mfStep
      rw [if_pos hdone]
    show (match mfStep n s t st with
      | none => none
      | some st' => mfIter n s t k st') = some st
    rw [hstep]
    exact ih st hdone

end MaxFlow11

end GraphLib

namespace GraphLib

namespace MaxFlow11

/-- With source equal to sink the residual BFS reports the sink reached
(it is visited from the start, and the early return never fires on an
already-visited vertex). -/
theorem bfsOnResidual_self {res : ℕ → ℕ → ℤ} {n s : ℕ} (hs : s < n) :
    ∃ p', bfsOnResidual res n s s = some (true, p') := by
  obtain ⟨found, p', hbfs, _⟩ := @bfsOnResidual_post res n s s hs
  have hloop : bfsLoopMF res n s (n + 1) (fun _ => none)
      (fun x => x == s) [s] = some (found, p') := hbfs
  have hfound := bfsLoopMF_found (n + 1) (fun _ => none) (fun x => x == s)
    [s] found p' (by simp) hloop
  rw [hfound] at hbfs
  exact ⟨p', hbfs⟩

end MaxFlow11

/-- C10: calling `max_flow_ford_fulkerson` with source equal to sink (a
valid vertex index) raises no error: the first residual BFS reports the
sink reached, the reconstructed path is the single vertex `[s]`, its
bottleneck over zero edges stays infinite, and the loop exits returning
flow `0` with no recorded augmenting paths. -/
theorem C10_max_flow_source_equals_sink (cap : ℕ → ℕ → ℤ) (n s : ℕ)
    (hs : s < n) :
    (∃ p', MaxFlow11.bfsOnResidual cap n s s = some (true, p') ∧
      (MaxFlow11.buildPath p' s (n + 1) s).reverse = [s] ∧
      MaxFlow11.pathMin cap [s] = ⊤) ∧
    MaxFlow11.maxFlowFordFulkerson cap n s s = some (0, []) := by
  obtain ⟨p', hbfs⟩ := @MaxFlow11.bfsOnResidual_self cap n s hs
  have hpath : (MaxFlow11.buildPath p' s (n + 1) s).reverse = [s] := by
    have : MaxFlow11.buildPath p' s (n + 1) s = [s] := by
      unfold MaxFlow11.buildPath
      rw [if_pos rfl]
    rw [this]
    rfl
  have hstep : MaxFlow11.mfStep n s s (MaxFlow11.mfInit cap) =
      some (cap, 0, [], true) := by
    unfold MaxFlow11.mfStep MaxFlow11.mfInit
    rw [if_neg (by simp)]
    rw [hbfs]
    simp only []
    rw [hpath]
    rfl
  refine ⟨⟨p', hbfs, hpath, rfl⟩, ?_⟩
  unfold MaxFlow11.maxFlowFordFulkerson
  have hiter : MaxFlow11.mfIter n s s ((MaxFlow11.rowSum cap s n).toNat + 1)
      (MaxFlow11.mfInit cap) = some (cap, 0, [], true) := by
    show (match MaxFlow11.mfStep n s s (MaxFlow11.mfInit cap) with
      | none => none
      | some st' =>
        MaxFlow11.mfIter n s s ((MaxFlow11.rowSum cap s n).toNat) st') =
      some (cap, 0, [], true)
    rw [hstep]
    exact MaxFlow11.mfIter_done _ _ rfl
  rw [hiter]
  rfl

/-- Witness for C10 on a concrete 2-vertex network with `s = t = 0`. -/
theorem C10_max_flow_source_equals_sink_witness :
    (∃ p', MaxFlow11.bfsOnResidual (matOf [[0,5],[0,0]]) 2 0 0 = some (true, p') ∧
      (MaxFlow11.buildPath p' 0 (2 + 1) 0).reverse = [0] ∧
      MaxFlow11.pathMin (matOf [[0,5],[0,0]]) [0] = ⊤) ∧
    MaxFlow11.maxFlowFordFulkerson (matOf [[0,5],[0,0]]) 2 0 0 = some (0, []) :=
  C10_max_flow_source_equals_sink (matOf [[0,5],[0,0]]) 2 0 (by decide)

end GraphLib

/-!
## C7: iterative DFS versus recursive DFS (`dfs_bfs_nonrecursive.py`)

`dfs_iterative` pops from an explicit stack, skips already-visited
vertices, and pushes the popped vertex's not-yet-visited neighbours in
reverse adjacency order (so the first neighbour ends on top).  It is
embedded with the stack head as the top.  The comparison point — the
order a recursive first-neighbour-first traversal would produce — is a
specification-side fueled function `dfsRecGo`.  Both are related to one
big-step relation `DLoop` on worklists, which is deterministic.
-/

namespace GraphLib

namespace Dfs8

/-- `_build_adj_list` of `dfs_bfs_nonrecursive.py`: neighbours of `i` in
ascending order, one edge per positive weight. -/
def adjL (w : ℕ → ℕ → ℤ) (n i : ℕ) : List ℕ :=
  (List.range n).filter (fun j => w i j > 0)

/-- The `while stack` loop of `dfs_iterative`, with fuel.  The Lean list
head is the Python stack top; pushing `reversed(adj_list[v])` one by one
makes the first unvisited neighbour the new top, i.e. the filtered
adjacency list is prepended as is. -/
def dfsLoop (w : ℕ → ℕ → ℤ) (n : ℕ) :
    ℕ → (ℕ → Bool) → List ℕ → List ℕ → Option ((ℕ → Bool) × List ℕ)
  | 0, _, _, _ => none
  | _ + 1, vis, order, [] => some (vis, order)
  | f + 1, vis, order, v :: stack =>
    if vis v = true then dfsLoop w n f vis order stack
    else
      dfsLoop w n f (fun x => if x = v then true else vis x) (order ++ [v])
        (((adjL w n v).filter
            (fun u => !(if u = v then true else vis u))) ++ stack)

/-- `WeightedGraph.dfs_iterative`. -/
def dfsIterative (w : ℕ → ℕ → ℤ) (n start : ℕ) : Option (List ℕ) :=
  (dfsLoop w n ((n + 1) * n + 2) (fun _ => false) [] [start]).map
    (fun r => r.2)

/-- Specification-side recursive first-neighbour-first DFS over a worklist,
with fuel: skip a visited head, otherwise visit it, recurse into its full
adjacency list, then continue with the rest. -/
def dfsRecGo (w : ℕ → ℕ → ℤ) (n : ℕ) :
    ℕ → (ℕ → Bool) → List ℕ → Option ((ℕ → Bool) × List ℕ)
  | 0, _, _ => none
  | _ + 1, vis, [] => some (vis, [])
  | f + 1, vis, v :: rest =>
    if vis v = true then dfsRecGo w n f vis rest
    else
      match dfsRecGo w n f (fun x => if x = v then true else vis x)
          (adjL w n v) with
      | none => none
      | some (vis1, ord1) =>
        match dfsRecGo w n f vis1 rest with
        | none => none
        | some (vis2, ord2) => some (vis2, v :: (ord1 ++ ord2))

/-- The recursive traversal order from `start`. -/
def dfsRecursive (w : ℕ → ℕ → ℤ) (n start : ℕ) : Option (List ℕ) :=
  (dfsRecGo w n ((n + 1) * n + 2) (fun _ => false) [start]).map
    (fun r => r.2)

/-- Big-step semantics of the worklist DFS: from visited set `vis` and
worklist `stack`, finish with visited set `vis'` after emitting `out`. -/
inductive DLoop (w : ℕ → ℕ → ℤ) (n : ℕ) :
    (ℕ → Bool) → List ℕ → (ℕ → Bool) → List ℕ → Prop
  | nil (vis : ℕ → Bool) : DLoop w n vis [] vis []
  | skip {vis vis' : ℕ → Bool} {stack out : List ℕ} (v : ℕ) :
      vis v = true → DLoop w n vis stack vis' out →
      DLoop w n vis (v :: stack) vis' out
  | expand {vis vis' : ℕ → Bool} {stack out : List ℕ} (v : ℕ) :
      vis v = false →
      DLoop w n (fun x => if x = v then true else vis x)
        (((adjL w n v).filter
            (fun u => !(if u = v then true else vis u))) ++ stack)
        vis' out →
      DLoop w n vis (v :: stack) vis' (v :: out)

/-- Deletion of some already-visited elements from a worklist. -/
inductive Del (vis : ℕ → Bool) : List ℕ → List ℕ → Prop
  | nil : Del vis [] []
  | keep {l1 l2 : List ℕ} (a : ℕ) : Del vis l1 l2 → Del vis (a :: l1) (a :: l2)
  | drop {l1 l2 : List ℕ} (a : ℕ) : vis a = true → Del vis l1 l2 →
      Del vis (a :: l1) l2

theorem del_refl {vis : ℕ → Bool} : ∀ l : List ℕ, Del vis l l := by
  intro l
  induction l with
  | nil => exact Del.nil
  | cons a t ih => exact Del.keep a ih

theorem del_append_right {vis : ℕ → Bool} {l1 l2 : List ℕ}
    (h : Del vis l1 l2) : ∀ p : List ℕ, Del vis (p ++ l1) (p ++ l2) := by
  intro p
  induction p with
  | nil => exact h
  | cons a t ih => exact Del.keep a ih

theorem del_filter {vis : ℕ → Bool} :
    ∀ l : List ℕ, Del vis l (l.filter (fun u => !(vis u))) := by
  intro l
  induction l with
  | nil => exact Del.nil
  | cons a t ih =>
    by_cases hva : vis a = true
    · have : (a :: t).filter (fun u => !(vis u)) =
        t.filter (fun u => !(vis u)) := by
        simp [List.filter, hva]
      rw [this]
      exact Del.drop a hva ih
    · have hva' : vis a = false := by
        cases h : vis a
        · rfl
        · exact absurd h hva
      have : (a :: t).filter (fun u => !(vis u)) =
        a :: t.filter (fun u => !(vis u)) := by
        simp [List.filter, hva']
      rw [this]
      exact Del.keep a ih

theorem del_mono {vis vis2 : ℕ → Bool} {l1 l2 : List ℕ}
    (hm : ∀ x, vis x = true → vis2 x = true) (h : Del vis l1 l2) :
    Del vis2 l1 l2 := by
  induction h with
  | nil => exact Del.nil
  | keep a _ ih => exact Del.keep a ih
  | drop a ha _ ih => exact Del.drop a (hm a ha) ih

end Dfs8

end GraphLib

namespace GraphLib

namespace Dfs8

/-- The worklist DFS never unmarks a vertex. -/
theorem dloop_mono {w : ℕ → ℕ → ℤ} {n : ℕ} {vis vis' : ℕ → Bool}
    {stack out : List ℕ} (h : DLoop w n vis stack vis' out) :
    ∀ x, vis x = true → vis' x = true := by
  induction h with
  | nil => exact fun x hx => hx
  | skip v _ _ ih => exact ih
  | expand v hv _ ih =>
    intro x hx
    apply ih
    simp only []
    by_cases hxv : x = v
    · rw [if_pos hxv]
    · rw [if_neg hxv]; exact hx

/-- Deleting already-visited worklist elements does not change the
outcome: they would be skipped anyway. -/
theorem dloop_del {w : ℕ → ℕ → ℤ} {n : ℕ} {vis vis' : ℕ → Bool}
    {s1 out : List ℕ} (h : DLoop w n vis s1 vis' out) :
    ∀ s2, Del vis s1 s2 → DLoop w n vis s2 vis' out := by
  induction h with
  | nil =>
    intro s2 hdel
    cases hdel
    exact DLoop.nil _
  | skip v hv _ ih =>
    intro s2 hdel
    cases hdel with
    | keep _ hd => exact DLoop.skip v hv (ih _ hd)
    | drop _ _ hd => exact ih _ hd
  | expand v hv _ ih =>
    intro s2 hdel
    cases hdel with
    | keep _ hd =>
      refine DLoop.expand v hv (ih _ ?_)
      refine del_append_right ?_ _
      refine del_mono ?_ hd
      intro x hx
      by_cases hxv : x = v
      · simp [hxv]
      · simp [hxv, hx]
    | drop _ hva _ => rw [hv] at hva; cases hva

/-- Sequential composition of worklists. -/
theorem dloop_concat {w : ℕ → ℕ → ℤ} {n : ℕ} {vis vis1 : ℕ → Bool}
    {s1 o1 : List ℕ} (h1 : DLoop w n vis s1 vis1 o1) :
    ∀ {vis2 : ℕ → Bool} {s2 o2 : List ℕ}, DLoop w n vis1 s2 vis2 o2 →
      DLoop w n vis (s1 ++ s2) vis2 (o1 ++ o2) := by
  induction h1 with
  | nil => intro vis2 s2 o2 h2; exact h2
  | skip v hv _ ih => intro vis2 s2 o2 h2; exact DLoop.skip v hv (ih h2)
  | expand v hv _ ih =>
    intro vis2 s2 o2 h2
    refine DLoop.expand v hv ?_
    have h3 := ih h2
    rw [List.append_assoc] at h3
    exact h3

/-- The worklist DFS is deterministic. -/
theorem dloop_det {w : ℕ → ℕ → ℤ} {n : ℕ} {vis visA : ℕ → Bool}
    {stack outA : List ℕ} (hA : DLoop w n vis stack visA outA) :
    ∀ {visB : ℕ → Bool} {outB : List ℕ}, DLoop w n vis stack visB outB →
      visA = visB ∧ outA = outB := by
  induction hA with
  | nil =>
    intro visB outB hB
    cases hB
    exact ⟨rfl, rfl⟩
  | skip v hv _ ih =>
    intro visB outB hB
    cases hB with
    | skip _ _ hB' => exact ih hB'
    | expand _ hv' _ => rw [hv] at hv'; cases hv'
  | expand v hv _ ih =>
    intro visB outB hB
    cases hB with
    | skip _ hv' _ => rw [hv] at hv'; cases hv'
    | expand _ _ hB' =>
      obtain ⟨h1, h2⟩ := ih hB'
      exact ⟨h1, by rw [h2]⟩

end Dfs8

end GraphLib

namespace GraphLib

namespace Dfs8

theorem del_append_left {vis : ℕ → Bool} {l1 l2 : List ℕ}
    (h : Del vis l1 l2) : ∀ r : List ℕ, Del vis (l1 ++ r) (l2 ++ r) := by
  induction h with
  | nil => exact fun r => del_refl r
  | keep a _ ih => exact fun r => Del.keep a (ih r)
  | drop a ha _ ih => exact fun r => Del.drop a ha (ih r)

/-- The iterative loop realises the big-step relation, emitting its output
after the already-accumulated prefix. -/
theorem dfsLoop_dloop {w : ℕ → ℕ → ℤ} {n : ℕ} :
    ∀ (f : ℕ) (vis : ℕ → Bool) (order stack : List ℕ)
      (vis' : ℕ → Bool) (ord : List ℕ),
      dfsLoop w n f vis order stack = some (vis', ord) →
      ∃ out, ord = order ++ out ∧ DLoop w n vis stack vis' out := by
  intro f
  induction f with
  | zero => intro _ _ _ _ _ h; cases h
  | succ f ih =>
    intro vis order stack vis' ord h
    cases stack with
    | nil =>
      replace h : some ((vis, order) : (ℕ → Bool) × List ℕ) =
        some (vis', ord) := h
      simp only [Option.some.injEq, Prod.mk.injEq] at h
      exact ⟨[], by rw [← h.2]; simp, by rw [← h.1]; exact DLoop.nil vis⟩
    | cons v stack =>
      replace h : (if vis v = true then dfsLoop w n f vis order stack
        else dfsLoop w n f (fun x => if x = v then true else vis x)
          (order ++ [v])
          (((adjL w n v).filter
              (fun u => !(if u = v then true else vis u))) ++ stack)) =
        some (vis', ord) := h
      by_cases hv : vis v = true
      · rw [if_pos hv] at h
        obtain ⟨out, hord, hd⟩ := ih vis order stack vis' ord h
        exact ⟨out, hord, DLoop.skip v hv hd⟩
      · have hv' : vis v = false := by
          cases hvv : vis v
          · rfl
          · exact absurd hvv hv
        rw [if_neg hv] at h
        obtain ⟨out, hord, hd⟩ := ih _ _ _ _ _ h
        refine ⟨v :: out, ?_, DLoop.expand v hv' hd⟩
        rw [hord, List.append_assoc]
        rfl

/-- The recursive traversal realises the same big-step relation: its
recursion into the full adjacency list equals the loop's push of the
filtered adjacency list, because deleting already-visited entries from a
worklist is neutral. -/
theorem dfsRecGo_dloop {w : ℕ → ℕ → ℤ} {n : ℕ} :
    ∀ (f : ℕ) (vis : ℕ → Bool) (l : List ℕ) (vis' : ℕ → Bool) (ord : List ℕ),
      dfsRecGo w n f vis l = some (vis', ord) →
      DLoop w n vis l vis' ord := by
  intro f
  induction f with
  | zero => intro _ _ _ _ h; cases h
  | succ f ih =>
    intro vis l vis' ord h
    cases l with
    | nil =>
      replace h : some ((vis, []) : (ℕ → Bool) × List ℕ) =
        some (vis', ord) := h
      simp only [Option.some.injEq, Prod.mk.injEq] at h
      rw [← h.1, ← h.2]
      exact DLoop.nil vis
    | cons v rest =>
      replace h : (if vis v = true then dfsRecGo w n f vis rest
        else match dfsRecGo w n f (fun x => if x = v then true else vis x)
            (adjL w n v) with
          | none => none
          | some (vis1, ord1) =>
            match dfsRecGo w n f vis1 rest with
            | none => none
            | some (vis2, ord2) => some (vis2, v :: (ord1 ++ ord2))) =
        some (vis', ord) := h
      by_cases hv : vis v = true
      · rw [if_pos hv] at h
        exact DLoop.skip v hv (ih vis rest vis' ord h)
      · have hv' : vis v = false := by
          cases hvv : vis v
          · rfl
          · exact absurd hvv hv
        rw [if_neg hv] at h
        rcases h1 : dfsRecGo w n f (fun x => if x = v then true else vis x)
            (adjL w n v) with _ | ⟨vis1, ord1⟩
        · rw [h1] at h; cases h
        · rw [h1] at h
          simp only [] at h
          rcases h2 : dfsRecGo w n f vis1 rest with _ | ⟨vis2, ord2⟩
          · rw [h2] at h; cases h
          · rw [h2] at h
            simp only [Option.some.injEq, Prod.mk.injEq] at h
            rw [← h.1, ← h.2]
            have d1 := ih _ _ _ _ h1
            have d2 := ih _ _ _ _ h2
            have dcat := dloop_concat d1 d2
            have hdel : Del (fun x => if x = v then true else vis x)
                (adjL w n v ++ rest)
                (((adjL w n v).filter
                    (fun u => !(if u = v then true else vis u))) ++ rest) :=
              del_append_left (del_filter (adjL w n v)) rest
            exact DLoop.expand v hv' (dloop_del dcat _ hdel)

end Dfs8

end GraphLib

namespace GraphLib

namespace Dfs8

theorem unvisited_mono {vis vis2 : ℕ → Bool} (n : ℕ)
    (hm : ∀ x, vis x = true → vis2 x = true) :
    Reach4.unvisited vis2 n ≤ Reach4.unvisited vis n := by
  unfold Reach4.unvisited
  apply List.countP_mono_left
  intro x _ h
  cases hvx : vis x
  · rfl
  · have h2 := hm x hvx
    rw [h2] at h
    cases h

theorem adjL_length_le {w : ℕ → ℕ → ℤ} {n i : ℕ} :
    (adjL w n i).length ≤ n := by
  unfold adjL
  calc ((List.range n).filter _).length ≤ (List.range n).length :=
        List.length_filter_le _ _
    _ = n := List.length_range n

theorem adjL_mem_lt {w : ℕ → ℕ → ℤ} {n i x : ℕ} (h : x ∈ adjL w n i) :
    x < n := by
  unfold adjL at h
  exact List.mem_range.1 (List.mem_of_mem_filter h)

/-- Fuel `(n+1)·(unvisited) + |stack| + 1` runs the iterative loop to
completion whenever the stack stays inside the vertex range. -/
theorem dfsLoop_some {w : ℕ → ℕ → ℤ} {n : ℕ} :
    ∀ (f : ℕ) (vis : ℕ → Bool) (order stack : List ℕ),
      (∀ x ∈ stack, x < n) →
      (n + 1) * Reach4.unvisited vis n + stack.length < f →
      ∃ r, dfsLoop w n f vis order stack = some r := by
  intro f
  induction f with
  | zero => intro _ _ _ _ h; omega
  | succ f ih =>
    intro vis order stack hmem hphi
    cases stack with
    | nil => exact ⟨(vis, order), rfl⟩
    | cons v stack =>
      show ∃ r, (if vis v = true then dfsLoop w n f vis order stack
        else dfsLoop w n f (fun x => if x = v then true else vis x)
          (order ++ [v])
          (((adjL w n v).filter
              (fun u => !(if u = v then true else vis u))) ++ stack)) =
        some r
      by_cases hv : vis v = true
      · rw [if_pos hv]
        refine ih vis order stack (fun x hx => hmem x (List.mem_cons_of_mem v hx)) ?_
        have : (v :: stack).length = stack.length + 1 := rfl
        omega
      · have hv' : vis v = false := by
          cases hvv : vis v
          · rfl
          · exact absurd hvv hv
        rw [if_neg hv]
        have hvn : v < n := hmem v (List.mem_cons_self v stack)
        have hu := Reach4.unvisited_mark (r := vis) hvn hv'
        refine ih _ _ _ ?_ ?_
        · intro x hx
          rcases List.mem_append.1 hx with hx' | hx'
          · exact adjL_mem_lt (List.mem_of_mem_filter hx')
          · exact hmem x (List.mem_cons_of_mem v hx')
        · rw [List.length_append]
          have hlenf : (((adjL w n v).filter
              (fun u => !(if u = v then true else vis u)))).length ≤ n := by
            calc (((adjL w n v).filter _)).length ≤ (adjL w n v).length :=
                  List.length_filter_le _ _
              _ ≤ n := adjL_length_le
          rw [← hu, Nat.mul_succ] at hphi
          have : (v :: stack).length = stack.length + 1 := rfl
          omega

/-- The same fuel runs the recursive traversal to completion. -/
theorem dfsRecGo_some {w : ℕ → ℕ → ℤ} {n : ℕ} :
    ∀ (f : ℕ) (vis : ℕ → Bool) (l : List ℕ),
      (∀ x ∈ l, x < n) →
      (n + 1) * Reach4.unvisited vis n + l.length < f →
      ∃ r, dfsRecGo w n f vis l = some r := by
  intro f
  induction f with
  | zero => intro _ _ _ h; omega
  | succ f ih =>
    intro vis l hmem hphi
    cases l with
    | nil => exact ⟨(vis, []), rfl⟩
    | cons v rest =>
      show ∃ r, (if vis v = true then dfsRecGo w n f vis rest
        else match dfsRecGo w n f (fun x => if x = v then true else vis x)
            (adjL w n v) with
          | none => none
          | some (vis1, ord1) =>
            match dfsRecGo w n f vis1 rest with
            | none => none
            | some (vis2, ord2) => some (vis2, v :: (ord1 ++ ord2))) =
        some r
      by_cases hv : vis v = true
      · rw [if_pos hv]
        refine ih vis rest (fun x hx => hmem x (List.mem_cons_of_mem v hx)) ?_
        have : (v :: rest).length = rest.length + 1 := rfl
        omega
      · have hv' : vis v = false := by
          cases hvv : vis v
          · rfl
          · exact absurd hvv hv
        rw [if_neg hv]
        have hvn : v < n := hmem v (List.mem_cons_self v rest)
        have hu := Reach4.unvisited_mark (r := vis) hvn hv'
        have hlen : (v :: rest).length = rest.length + 1 := rfl
        obtain ⟨⟨vis1, ord1⟩, h1⟩ := ih (fun x => if x = v then true else vis x)
          (adjL w n v) (fun x hx => adjL_mem_lt hx) (by
            rw [← hu, Nat.mul_succ] at hphi
            have := adjL_length_le (w := w) (n := n) (i := v)
            omega)
        rw [h1]
        simp only []
        have hmono : ∀ x, (fun x => if x = v then true else vis x) x = true →
            vis1 x = true := dloop_mono (dfsRecGo_dloop f _ _ _ _ h1)
        have hle := @unvisited_mono (fun x => if x = v then true else vis x)
          vis1 n hmono
        obtain ⟨⟨vis2, ord2⟩, h2⟩ := ih vis1 rest
          (fun x hx => hmem x (List.mem_cons_of_mem v hx)) (by
            rw [← hu, Nat.mul_succ] at hphi
            have hmul : (n + 1) * Reach4.unvisited vis1 n ≤
                (n + 1) * Reach4.unvisited
                  (fun x => if x = v then true else vis x) n :=
              Nat.mul_le_mul_left _ hle
            omega)
        rw [h2]
        exact ⟨_, rfl⟩

end Dfs8

end GraphLib

namespace GraphLib

/-- C7: from any in-range start vertex, the explicit-stack iterative DFS
succeeds and returns exactly the visitation order of the recursive
first-neighbour-first traversal. -/
theorem C7_dfs_iterative_matches_recursive (w : ℕ → ℕ → ℤ) (n start : ℕ)
    (hstart : start < n) :
    (∃ order, Dfs8.dfsIterative w n start = some order) ∧
    Dfs8.dfsIterative w n start = Dfs8.dfsRecursive w n start := by
  have hun : Reach4.unvisited (fun _ => false) n = n := by
    unfold Reach4.unvisited
    simp
  have hmem : ∀ x ∈ [start], x < n := by
    intro x hx
    rw [List.mem_singleton.1 hx]
    exact hstart
  have hphi : (n + 1) * Reach4.unvisited (fun _ => false) n +
      ([start] : List ℕ).length < (n + 1) * n + 2 := by
    rw [hun, List.length_singleton]
    omega
  obtain ⟨⟨visI, ordI⟩, hI⟩ := Dfs8.dfsLoop_some (w := w) (n := n)
    ((n + 1) * n + 2) (fun _ => false) [] [start] hmem hphi
  obtain ⟨⟨visR, ordR⟩, hR⟩ := Dfs8.dfsRecGo_some (w := w) (n := n)
    ((n + 1) * n + 2) (fun _ => false) [start] hmem hphi
  obtain ⟨out, hord, dI⟩ := Dfs8.dfsLoop_dloop _ _ _ _ _ _ hI
  rw [List.nil_append] at hord
  rw [hord] at hI
  have dR := Dfs8.dfsRecGo_dloop _ _ _ _ _ hR
  obtain ⟨_, hout⟩ := Dfs8.dloop_det dI dR
  constructor
  · refine ⟨out, ?_⟩
    unfold Dfs8.dfsIterative
    rw [hI]
    rfl
  · unfold Dfs8.dfsIterative Dfs8.dfsRecursive
    rw [hI, hR, hout]
    rfl

/-- Witness for C7 on a concrete 4-vertex directed graph. -/
theorem C7_dfs_iterative_matches_recursive_witness :
    (∃ order, Dfs8.dfsIterative (matOf [[0,2,1,0],[0,0,0,3],[0,1,0,0],[0,0,0,0]]) 4 0 =
      some order) ∧
    Dfs8.dfsIterative (matOf [[0,2,1,0],[0,0,0,3],[0,1,0,0],[0,0,0,0]]) 4 0 =
      Dfs8.dfsRecursive (matOf [[0,2,1,0],[0,0,0,3],[0,1,0,0],[0,0,0,0]]) 4 0 :=
  C7_dfs_iterative_matches_recursive
    (matOf [[0,2,1,0],[0,0,0,3],[0,1,0,0],[0,0,0,0]]) 4 0 (by decide)

end GraphLib

/-!
## C1: Dijkstra versus Floyd–Warshall (`dijkstra_shortest_paths.py`,
`floyd_warshall_paths.py`)

Both algorithms are characterised against walks.  For Floyd–Warshall the
in-place triple loop is shown monotone (entries only decrease) and, round
by round, bounded by the weight of every walk whose intermediate vertices
were already processed; splitting a walk at the first and last occurrence
of the current pivot and discarding the non-negative middle handles
repeated pivots.  For Dijkstra the heap is a list popped at its minimum
(faithful to `heapq`), and the proof uses only pop-order-independent
invariants: every finite entry is an achieved walk weight, and every
finite vertex either has its current value still pending in the heap or
has all its out-edges relaxed.  Termination is by the lexicographic
measure (number of infinite entries, sum of finite entries, heap size).
-/

namespace GraphLib

theorem walk_mem_lt {e : ℕ → ℕ → Prop} {n : ℕ} :
    ∀ {i l j}, IsWalk e n i l j → ∀ x ∈ l, x < n := by
  intro i l j h
  induction h with
  | nil => intro x hx; cases hx
  | cons a b l c _ _ hrest ih =>
    intro x hx
    rcases List.mem_cons.1 hx with rfl | hx'
    · exact hrest.start_lt
    · exact ih x hx'

theorem walkWeight_nonneg {w : ℕ → ℕ → ℤ} {n : ℕ} (hnn : NonnegMat w n) :
    ∀ {i l j}, IsWalk (Floyd10.eFW w) n i l j → 0 ≤ walkWeight w i l := by
  intro i l j h
  induction h with
  | nil => rw [walkWeight_nil]
  | cons a b l c ha _ hrest ih =>
    rw [walkWeight_cons]
    have hb : b < n := hrest.start_lt
    have := hnn a ha b hb
    omega

theorem walk_split {e : ℕ → ℕ → Prop} {n m : ℕ} :
    ∀ {l1 : List ℕ} {i j : ℕ} {l2 : List ℕ},
      IsWalk e n i (l1 ++ m :: l2) j →
      IsWalk e n i (l1 ++ [m]) m ∧ IsWalk e n m l2 j := by
  intro l1
  induction l1 with
  | nil =>
    intro i j l2 h
    cases h with
    | cons _ _ _ _ hi he hrest =>
      exact ⟨IsWalk.cons i m [] m hi he (IsWalk.nil m hrest.start_lt), hrest⟩
  | cons a t ih =>
    intro i j l2 h
    cases h with
    | cons _ _ _ _ hi he hrest =>
      obtain ⟨h1, h2⟩ := ih hrest
      exact ⟨IsWalk.cons i a (t ++ [m]) m hi he h1, h2⟩

theorem first_split {a : ℕ} :
    ∀ {l : List ℕ}, a ∈ l → ∃ l1 l2, l = l1 ++ a :: l2 ∧ a ∉ l1 := by
  intro l
  induction l with
  | nil => intro h; cases h
  | cons b t ih =>
    intro h
    by_cases hab : a = b
    · exact ⟨[], t, by rw [hab]; rfl, by simp⟩
    · rcases List.mem_cons.1 h with h' | h'
      · exact absurd h' hab
      · obtain ⟨l1, l2, heq, hnot⟩ := ih h'
        refine ⟨b :: l1, l2, by rw [heq]; rfl, ?_⟩
        intro hc
        rcases List.mem_cons.1 hc with h'' | h''
        · exact hab h''
        · exact hnot h''

theorem last_split {a : ℕ} :
    ∀ {l : List ℕ}, a ∈ l → ∃ l1 l2, l = l1 ++ a :: l2 ∧ a ∉ l2 := by
  intro l
  induction l with
  | nil => intro h; cases h
  | cons b t ih =>
    intro h
    by_cases hat : a ∈ t
    · obtain ⟨l1, l2, heq, hnot⟩ := ih hat
      exact ⟨b :: l1, l2, by rw [heq]; rfl, hnot⟩
    · rcases List.mem_cons.1 h with h' | h'
      · exact ⟨[], t, by rw [h']; rfl, hat⟩
      · exact absurd h' hat

theorem dropLast_append_ne_nil {α : Type} :
    ∀ (A : List α) {B : List α}, B ≠ [] →
      (A ++ B).dropLast = A ++ B.dropLast := by
  intro A
  induction A with
  | nil => intro B _; rfl
  | cons a t ih =>
    intro B hB
    have htB : t ++ B ≠ [] := by
      intro hc
      exact hB (List.append_eq_nil.1 hc).2
    show ((a :: t) ++ B).dropLast = a :: (t ++ B.dropLast)
    rw [List.cons_append, List.dropLast_cons_of_ne_nil htB, ih hB]

end GraphLib

namespace GraphLib

namespace Floyd10

/-- Relaxation never increases an entry. -/
theorem relax_mono {s : FWState} {k i j : ℕ} (a b : ℕ) :
    (relax s k i j).1 a b ≤ s.1 a b := by
  unfold relax
  split_ifs with h1 h2
  · exact le_refl _
  · simp only []
    by_cases hab : a = i ∧ b = j
    · rw [if_pos hab, hab.1, hab.2]
      exact le_of_lt h2
    · rw [if_neg hab]
  · exact le_refl _

theorem fwJ_mono {k i : ℕ} :
    ∀ (jc : ℕ) (s : FWState) (a b : ℕ), (fwJ k i jc s).1 a b ≤ s.1 a b := by
  intro jc
  induction jc with
  | zero => intro s a b; exact le_refl _
  | succ j ih =>
    intro s a b
    calc (relax (fwJ k i j s) k i j).1 a b ≤ (fwJ k i j s).1 a b :=
          relax_mono a b
      _ ≤ s.1 a b := ih s a b

theorem fwI_mono {k n : ℕ} :
    ∀ (ic : ℕ) (s : FWState) (a b : ℕ), (fwI k n ic s).1 a b ≤ s.1 a b := by
  intro ic
  induction ic with
  | zero => intro s a b; exact le_refl _
  | succ i ih =>
    intro s a b
    show (if (fwI k n i s).1 i k = ⊤ then fwI k n i s
      else fwJ k i n (fwI k n i s)).1 a b ≤ s.1 a b
    split_ifs with hg
    · exact ih s a b
    · calc (fwJ k i n (fwI k n i s)).1 a b ≤ (fwI k n i s).1 a b :=
            fwJ_mono n _ a b
        _ ≤ s.1 a b := ih s a b

/-- After relaxing `(i, j)` through `k`, the entry is at most the sum of
the two legs (trivially so when the inner guard skipped, since then the
sum is infinite). -/
theorem relax_le_sum {s : FWState} {k i j : ℕ} :
    (relax s k i j).1 i j ≤ s.1 i k + s.1 k j := by
  unfold relax
  split_ifs with h1 h2
  · rw [h1, add_top]
    exact le_top
  · simp
  · exact le_of_not_lt h2

/-- After the inner `j`-loop has passed column `j`, the entry `(i, j)` is
bounded by the two legs as they stood before the loop. -/
theorem fwJ_le {k i j : ℕ} :
    ∀ (jc : ℕ) (s : FWState), j < jc →
      (fwJ k i jc s).1 i j ≤ s.1 i k + s.1 k j := by
  intro jc
  induction jc with
  | zero => intro s h; omega
  | succ jj ih =>
    intro s h
    by_cases hj : j = jj
    · subst hj
      calc (relax (fwJ k i j s) k i j).1 i j ≤
            (fwJ k i j s).1 i k + (fwJ k i j s).1 k j := relax_le_sum
        _ ≤ s.1 i k + s.1 k j :=
            add_le_add (fwJ_mono j s i k) (fwJ_mono j s k j)
    · calc (relax (fwJ k i jj s) k i jj).1 i j ≤ (fwJ k i jj s).1 i j :=
            relax_mono i j
        _ ≤ s.1 i k + s.1 k j := ih s (by omega)

/-- After the `i`-loop has passed row `i`: the entry `(i, j)` is bounded
by the two legs as they stood before the loop, provided the `i → k` leg
was finite (so the hoisted guard cannot hide the row). -/
theorem fwI_le {k n i j : ℕ} :
    ∀ (ic : ℕ) (s : FWState), i < ic → j < n → s.1 i k ≠ ⊤ →
      (fwI k n ic s).1 i j ≤ s.1 i k + s.1 k j := by
  intro ic
  induction ic with
  | zero => intro s h _ _; omega
  | succ ii ih =>
    intro s h hj htop
    show (if (fwI k n ii s).1 ii k = ⊤ then fwI k n ii s
      else fwJ k ii n (fwI k n ii s)).1 i j ≤ s.1 i k + s.1 k j
    by_cases hi : i = ii
    · subst hi
      split_ifs with hg
      · exfalso
        apply htop
        have := fwI_mono (k := k) (n := n) i s i k
        rw [hg] at this
        exact top_le_iff.1 this
      · calc (fwJ k i n (fwI k n i s)).1 i j ≤
            (fwI k n i s).1 i k + (fwI k n i s).1 k j := fwJ_le n _ hj
          _ ≤ s.1 i k + s.1 k j :=
            add_le_add (fwI_mono i s i k) (fwI_mono i s k j)
    · split_ifs with hg
      · exact ih s (by omega) hj htop
      · calc (fwJ k ii n (fwI k n ii s)).1 i j ≤ (fwI k n ii s).1 i j :=
            fwJ_mono n _ i j
          _ ≤ s.1 i k + s.1 k j := ih s (by omega) hj htop

end Floyd10

end GraphLib

namespace GraphLib

namespace Floyd10

/-- Upper-bound invariant after the rounds `0, …, k-1`: every walk whose
intermediate vertices are below `k` bounds the corresponding entry. -/
def FWUB (w : ℕ → ℕ → ℤ) (n k : ℕ) (d : ℕ → ℕ → WithTop ℤ) : Prop :=
  ∀ i < n, ∀ j < n, ∀ l, IsWalk (eFW w) n i l j →
    (∀ x ∈ l.dropLast, x < k) → d i j ≤ (walkWeight w i l : WithTop ℤ)

theorem fwub_init (w : ℕ → ℕ → ℤ) (n : ℕ) : FWUB w n 0 (fwInitDist w) := by
  intro i hi j hj l hwalk hint
  cases hwalk with
  | nil =>
    rw [walkWeight_nil]
    unfold fwInitDist
    rw [if_pos rfl]
    exact le_refl _
  | cons _ b l' _ hlt he hrest =>
    cases l' with
    | nil =>
      have hbj : b = j := hrest.nil_eq
      subst hbj
      rw [walkWeight_cons, walkWeight_nil, add_zero]
      unfold fwInitDist
      rw [if_neg he.1, if_pos he.2]
    | cons c l'' =>
      exfalso
      have hb : b ∈ (b :: c :: l'').dropLast := by
        rw [List.dropLast_cons_of_ne_nil (by simp)]
        exact List.mem_cons_self b _
      have := hint b hb
      omega

theorem fwub_step {w : ℕ → ℕ → ℤ} {n k : ℕ} {s : FWState}
    (hnn : NonnegMat w n) (hk : k < n) (hub : FWUB w n k s.1) :
    FWUB w n (k + 1) (fwI k n n s).1 := by
  intro i hi j hj l hwalk hint
  by_cases hkin : k ∈ l.dropLast
  · -- the walk passes through the pivot: split at its first and last visit
    have hkl : k ∈ l := (List.dropLast_sublist l).subset hkin
    obtain ⟨l1, l2, hleq, hk1⟩ := first_split hkl
    rw [hleq] at hwalk
    obtain ⟨P1, P2⟩ := walk_split hwalk
    -- the prefix's intermediate vertices avoid k and sit below k + 1
    have hl1sub : ∀ x ∈ l1, x ∈ l.dropLast := by
      intro x hx
      rw [hleq, dropLast_append_ne_nil l1 (by simp)]
      exact List.mem_append.2 (Or.inl hx)
    have hP1int : ∀ x ∈ (l1 ++ [k]).dropLast, x < k := by
      rw [List.dropLast_concat]
      intro x hx
      have h1 := hint x (hl1sub x hx)
      have h2 : x ≠ k := fun hc => hk1 (hc ▸ hx)
      omega
    have hd_ik := hub i hi k hk (l1 ++ [k]) P1 hP1int
    -- now split the remainder at the last visit of k (if any)
    have hmain : ∃ l4 w1 w3, IsWalk (eFW w) n k l4 j ∧
        (∀ x ∈ l4.dropLast, x < k) ∧
        walkWeight w i (l1 ++ [k]) = w1 ∧ walkWeight w k l4 = w3 ∧
        w1 + w3 ≤ walkWeight w i l := by
      by_cases hk2 : k ∈ l2
      · obtain ⟨l3, l4, hl2eq, hk4⟩ := last_split hk2
        rw [hl2eq] at P2
        obtain ⟨M, P3⟩ := walk_split P2
        refine ⟨l4, _, _, P3, ?_, rfl, rfl, ?_⟩
        · intro x hx
          have hx4 : x ∈ l4 := (List.dropLast_sublist l4).subset hx
          have hxl : x ∈ l.dropLast := by
            rw [hleq, hl2eq]
            have : l1 ++ k :: (l3 ++ k :: l4) =
                (l1 ++ k :: l3 ++ [k]) ++ l4 := by simp
            rw [this]
            cases l4 with
            | nil => cases hx
            | cons c4 t4 =>
              rw [dropLast_append_ne_nil _ (by simp)]
              exact List.mem_append.2 (Or.inr hx)
          have h1 := hint x hxl
          have h2 : x ≠ k := fun hc => hk4 (hc ▸ hx4)
          omega
        · have hw1 : walkWeight w i l =
              walkWeight w i (l1 ++ [k]) + walkWeight w k l2 := by
            rw [hleq]
            have : l1 ++ k :: l2 = (l1 ++ [k]) ++ l2 := by simp
            rw [this]
            exact walkWeight_append w P1 l2
          have hw2 : walkWeight w k l2 =
              walkWeight w k (l3 ++ [k]) + walkWeight w k l4 := by
            rw [hl2eq]
            have : l3 ++ k :: l4 = (l3 ++ [k]) ++ l4 := by simp
            rw [this]
            exact walkWeight_append w M l4
          have hM : 0 ≤ walkWeight w k (l3 ++ [k]) := walkWeight_nonneg hnn M
          rw [hw1, hw2]
          omega
      · refine ⟨l2, _, _, P2, ?_, rfl, rfl, ?_⟩
        · intro x hx
          have hx2 : x ∈ l2 := (List.dropLast_sublist l2).subset hx
          have hxl : x ∈ l.dropLast := by
            rw [hleq]
            have : l1 ++ k :: l2 = (l1 ++ [k]) ++ l2 := by simp
            rw [this]
            cases l2 with
            | nil => cases hx
            | cons c2 t2 =>
              rw [dropLast_append_ne_nil _ (by simp)]
              exact List.mem_append.2 (Or.inr hx)
          have h1 := hint x hxl
          have h2 : x ≠ k := fun hc => hk2 (hc ▸ hx2)
          omega
        · have hw1 : walkWeight w i l =
              walkWeight w i (l1 ++ [k]) + walkWeight w k l2 := by
            rw [hleq]
            have : l1 ++ k :: l2 = (l1 ++ [k]) ++ l2 := by simp
            rw [this]
            exact walkWeight_append w P1 l2
          omega
    obtain ⟨l4, w1, w3, P3, hP3int, hw1, hw3, hle⟩ := hmain
    have hd_kj := hub k hk j hj l4 P3 hP3int
    have hik_ne : s.1 i k ≠ ⊤ := by
      intro hc
      rw [hc, hw1] at hd_ik
      exact absurd hd_ik (by simp)
    calc (fwI k n n s).1 i j ≤ s.1 i k + s.1 k j := fwI_le n s hi hj hik_ne
      _ ≤ (w1 : WithTop ℤ) + (w3 : WithTop ℤ) := by
          rw [hw1] at hd_ik
          rw [hw3] at hd_kj
          exact add_le_add hd_ik hd_kj
      _ = ((w1 + w3 : ℤ) : WithTop ℤ) := by rw [WithTop.coe_add]
      _ ≤ (walkWeight w i l : WithTop ℤ) := by
          rw [WithTop.coe_le_coe]
          exact hle
  · -- the walk avoids the pivot: the previous rounds already bound it
    have hd := hub i hi j hj l hwalk (by
      intro x hx
      have h1 := hint x hx
      have h2 : x ≠ k := fun hc => hkin (hc ▸ hx)
      omega)
    calc (fwI k n n s).1 i j ≤ s.1 i j := fwI_mono n s i j
      _ ≤ _ := hd

theorem fwub_rounds {w : ℕ → ℕ → ℤ} {n : ℕ} (hnn : NonnegMat w n) :
    ∀ kc, kc ≤ n → FWUB w n kc (fwK n kc (fwInitDist w, fwInitNext w)).1 := by
  intro kc
  induction kc with
  | zero => intro _; exact fwub_init w n
  | succ k ih =>
    intro hkc
    exact fwub_step hnn (by omega) (ih (by omega))

/-- The final Floyd–Warshall matrix is a lower bound on every walk
weight. -/
theorem fw_le_walk {w : ℕ → ℕ → ℤ} {n : ℕ} (hnn : NonnegMat w n)
    {i j : ℕ} (hi : i < n) (hj : j < n) {l : List ℕ}
    (hwalk : IsWalk (eFW w) n i l j) :
    (fwFinal w n).1 i j ≤ (walkWeight w i l : WithTop ℤ) := by
  refine fwub_rounds hnn n le_rfl i hi j hj l hwalk ?_
  intro x hx
  exact walk_mem_lt hwalk x ((List.dropLast_sublist l).subset hx)

end Floyd10

end GraphLib

namespace GraphLib

namespace Dijkstra9

/-- Edge relation of the Dijkstra adjacency list: positive weights. -/
def eD (w : ℕ → ℕ → ℤ) (x y : ℕ) : Prop := 0 < w x y

instance (w : ℕ → ℕ → ℤ) (x y : ℕ) : Decidable (eD w x y) := by
  unfold eD; infer_instance

/-- `_build_adjacency_list` row `i`: the neighbours with positive weight,
ascending (the stored weights are recovered as `w i u`). -/
def dijAdj (w : ℕ → ℕ → ℤ) (n i : ℕ) : List ℕ :=
  (List.range n).filter (fun j => 0 < w i j)

/-- Loop state: the `dist` array and the heap contents. -/
abbrev DState := (ℕ → WithTop ℤ) × List (ℤ × ℕ)

/-- The `for u, weight in self.adj_list[v]` relaxation pass.  `math.inf +
weight` is `math.inf`, which is never `< dist[u]`, hence the `⊤` branch
relaxes nothing. -/
def dijRelax (w : ℕ → ℕ → ℤ) (v : ℕ) : List ℕ → DState → DState
  | [], st => st
  | u :: rest, st =>
    match st.1 v with
    | ⊤ => dijRelax w v rest st
    | (dv : ℤ) =>
      if ((dv + w v u : ℤ) : WithTop ℤ) < st.1 u then
        dijRelax w v rest
          (fun x => if x = u then ((dv + w v u : ℤ) : WithTop ℤ) else st.1 x,
           st.2 ++ [(dv + w v u, u)])
      else dijRelax w v rest st

/-- The minimum of a non-empty heap under the lexicographic tuple order
`heapq` uses on `(distance, vertex)` pairs. -/
def heapMin : (ℤ × ℕ) → List (ℤ × ℕ) → ℤ × ℕ
  | e, [] => e
  | e, b :: rest =>
    heapMin (if b.1 < e.1 ∨ (b.1 = e.1 ∧ b.2 < e.2) then b else e) rest

/-- `heapq.heappop`: remove and return the minimal entry. -/
def popMin (heap : List (ℤ × ℕ)) : Option ((ℤ × ℕ) × List (ℤ × ℕ)) :=
  match heap with
  | [] => none
  | e :: rest => some (heapMin e rest, (e :: rest).erase (heapMin e rest))

/-- One iteration of the `while heap` loop: pop, skip a stale entry
(`cur_dist > dist[v]`), otherwise relax every out-neighbour. -/
def dijkStep (w : ℕ → ℕ → ℤ) (n : ℕ) (st : DState) : Option DState :=
  match popMin st.2 with
  | none => none
  | some ((d, v), rest) =>
    some (if st.1 v < (d : WithTop ℤ) then (st.1, rest)
          else dijRelax w v (dijAdj w n v) (st.1, rest))

/-- The fueled `while heap` loop, returning the `dist` array (`prev` is
write-only bookkeeping and is not modelled). -/
def dijkLoop (w : ℕ → ℕ → ℤ) (n : ℕ) : ℕ → DState → Option (ℕ → WithTop ℤ)
  | 0, _ => none
  | f + 1, st =>
    match dijkStep w n st with
    | none => some st.1
    | some st' => dijkLoop w n f st'

/-- `dist[start] = 0`, the rest `math.inf`, heap `[(0, start)]`. -/
def dijkInit (start : ℕ) : DState :=
  (fun x => if x = start then (0 : WithTop ℤ) else ⊤, [(0, start)])

theorem heapMin_mem : ∀ (rest : List (ℤ × ℕ)) (e : ℤ × ℕ),
    heapMin e rest ∈ e :: rest := by
  intro rest
  induction rest with
  | nil => intro e; exact List.mem_singleton.2 rfl
  | cons b t ih =>
    intro e
    show heapMin (if b.1 < e.1 ∨ (b.1 = e.1 ∧ b.2 < e.2) then b else e) t ∈
      e :: b :: t
    have h := ih (if b.1 < e.1 ∨ (b.1 = e.1 ∧ b.2 < e.2) then b else e)
    rcases List.mem_cons.1 h with h' | h'
    · rw [h']
      split_ifs
      · exact List.mem_cons_of_mem e (List.mem_cons_self b t)
      · exact List.mem_cons_self e _
    · exact List.mem_cons_of_mem e (List.mem_cons_of_mem b h')

theorem popMin_none {heap : List (ℤ × ℕ)} (h : popMin heap = none) :
    heap = [] := by
  cases heap with
  | nil => rfl
  | cons e rest => cases h

theorem popMin_spec {heap : List (ℤ × ℕ)} {m : ℤ × ℕ}
    {rest : List (ℤ × ℕ)} (h : popMin heap = some (m, rest)) :
    m ∈ heap ∧ rest = heap.erase m ∧ rest.length + 1 = heap.length := by
  cases heap with
  | nil => cases h
  | cons e t =>
    replace h : some ((heapMin e t, (e :: t).erase (heapMin e t)) :
        (ℤ × ℕ) × List (ℤ × ℕ)) = some (m, rest) := h
    simp only [Option.some.injEq, Prod.mk.injEq] at h
    obtain ⟨h1, h2⟩ := h
    subst h1
    subst h2
    have hmem : heapMin e t ∈ e :: t := heapMin_mem t e
    refine ⟨hmem, rfl, ?_⟩
    rw [List.length_erase_of_mem hmem]
    simp

end Dijkstra9

end GraphLib

namespace GraphLib

namespace Dijkstra9

/-- The relaxation pass never increases a distance. -/
theorem dijRelax_dist_mono {w : ℕ → ℕ → ℤ} {v : ℕ} :
    ∀ (l : List ℕ) (st : DState) (x : ℕ),
      (dijRelax w v l st).1 x ≤ st.1 x := by
  intro l
  induction l with
  | nil => intro st x; exact le_refl _
  | cons u rest ih =>
    intro st x
    show (match st.1 v with
      | ⊤ => dijRelax w v rest st
      | (dv : ℤ) =>
        if ((dv + w v u : ℤ) : WithTop ℤ) < st.1 u then
          dijRelax w v rest
            (fun y => if y = u then ((dv + w v u : ℤ) : WithTop ℤ) else st.1 y,
             st.2 ++ [(dv + w v u, u)])
        else dijRelax w v rest st).1 x ≤ st.1 x
    rcases hdv : st.1 v with _ | dv
    · exact ih st x
    · simp only []
      split_ifs with hlt
      · refine le_trans (ih _ x) ?_
        show (if x = u then ((dv + w v u : ℤ) : WithTop ℤ) else st.1 x) ≤ st.1 x
        by_cases hxu : x = u
        · rw [if_pos hxu, hxu]
          exact le_of_lt hlt
        · rw [if_neg hxu]
      · exact ih st x

/-- The relaxation pass only appends to the heap. -/
theorem dijRelax_heap_mono {w : ℕ → ℕ → ℤ} {v : ℕ} :
    ∀ (l : List ℕ) (st : DState) (e : ℤ × ℕ),
      e ∈ st.2 → e ∈ (dijRelax w v l st).2 := by
  intro l
  induction l with
  | nil => intro st e he; exact he
  | cons u rest ih =>
    intro st e he
    show e ∈ (match st.1 v with
      | ⊤ => dijRelax w v rest st
      | (dv : ℤ) =>
        if ((dv + w v u : ℤ) : WithTop ℤ) < st.1 u then
          dijRelax w v rest
            (fun y => if y = u then ((dv + w v u : ℤ) : WithTop ℤ) else st.1 y,
             st.2 ++ [(dv + w v u, u)])
        else dijRelax w v rest st).2
    rcases hdv : st.1 v with _ | dv
    · exact ih st e he
    · simp only []
      split_ifs with hlt
      · exact ih _ e (List.mem_append.2 (Or.inl he))
      · exact ih st e he

/-- Vertices outside the processed list keep their distance. -/
theorem dijRelax_dist_outside {w : ℕ → ℕ → ℤ} {v : ℕ} :
    ∀ (l : List ℕ) (st : DState) (x : ℕ), x ∉ l →
      (dijRelax w v l st).1 x = st.1 x := by
  intro l
  induction l with
  | nil => intro st x _; rfl
  | cons u rest ih =>
    intro st x hx
    have hxu : x ≠ u := fun hc => hx (hc ▸ List.mem_cons_self u rest)
    have hxr : x ∉ rest := fun hc => hx (List.mem_cons_of_mem u hc)
    show (match st.1 v with
      | ⊤ => dijRelax w v rest st
      | (dv : ℤ) =>
        if ((dv + w v u : ℤ) : WithTop ℤ) < st.1 u then
          dijRelax w v rest
            (fun y => if y = u then ((dv + w v u : ℤ) : WithTop ℤ) else st.1 y,
             st.2 ++ [(dv + w v u, u)])
        else dijRelax w v rest st).1 x = st.1 x
    rcases hdv : st.1 v with _ | dv
    · exact ih st x hxr
    · simp only []
      split_ifs with hlt
      · rw [ih _ x hxr]
        show (if x = u then ((dv + w v u : ℤ) : WithTop ℤ) else st.1 x) = st.1 x
        rw [if_neg hxu]
      · exact ih st x hxr

/-- Each vertex either keeps its distance or ends with a freshly pushed
heap entry recording its new (finite) distance. -/
theorem dijRelax_unchanged_or_pushed {w : ℕ → ℕ → ℤ} {v : ℕ} :
    ∀ (l : List ℕ) (st : DState) (x : ℕ),
      (dijRelax w v l st).1 x = st.1 x ∨
      ∃ dx : ℤ, (dijRelax w v l st).1 x = (dx : WithTop ℤ) ∧
        (dx, x) ∈ (dijRelax w v l st).2 := by
  intro l
  induction l with
  | nil => intro st x; exact Or.inl rfl
  | cons u rest ih =>
    intro st x
    show (dijRelax w v (u :: rest) st).1 x = st.1 x ∨
      ∃ dx : ℤ, (dijRelax w v (u :: rest) st).1 x = (dx : WithTop ℤ) ∧
        (dx, x) ∈ (dijRelax w v (u :: rest) st).2
    have hstep : dijRelax w v (u :: rest) st = (match st.1 v with
      | ⊤ => dijRelax w v rest st
      | (dv : ℤ) =>
        if ((dv + w v u : ℤ) : WithTop ℤ) < st.1 u then
          dijRelax w v rest
            (fun y => if y = u then ((dv + w v u : ℤ) : WithTop ℤ) else st.1 y,
             st.2 ++ [(dv + w v u, u)])
        else dijRelax w v rest st) := rfl
    rw [hstep]
    rcases hdv : st.1 v with _ | dv
    · exact ih st x
    · simp only []
      split_ifs with hlt
      · rcases ih (fun y => if y = u then ((dv + w v u : ℤ) : WithTop ℤ) else st.1 y,
          st.2 ++ [(dv + w v u, u)]) x with hsame | ⟨dx, hdx, hmem⟩
        · rw [hsame]
          by_cases hxu : x = u
          · refine Or.inr ⟨dv + w v u, ?_, ?_⟩
            · show (if x = u then ((dv + w v u : ℤ) : WithTop ℤ) else st.1 x) = _
              rw [if_pos hxu]
            · refine dijRelax_heap_mono rest _ _ ?_
              subst hxu
              exact List.mem_append.2 (Or.inr (List.mem_singleton.2 rfl))
          · refine Or.inl ?_
            show (if x = u then ((dv + w v u : ℤ) : WithTop ℤ) else st.1 x) = st.1 x
            rw [if_neg hxu]
        · exact Or.inr ⟨dx, hdx, hmem⟩
      · exact ih st x

/-- Closure for every processed neighbour, provided the popped vertex is
not its own neighbour. -/
theorem dijRelax_closure {w : ℕ → ℕ → ℤ} {v : ℕ} :
    ∀ (l : List ℕ) (st : DState) (u : ℕ), u ∈ l → v ∉ l →
      (dijRelax w v l st).1 u ≤ st.1 v + ((w v u : ℤ) : WithTop ℤ) := by
  intro l
  induction l with
  | nil => intro st u hu; cases hu
  | cons u' rest ih =>
    intro st u hu hv
    have hvu' : v ≠ u' := fun hc => hv (hc ▸ List.mem_cons_self u' rest)
    have hvr : v ∉ rest := fun hc => hv (List.mem_cons_of_mem u' hc)
    show (match st.1 v with
      | ⊤ => dijRelax w v rest st
      | (dv : ℤ) =>
        if ((dv + w v u' : ℤ) : WithTop ℤ) < st.1 u' then
          dijRelax w v rest
            (fun y => if y = u' then ((dv + w v u' : ℤ) : WithTop ℤ) else st.1 y,
             st.2 ++ [(dv + w v u', u')])
        else dijRelax w v rest st).1 u ≤ st.1 v + ((w v u : ℤ) : WithTop ℤ)
    rcases hdv : st.1 v with _ | dv
    · show _ ≤ (⊤ : WithTop ℤ) + ((w v u : ℤ) : WithTop ℤ)
      rw [top_add]
      exact le_top
    · simp only []
      rcases List.mem_cons.1 hu with rfl | hur
      · -- the current neighbour
        split_ifs with hlt
        · refine le_trans (dijRelax_dist_mono rest _ u) ?_
          show (if u = u then ((dv + w v u : ℤ) : WithTop ℤ) else st.1 u) ≤ _
          rw [if_pos rfl]
          show ((dv + w v u : ℤ) : WithTop ℤ) ≤
            ((dv : ℤ) : WithTop ℤ) + ((w v u : ℤ) : WithTop ℤ)
          rw [← WithTop.coe_add]
        · refine le_trans (dijRelax_dist_mono rest st u) ?_
          show st.1 u ≤ ((dv : ℤ) : WithTop ℤ) + ((w v u : ℤ) : WithTop ℤ)
          rw [← WithTop.coe_add]
          exact le_of_not_lt hlt
      · -- a later neighbour: the recursive call handles it, and the
        -- popped vertex's distance is untouched by the current update
        split_ifs with hlt
        · have hrec := ih (fun y => if y = u' then ((dv + w v u' : ℤ) : WithTop ℤ) else st.1 y,
            st.2 ++ [(dv + w v u', u')]) u hur hvr
          refine le_trans hrec ?_
          show (if v = u' then ((dv + w v u' : ℤ) : WithTop ℤ) else st.1 v) + _ ≤ _
          rw [if_neg hvu', hdv]
        · rw [← hdv]
          exact ih st u hur hvr

end Dijkstra9

end GraphLib

namespace GraphLib

namespace Dijkstra9

/-- Heap well-formedness: every entry names an in-range vertex whose
current distance is at most the recorded one. -/
def HeapWF (n : ℕ) (st : DState) : Prop :=
  ∀ e ∈ st.2, e.2 < n ∧ st.1 e.2 ≤ (e.1 : WithTop ℤ)

/-- Pending-or-relaxed, for one vertex: a finite distance is either still
pending in the heap or all of the vertex's out-edges are relaxed. -/
def PendingX (w : ℕ → ℕ → ℤ) (n : ℕ) (st : DState) (x : ℕ) : Prop :=
  ∀ dx : ℤ, st.1 x = (dx : WithTop ℤ) →
    ((dx, x) ∈ st.2 ∨
     ∀ u ∈ dijAdj w n x, st.1 u ≤ st.1 x + ((w x u : ℤ) : WithTop ℤ))

/-- The full loop invariant. -/
def DInv (w : ℕ → ℕ → ℤ) (n start : ℕ) (st : DState) : Prop :=
  HeapWF n st ∧
  (∀ x, 0 ≤ st.1 x) ∧
  st.1 start ≤ 0 ∧
  (∀ x, ∀ dx : ℤ, st.1 x = (dx : WithTop ℤ) →
    ∃ l, IsWalk (eD w) n start l x ∧ walkWeight w start l = dx) ∧
  (∀ x < n, PendingX w n st x)

theorem dinv_init {w : ℕ → ℕ → ℤ} {n start : ℕ} (hs : start < n) :
    DInv w n start (dijkInit start) := by
  refine ⟨?_, ?_, ?_, ?_, ?_⟩
  · intro e he
    rcases List.mem_singleton.1 he with rfl
    refine ⟨hs, ?_⟩
    show (if start = start then (0 : WithTop ℤ) else ⊤) ≤ ((0 : ℤ) : WithTop ℤ)
    rw [if_pos rfl]
    simp
  · intro x
    show (0 : WithTop ℤ) ≤ if x = start then (0 : WithTop ℤ) else ⊤
    split_ifs
    · exact le_refl _
    · exact le_top
  · show (if start = start then (0 : WithTop ℤ) else ⊤) ≤ 0
    rw [if_pos rfl]
  · intro x dx hdx
    by_cases hxs : x = start
    · subst hxs
      rw [show (dijkInit x).1 x = (0 : WithTop ℤ) from by
        show (if x = x then (0 : WithTop ℤ) else ⊤) = 0
        rw [if_pos rfl]] at hdx
      have hdx0 : dx = 0 := by exact_mod_cast hdx.symm
      subst hdx0
      exact ⟨[], IsWalk.nil x hs, rfl⟩
    · exfalso
      rw [show (dijkInit start).1 x = ⊤ from by
        show (if x = start then (0 : WithTop ℤ) else ⊤) = ⊤
        rw [if_neg hxs]] at hdx
      cases hdx
  · intro x hx dx hdx
    by_cases hxs : x = start
    · subst hxs
      left
      have : dx = 0 := by
        rw [show (dijkInit x).1 x = (0 : WithTop ℤ) from by
          show (if x = x then (0 : WithTop ℤ) else ⊤) = 0
          rw [if_pos rfl]] at hdx
        exact_mod_cast hdx.symm
      rw [this]
      exact List.mem_singleton.2 rfl
    · exfalso
      rw [show (dijkInit start).1 x = ⊤ from by
        show (if x = start then (0 : WithTop ℤ) else ⊤) = ⊤
        rw [if_neg hxs]] at hdx
      cases hdx

/-- The pass preserves heap well-formedness when every processed
neighbour is in range. -/
theorem dijRelax_heapWF {w : ℕ → ℕ → ℤ} {v n : ℕ} :
    ∀ (l : List ℕ) (st : DState), (∀ u ∈ l, u < n) → HeapWF n st →
      HeapWF n (dijRelax w v l st) := by
  intro l
  induction l with
  | nil => intro st _ h; exact h
  | cons u rest ih =>
    intro st hmem hwf
    have hstep : dijRelax w v (u :: rest) st = (match st.1 v with
      | ⊤ => dijRelax w v rest st
      | (dv : ℤ) =>
        if ((dv + w v u : ℤ) : WithTop ℤ) < st.1 u then
          dijRelax w v rest
            (fun y => if y = u then ((dv + w v u : ℤ) : WithTop ℤ) else st.1 y,
             st.2 ++ [(dv + w v u, u)])
        else dijRelax w v rest st) := rfl
    rw [hstep]
    rcases hdv : st.1 v with _ | dv
    · exact ih st (fun x hx => hmem x (List.mem_cons_of_mem u hx)) hwf
    · simp only []
      split_ifs with hlt
    -- fresh update: old entries only see smaller distances, the new entry
    -- records the exact new distance
      · refine ih _ (fun x hx => hmem x (List.mem_cons_of_mem u hx)) ?_
        intro e he
        rcases List.mem_append.1 he with he' | he'
        · obtain ⟨h1, h2⟩ := hwf e he'
          refine ⟨h1, le_trans ?_ h2⟩
          show (if e.2 = u then ((dv + w v u : ℤ) : WithTop ℤ) else st.1 e.2) ≤ st.1 e.2
          split_ifs with he2
          · rw [he2]
            exact le_of_lt hlt
          · exact le_refl _
        · rcases List.mem_singleton.1 he' with rfl
          refine ⟨hmem u (List.mem_cons_self u rest), ?_⟩
          show (if u = u then ((dv + w v u : ℤ) : WithTop ℤ) else st.1 u) ≤ _
          rw [if_pos rfl]
      · exact ih st (fun x hx => hmem x (List.mem_cons_of_mem u hx)) hwf

/-- The pass preserves non-negativity of all distances. -/
theorem dijRelax_nonneg {w : ℕ → ℕ → ℤ} {v : ℕ} :
    ∀ (l : List ℕ) (st : DState), (∀ u ∈ l, 0 < w v u) →
      (∀ x, 0 ≤ st.1 x) → ∀ x, 0 ≤ (dijRelax w v l st).1 x := by
  intro l
  induction l with
  | nil => intro st _ h; exact h
  | cons u rest ih =>
    intro st hpos hnn x
    have hstep : dijRelax w v (u :: rest) st = (match st.1 v with
      | ⊤ => dijRelax w v rest st
      | (dv : ℤ) =>
        if ((dv + w v u : ℤ) : WithTop ℤ) < st.1 u then
          dijRelax w v rest
            (fun y => if y = u then ((dv + w v u : ℤ) : WithTop ℤ) else st.1 y,
             st.2 ++ [(dv + w v u, u)])
        else dijRelax w v rest st) := rfl
    rw [hstep]
    rcases hdv : st.1 v with _ | dv
    · exact ih st (fun y hy => hpos y (List.mem_cons_of_mem u hy)) hnn x
    · simp only []
      split_ifs with hlt
      · refine ih _ (fun y hy => hpos y (List.mem_cons_of_mem u hy)) ?_ x
        intro y
        show (0 : WithTop ℤ) ≤ if y = u then ((dv + w v u : ℤ) : WithTop ℤ) else st.1 y
        split_ifs with hyu
        · have hdv0 : (0 : WithTop ℤ) ≤ st.1 v := hnn v
          rw [hdv] at hdv0
          have hdv0' : ((0 : ℤ) : WithTop ℤ) ≤ ((dv : ℤ) : WithTop ℤ) := hdv0
          have hdvz : (0 : ℤ) ≤ dv := by exact_mod_cast hdv0'
          have hw := hpos u (List.mem_cons_self u rest)
          have : (0 : ℤ) ≤ dv + w v u := by omega
          exact_mod_cast this
        · exact hnn y
      · exact ih st (fun y hy => hpos y (List.mem_cons_of_mem u hy)) hnn x

/-- The pass preserves achievability of every finite distance. -/
theorem dijRelax_ach {w : ℕ → ℕ → ℤ} {v n start : ℕ} :
    ∀ (l : List ℕ) (st : DState), (∀ u ∈ l, u < n ∧ 0 < w v u) →
      (∀ x, ∀ dx : ℤ, st.1 x = (dx : WithTop ℤ) →
        ∃ p, IsWalk (eD w) n start p x ∧ walkWeight w start p = dx) →
      ∀ x, ∀ dx : ℤ, (dijRelax w v l st).1 x = (dx : WithTop ℤ) →
        ∃ p, IsWalk (eD w) n start p x ∧ walkWeight w start p = dx := by
  intro l
  induction l with
  | nil => intro st _ h; exact h
  | cons u rest ih =>
    intro st hok hach x dx
    have hstep : dijRelax w v (u :: rest) st = (match st.1 v with
      | ⊤ => dijRelax w v rest st
      | (dv : ℤ) =>
        if ((dv + w v u : ℤ) : WithTop ℤ) < st.1 u then
          dijRelax w v rest
            (fun y => if y = u then ((dv + w v u : ℤ) : WithTop ℤ) else st.1 y,
             st.2 ++ [(dv + w v u, u)])
        else dijRelax w v rest st) := rfl
    rw [hstep]
    rcases hdv : st.1 v with _ | dv
    · exact ih st (fun y hy => hok y (List.mem_cons_of_mem u hy)) hach x dx
    · simp only []
      split_ifs with hlt
      · refine ih _ (fun y hy => hok y (List.mem_cons_of_mem u hy)) ?_ x dx
        intro y dy hdy
        replace hdy : (if y = u then ((dv + w v u : ℤ) : WithTop ℤ) else st.1 y) =
          (dy : WithTop ℤ) := hdy
        by_cases hyu : y = u
        · rw [if_pos hyu] at hdy
          have hval : dv + w v u = dy := by exact_mod_cast hdy
          obtain ⟨p, hp, hpw⟩ := hach v dv hdv
          have hvn : v < n := hp.end_lt
          have hun : u < n := (hok u (List.mem_cons_self u rest)).1
          have hedge : eD w v u := (hok u (List.mem_cons_self u rest)).2
          rw [hyu]
          refine ⟨p ++ [u], IsWalk.append hp
            (IsWalk.cons v u [] u hvn hedge (IsWalk.nil u hun)), ?_⟩
          rw [walkWeight_append w hp [u], hpw, walkWeight_cons, walkWeight_nil]
          omega
        · rw [if_neg hyu] at hdy
          exact hach y dy hdy
      · exact ih st (fun y hy => hok y (List.mem_cons_of_mem u hy)) hach x dx

/-- Pending-or-relaxed survives any relaxation pass. -/
theorem dijRelax_pendingX {w : ℕ → ℕ → ℤ} {v n : ℕ}
    (l : List ℕ) (st : DState) (x : ℕ)
    (hp : PendingX w n st x) : PendingX w n (dijRelax w v l st) x := by
  intro dx hdx
  rcases dijRelax_unchanged_or_pushed l st x with hsame | ⟨dy, hdy, hmem⟩
  · rw [hsame] at hdx
    rcases hp dx hdx with hin | hrel
    · exact Or.inl (dijRelax_heap_mono l st _ hin)
    · refine Or.inr ?_
      intro u hu
      calc (dijRelax w v l st).1 u ≤ st.1 u := dijRelax_dist_mono l st u
        _ ≤ st.1 x + ((w x u : ℤ) : WithTop ℤ) := hrel u hu
        _ = (dijRelax w v l st).1 x + ((w x u : ℤ) : WithTop ℤ) := by rw [hsame]
  · rw [hdy] at hdx
    have : dy = dx := by exact_mod_cast hdx
    subst this
    exact Or.inl hmem

end Dijkstra9

end GraphLib

namespace GraphLib

namespace Dijkstra9

theorem mem_dijAdj {w : ℕ → ℕ → ℤ} {n i u : ℕ} :
    u ∈ dijAdj w n i ↔ u < n ∧ 0 < w i u := by
  unfold dijAdj
  rw [List.mem_filter, List.mem_range]
  constructor
  · intro ⟨h1, h2⟩
    exact ⟨h1, by exact_mod_cast of_decide_eq_true h2⟩
  · intro ⟨h1, h2⟩
    exact ⟨h1, decide_eq_true h2⟩

/-- One loop iteration preserves the invariant. -/
theorem dinv_step {w : ℕ → ℕ → ℤ} {n start : ℕ} {st st' : DState}
    (hzd : ZeroDiag w n) (hinv : DInv w n start st)
    (hstep : dijkStep w n st = some st') : DInv w n start st' := by
  obtain ⟨hwf, hnn, hst0, hach, hpend⟩ := hinv
  unfold dijkStep at hstep
  rcases hpop : popMin st.2 with _ | ⟨⟨d, v⟩, rest⟩
  · rw [hpop] at hstep; cases hstep
  · rw [hpop] at hstep
    simp only [Option.some.injEq] at hstep
    obtain ⟨hmem, hrest, _⟩ := popMin_spec hpop
    obtain ⟨hvn, hvd⟩ := hwf (d, v) hmem
    have hwf_mid : HeapWF n (st.1, rest) := by
      intro e he
      refine hwf e ?_
      rw [hrest] at he
      exact List.mem_of_mem_erase he
    rw [← hstep]
    split_ifs with hstale
    · -- stale entry: only the heap shrinks
      refine ⟨hwf_mid, hnn, hst0, hach, ?_⟩
      intro x hx dx hdx
      rcases hpend x hx dx hdx with hin | hrel
      · left
        rw [hrest]
        refine (List.mem_erase_of_ne ?_).2 hin
        intro hc
        injection hc with h1 h2
        rw [h2] at hdx
        replace hdx : st.1 v = (dx : WithTop ℤ) := hdx
        rw [hdx, h1] at hstale
        exact lt_irrefl _ hstale
      · exact Or.inr hrel
    · -- fresh entry: relax every out-neighbour of `v`
      have hveq : st.1 v = (d : WithTop ℤ) :=
        le_antisymm hvd (le_of_not_lt hstale)
      have hadj_ok : ∀ u ∈ dijAdj w n v, u < n ∧ 0 < w v u :=
        fun u hu => mem_dijAdj.1 hu
      have hvnotadj : v ∉ dijAdj w n v := by
        intro hc
        have := (mem_dijAdj.1 hc).2
        rw [hzd v hvn] at this
        exact lt_irrefl 0 this
      refine ⟨?_, ?_, ?_, ?_, ?_⟩
      · exact dijRelax_heapWF _ _ (fun u hu => (hadj_ok u hu).1) hwf_mid
      · exact dijRelax_nonneg _ _ (fun u hu => (hadj_ok u hu).2) hnn
      · exact le_trans (dijRelax_dist_mono _ _ start) hst0
      · exact dijRelax_ach _ _ hadj_ok hach
      · intro x hx dx hdx
        by_cases hxv : x = v
        · -- the popped vertex is now fully relaxed at its own distance
          subst hxv
          refine Or.inr ?_
          intro u hu
          have h1 := @dijRelax_closure w x (dijAdj w n x) (st.1, rest) u hu hvnotadj
          have h2 : (dijRelax w x (dijAdj w n x) (st.1, rest)).1 x = st.1 x :=
            dijRelax_dist_outside _ _ x hvnotadj
          rw [h2]
          exact h1
        · -- other vertices: transported pending-or-relaxed
          refine dijRelax_pendingX _ (st.1, rest) x ?_ dx hdx
          intro dy hdy
          rcases hpend x hx dy hdy with hin | hrel
          · left
            rw [hrest]
            refine (List.mem_erase_of_ne ?_).2 hin
            intro hc
            injection hc with h1 h2
            exact hxv h2
          · exact Or.inr hrel

end Dijkstra9

end GraphLib

namespace GraphLib

namespace Dijkstra9

/-- Number of still-infinite distances among the first `n` vertices. -/
def countTopD (d : ℕ → WithTop ℤ) (n : ℕ) : ℕ :=
  ∑ u ∈ Finset.range n, if d u = ⊤ then 1 else 0

/-- Finite part of a distance, as a natural number. -/
def tn : WithTop ℤ → ℕ
  | ⊤ => 0
  | (z : ℤ) => z.toNat

/-- Sum of the finite distances among the first `n` vertices. -/
def sumD (d : ℕ → WithTop ℤ) (n : ℕ) : ℕ :=
  ∑ u ∈ Finset.range n, tn (d u)

/-- Strict decrease of the pair `(countTopD, sumD)` in lexicographic
order. -/
def Lex12 (n : ℕ) (d1 d0 : ℕ → WithTop ℤ) : Prop :=
  countTopD d1 n < countTopD d0 n ∨
  (countTopD d1 n = countTopD d0 n ∧ sumD d1 n < sumD d0 n)

theorem lex12_trans {n : ℕ} {d2 d1 d0 : ℕ → WithTop ℤ}
    (h21 : Lex12 n d2 d1) (h10 : Lex12 n d1 d0) : Lex12 n d2 d0 := by
  unfold Lex12 at *
  omega

/-- A single relaxation update strictly decreases the measure. -/
theorem lex12_update {n u : ℕ} {d : ℕ → WithTop ℤ} {c : ℤ}
    (hun : u < n) (hc : 0 ≤ c) (hlt : (c : WithTop ℤ) < d u) :
    Lex12 n (fun y => if y = u then (c : WithTop ℤ) else d y) d := by
  rcases hdu : d u with _ | o
  · -- the entry was infinite: the count of infinities drops
    have hdu' : d u = ⊤ := hdu
    left
    unfold countTopD
    refine Finset.sum_lt_sum ?_ ⟨u, Finset.mem_range.2 hun, ?_⟩
    · intro y _
      by_cases hyu : y = u
      · rw [hyu, hdu']
        simp
      · rw [show (fun y => if y = u then (c : WithTop ℤ) else d y) y = d y from
          if_neg hyu]
    · rw [show (fun y => if y = u then (c : WithTop ℤ) else d y) u =
          (c : WithTop ℤ) from if_pos rfl, hdu']
      simp
  · -- finite to strictly smaller finite: the count is unchanged and the
    -- sum of finite parts drops
    right
    constructor
    · unfold countTopD
      refine Finset.sum_congr rfl ?_
      intro y _
      by_cases hyu : y = u
      · rw [hyu, hdu,
          show (fun y => if y = u then (c : WithTop ℤ) else d y) u =
            (c : WithTop ℤ) from if_pos rfl]
        simp
      · rw [show (fun y => if y = u then (c : WithTop ℤ) else d y) y = d y from
          if_neg hyu]
    · unfold sumD
      refine Finset.sum_lt_sum ?_ ⟨u, Finset.mem_range.2 hun, ?_⟩
      · intro y _
        by_cases hyu : y = u
        · rw [hyu, hdu,
            show (fun y => if y = u then (c : WithTop ℤ) else d y) u =
              (c : WithTop ℤ) from if_pos rfl]
          show tn (c : WithTop ℤ) ≤ tn (o : WithTop ℤ)
          show c.toNat ≤ o.toNat
          rw [hdu] at hlt
          have hlt' : ((c : ℤ) : WithTop ℤ) < ((o : ℤ) : WithTop ℤ) := hlt
          have hco : c < o := by exact_mod_cast hlt'
          omega
        · rw [show (fun y => if y = u then (c : WithTop ℤ) else d y) y = d y from
            if_neg hyu]
      · rw [show (fun y => if y = u then (c : WithTop ℤ) else d y) u =
            (c : WithTop ℤ) from if_pos rfl, hdu]
        show tn (c : WithTop ℤ) < tn (o : WithTop ℤ)
        show c.toNat < o.toNat
        rw [hdu] at hlt
        have hlt' : ((c : ℤ) : WithTop ℤ) < ((o : ℤ) : WithTop ℤ) := hlt
        have hco : c < o := by exact_mod_cast hlt'
        omega

/-- The relaxation pass either leaves the state untouched or strictly
decreases the measure. -/
theorem dijRelax_lex {w : ℕ → ℕ → ℤ} {v n : ℕ} :
    ∀ (l : List ℕ) (st : DState), (∀ u ∈ l, u < n ∧ 0 < w v u) →
      (∀ x, 0 ≤ st.1 x) →
      dijRelax w v l st = st ∨ Lex12 n (dijRelax w v l st).1 st.1 := by
  intro l
  induction l with
  | nil => intro st _ _; exact Or.inl rfl
  | cons u rest ih =>
    intro st hok hnn
    have hstep : dijRelax w v (u :: rest) st = (match st.1 v with
      | ⊤ => dijRelax w v rest st
      | (dv : ℤ) =>
        if ((dv + w v u : ℤ) : WithTop ℤ) < st.1 u then
          dijRelax w v rest
            (fun y => if y = u then ((dv + w v u : ℤ) : WithTop ℤ) else st.1 y,
             st.2 ++ [(dv + w v u, u)])
        else dijRelax w v rest st) := rfl
    rw [hstep]
    rcases hdv : st.1 v with _ | dv
    · exact ih st (fun y hy => hok y (List.mem_cons_of_mem u hy)) hnn
    · simp only []
      split_ifs with hlt
      · -- one relaxation fired
        right
        have hdvz : (0 : ℤ) ≤ dv := by
          have h0 : (0 : WithTop ℤ) ≤ st.1 v := hnn v
          rw [hdv] at h0
          have h0' : ((0 : ℤ) : WithTop ℤ) ≤ ((dv : ℤ) : WithTop ℤ) := h0
          exact_mod_cast h0'
        have hwv := (hok u (List.mem_cons_self u rest)).2
        have hupd : Lex12 n
            (fun y => if y = u then ((dv + w v u : ℤ) : WithTop ℤ) else st.1 y)
            st.1 :=
          lex12_update (hok u (List.mem_cons_self u rest)).1 (by omega) hlt
        have hnn1 : ∀ x, 0 ≤ (fun y =>
            if y = u then ((dv + w v u : ℤ) : WithTop ℤ) else st.1 y, st.2 ++
            [(dv + w v u, u)]).1 x := by
          intro x
          show (0 : WithTop ℤ) ≤
            if x = u then ((dv + w v u : ℤ) : WithTop ℤ) else st.1 x
          split_ifs with hxu
          · have : (0 : ℤ) ≤ dv + w v u := by omega
            exact_mod_cast this
          · exact hnn x
        rcases ih _ (fun y hy => hok y (List.mem_cons_of_mem u hy)) hnn1 with
          heq | hrec
        · rw [heq]
          exact hupd
        · exact lex12_trans hrec hupd
      · exact ih st (fun y hy => hok y (List.mem_cons_of_mem u hy)) hnn

/-- Each iteration either strictly decreases the distance measure or
keeps distances and shrinks the heap. -/
theorem dijkStep_measure {w : ℕ → ℕ → ℤ} {n : ℕ} {st st' : DState}
    (hnn : ∀ x, 0 ≤ st.1 x) (hstep : dijkStep w n st = some st') :
    Lex12 n st'.1 st.1 ∨ (st'.1 = st.1 ∧ st'.2.length < st.2.length) := by
  unfold dijkStep at hstep
  rcases hpop : popMin st.2 with _ | ⟨⟨d, v⟩, rest⟩
  · rw [hpop] at hstep; cases hstep
  · rw [hpop] at hstep
    simp only [Option.some.injEq] at hstep
    obtain ⟨_, _, hlen⟩ := popMin_spec hpop
    rw [← hstep]
    split_ifs with hstale
    · right
      refine ⟨rfl, ?_⟩
      show rest.length < st.2.length
      omega
    · rcases dijRelax_lex (dijAdj w n v) (st.1, rest)
        (fun u hu => mem_dijAdj.1 hu) hnn with heq | hlex
      · right
        rw [heq]
        refine ⟨rfl, ?_⟩
        show rest.length < st.2.length
        omega
      · exact Or.inl hlex

end Dijkstra9

end GraphLib

namespace GraphLib

namespace Dijkstra9

/-- The loop terminates from every invariant-satisfying state, with the
invariant transported to the final (empty-heap) state. -/
theorem dijkLoop_term {w : ℕ → ℕ → ℤ} {n start : ℕ} (hzd : ZeroDiag w n) :
    ∀ (ct sm hl : ℕ) (st : DState), countTopD st.1 n = ct →
      sumD st.1 n = sm → st.2.length = hl → DInv w n start st →
      ∃ f dv, dijkLoop w n f st = some dv ∧ DInv w n start (dv, []) := by
  intro ct
  induction ct using Nat.strong_induction_on with
  | _ ct ihct =>
    intro sm
    induction sm using Nat.strong_induction_on with
    | _ sm ihsm =>
      intro hl
      induction hl using Nat.strong_induction_on with
      | _ hl ihhl =>
        intro st hct hsm hhl hinv
        rcases hstep : dijkStep w n st with _ | st'
        · -- heap exhausted: the loop returns the current distances
          have hempty : st.2 = [] := by
            unfold dijkStep at hstep
            rcases hpop : popMin st.2 with _ | pr
            · exact popMin_none hpop
            · rw [hpop] at hstep; cases hstep
          refine ⟨1, st.1, ?_, ?_⟩
          · show (match dijkStep w n st with
              | none => some st.1
              | some st' => dijkLoop w n 0 st') = some st.1
            rw [hstep]
          · have hst : (st.1, ([] : List (ℤ × ℕ))) = st := by
              rw [← hempty]
            rw [hst]
            exact hinv
        · have hinv' := dinv_step hzd hinv hstep
          have hmeas := dijkStep_measure hinv.2.1 hstep
          have hnext : ∃ f dv, dijkLoop w n f st' = some dv ∧
              DInv w n start (dv, []) := by
            rcases hmeas with hlex | ⟨hdeq, hllt⟩
            · rcases hlex with hctlt | ⟨hcteq, hsmlt⟩
              · exact ihct (countTopD st'.1 n) (by omega) (sumD st'.1 n)
                  (st'.2.length) st' rfl rfl rfl hinv'
              · exact ihsm (sumD st'.1 n) (by omega) (st'.2.length) st'
                  (by omega) rfl rfl hinv'
            · have h1 : countTopD st'.1 n = ct := by rw [hdeq]; exact hct
              have h2 : sumD st'.1 n = sm := by rw [hdeq]; exact hsm
              exact ihhl (st'.2.length) (by omega) st' h1 h2 rfl hinv'
          obtain ⟨f, dv, hloop, hfin⟩ := hnext
          refine ⟨f + 1, dv, ?_, hfin⟩
          show (match dijkStep w n st with
            | none => some st.1
            | some st' => dijkLoop w n f st') = some dv
          rw [hstep]
          exact hloop

/-- More fuel does not change a successful run. -/
theorem dijkLoop_mono {w : ℕ → ℕ → ℤ} {n : ℕ} :
    ∀ (f : ℕ) (st : DState) (dv : ℕ → WithTop ℤ),
      dijkLoop w n f st = some dv →
      ∀ f', f ≤ f' → dijkLoop w n f' st = some dv := by
  intro f
  induction f with
  | zero => intro st dv h; cases h
  | succ f ih =>
    intro st dv h f' hf'
    cases f' with
    | zero => omega
    | succ f'' =>
      replace h : (match dijkStep w n st with
        | none => some st.1
        | some st' => dijkLoop w n f st') = some dv := h
      show (match dijkStep w n st with
        | none => some st.1
        | some st' => dijkLoop w n f'' st') = some dv
      rcases hstep : dijkStep w n st with _ | st'
      · rw [hstep] at h
        exact h
      · rw [hstep] at h
        exact ih st' dv h f'' (by omega)

end Dijkstra9

end GraphLib

namespace GraphLib

namespace Dijkstra9

/-- At termination (empty heap) every finite vertex has all its
out-edges relaxed. -/
theorem dij_closure {w : ℕ → ℕ → ℤ} {n start : ℕ}
    {dv : ℕ → WithTop ℤ} (hinv : DInv w n start (dv, []))
    {x u : ℕ} (hx : x < n) (hu : u ∈ dijAdj w n x) :
    dv u ≤ dv x + ((w x u : ℤ) : WithTop ℤ) := by
  rcases hdx : dv x with _ | dx
  · show dv u ≤ (⊤ : WithTop ℤ) + ((w x u : ℤ) : WithTop ℤ)
    rw [top_add]
    exact le_top
  · rcases hinv.2.2.2.2 x hx dx hdx with hin | hrel
    · cases hin
    · rw [← hdx]
      exact hrel u hu

/-- Distances are compatible with every walk along positive edges. -/
theorem dij_le_walk {w : ℕ → ℕ → ℤ} {n start : ℕ}
    {dv : ℕ → WithTop ℤ} (hinv : DInv w n start (dv, [])) :
    ∀ {a l b}, IsWalk (eD w) n a l b →
      dv b ≤ dv a + ((walkWeight w a l : ℤ) : WithTop ℤ) := by
  intro a l b hwalk
  induction hwalk with
  | nil i hi =>
    rw [walkWeight_nil]
    have h0 : ((0 : ℤ) : WithTop ℤ) = 0 := rfl
    rw [h0, add_zero]
  | cons a b l c ha he hrest ih =>
    have hb : b < n := hrest.start_lt
    have hbadj : b ∈ dijAdj w n a := mem_dijAdj.2 ⟨hb, he⟩
    have hcl := dij_closure hinv ha hbadj
    calc dv c ≤ dv b + ((walkWeight w b l : ℤ) : WithTop ℤ) := ih
      _ ≤ (dv a + ((w a b : ℤ) : WithTop ℤ)) +
            ((walkWeight w b l : ℤ) : WithTop ℤ) := add_le_add_right hcl _
      _ = dv a + (((w a b : ℤ) : WithTop ℤ) +
            ((walkWeight w b l : ℤ) : WithTop ℤ)) := add_assoc _ _ _
      _ = dv a + ((walkWeight w a (b :: l) : ℤ) : WithTop ℤ) := by
            rw [walkWeight_cons, WithTop.coe_add]

/-- From the source the final distances are bounded by every walk
weight. -/
theorem dij_le_walk_start {w : ℕ → ℕ → ℤ} {n start : ℕ}
    {dv : ℕ → WithTop ℤ} (hinv : DInv w n start (dv, []))
    {l : List ℕ} {b : ℕ} (hwalk : IsWalk (eD w) n start l b) :
    dv b ≤ ((walkWeight w start l : ℤ) : WithTop ℤ) := by
  have h0 : dv start = 0 := le_antisymm hinv.2.2.1 (hinv.2.1 start)
  have := dij_le_walk hinv hwalk
  rw [h0, zero_add] at this
  exact this

end Dijkstra9

/-- Under a non-negative zero-diagonal matrix the two adjacency relations
walk identically. -/
theorem walk_eFW_of_eD {w : ℕ → ℕ → ℤ} {n : ℕ} (hzd : ZeroDiag w n) :
    ∀ {a l b}, IsWalk (Dijkstra9.eD w) n a l b →
      IsWalk (Floyd10.eFW w) n a l b := by
  intro a l b hwalk
  induction hwalk with
  | nil i hi => exact IsWalk.nil i hi
  | cons a b l c ha he hrest ih =>
    refine IsWalk.cons a b l c ha ⟨?_, ?_⟩ ih
    · intro hc
      rw [← hc] at he
      have := hzd a ha
      unfold Dijkstra9.eD at he
      omega
    · unfold Dijkstra9.eD at he
      omega

theorem walk_eD_of_eFW {w : ℕ → ℕ → ℤ} {n : ℕ} (hnn : NonnegMat w n) :
    ∀ {a l b}, IsWalk (Floyd10.eFW w) n a l b →
      IsWalk (Dijkstra9.eD w) n a l b := by
  intro a l b hwalk
  induction hwalk with
  | nil i hi => exact IsWalk.nil i hi
  | cons a b l c ha he hrest ih =>
    refine IsWalk.cons a b l c ha ?_ ih
    have hb : b < n := hrest.start_lt
    have h0 := hnn a ha b hb
    unfold Dijkstra9.eD
    obtain ⟨_, hne⟩ := he
    omega

/-- Under non-negative weights the Floyd–Warshall run returns without
the negative-cycle error. -/
theorem fw_ok_of_nonneg {w : ℕ → ℕ → ℤ} {n : ℕ} (hnn : NonnegMat w n) :
    Floyd10.floydWarshall w n = .ok (Floyd10.fwFinal w n) := by
  unfold Floyd10.floydWarshall
  simp only []
  rw [if_neg]
  rintro ⟨i, hi, hneg⟩
  obtain ⟨v, hv, hvlt⟩ : ∃ v : ℤ,
      (Floyd10.fwFinal w n).1 i i = (v : WithTop ℤ) ∧ v < 0 := by
    rcases (WithTop.lt_iff_exists_coe).1 hneg with ⟨p, hp, hplt⟩
    exact ⟨p, hp, by exact_mod_cast hplt⟩
  obtain ⟨l, hwalk, hweight⟩ := Floyd10.fwFinal_ach w n i hi i hi v hv
  have := walkWeight_nonneg hnn hwalk
  omega

end GraphLib

namespace GraphLib

/-- C1: on a non-negative zero-diagonal weight matrix, Dijkstra from any
source `v` terminates (uniformly for all sufficient fuel), Floyd–Warshall
returns without error, and the Dijkstra distance vector equals row `v` of
the Floyd–Warshall distance matrix entry for entry, infinite sentinels
included. -/
theorem C1_dijkstra_matches_floyd_warshall (w : ℕ → ℕ → ℤ) (n v : ℕ)
    (hnn : NonnegMat w n) (hzd : ZeroDiag w n) (hv : v < n) :
    ∃ F dvec,
      (∀ f, F ≤ f →
        Dijkstra9.dijkLoop w n f (Dijkstra9.dijkInit v) = some dvec) ∧
      Floyd10.floydWarshall w n = .ok (Floyd10.fwFinal w n) ∧
      (∀ j < n, dvec j = (Floyd10.fwFinal w n).1 v j) := by
  obtain ⟨F, dvec, hloop, hfin⟩ := @Dijkstra9.dijkLoop_term w n v hzd
    (Dijkstra9.countTopD (Dijkstra9.dijkInit v).1 n)
    (Dijkstra9.sumD (Dijkstra9.dijkInit v).1 n)
    ((Dijkstra9.dijkInit v).2.length) (Dijkstra9.dijkInit v)
    rfl rfl rfl (Dijkstra9.dinv_init hv)
  refine ⟨F, dvec,
    fun f hf => Dijkstra9.dijkLoop_mono F _ dvec hloop f hf,
    fw_ok_of_nonneg hnn, ?_⟩
  intro j hj
  apply le_antisymm
  · -- at most the Floyd–Warshall entry
    rcases hfw : (Floyd10.fwFinal w n).1 v j with _ | b
    · exact le_top
    · obtain ⟨l, hwalk, hwt⟩ := Floyd10.fwFinal_ach w n v hv j hj b hfw
      have hD := walk_eD_of_eFW hnn hwalk
      have hle := Dijkstra9.dij_le_walk_start hfin hD
      rw [hwt] at hle
      exact hle
  · -- at least the Floyd–Warshall entry
    rcases hdj : dvec j with _ | a
    · exact le_top
    · obtain ⟨l, hwalk, hwt⟩ := hfin.2.2.2.1 j a hdj
      have hFW := walk_eFW_of_eD hzd hwalk
      have hle := Floyd10.fw_le_walk hnn hv hj hFW
      rw [hwt] at hle
      exact hle

/-- Witness for C1 on a concrete 3-vertex graph. -/
theorem C1_dijkstra_matches_floyd_warshall_witness :
    ∃ F dvec,
      (∀ f, F ≤ f →
        Dijkstra9.dijkLoop (matOf [[0,2,0],[0,0,3],[0,0,0]]) 3 f
          (Dijkstra9.dijkInit 0) = some dvec) ∧
      Floyd10.floydWarshall (matOf [[0,2,0],[0,0,3],[0,0,0]]) 3 =
        .ok (Floyd10.fwFinal (matOf [[0,2,0],[0,0,3],[0,0,0]]) 3) ∧
      (∀ j < 3, dvec j =
        (Floyd10.fwFinal (matOf [[0,2,0],[0,0,3],[0,0,0]]) 3).1 0 j) :=
  C1_dijkstra_matches_floyd_warshall (matOf [[0,2,0],[0,0,3],[0,0,0]]) 3 0
    (by decide) (by decide) (by decide)

end GraphLib
